import Mathlib

/-!
# Embag: a reader for ROS bag files (version 2.0)

A shallow embedding of `lib/embag.cc` and theorems about it.

Conventions of the embedding
* a byte is a `Nat`; a `std::string` or a byte range is a `List Nat`;
* a `const char*` into the mapped file is an `Int` offset from the start of the mapping;
* a pointer into a `std::vector` is the index of the element;
* a C++ exception is a value of `Exn`; a function that can throw returns its result
  together with the state it leaves behind.
-/

set_option autoImplicit false
set_option linter.dupNamespace false
set_option maxRecDepth 100000

namespace Embag

/-! ## Bytes and fixed-width integers -/

/-- Bytes of an ASCII string literal. -/
def bytes (s : String) : List Nat := s.toList.map Char.toNat

/-- Value of a little-endian byte sequence (each byte taken modulo 256). -/
def le_decode : List Nat → Nat
  | [] => 0
  | b :: bs => b % 256 + 256 * le_decode bs

/-- The `w` little-endian bytes of `n`. -/
def le_encode : Nat → Nat → List Nat
  | 0, _ => []
  | w + 1, n => n % 256 :: le_encode w (n / 256)

/-- Result of `std::memcpy`-ing `src` over the start of `dst` (as `istream::read` does with the
bytes it obtained). -/
def overwrite (dst src : List Nat) : List Nat := src ++ dst.drop src.length

/-- The `len` bytes of `mem` starting at pointer `p`; `none` when the range leaves the mapping. -/
def slice (mem : List Nat) (p : Int) (len : Nat) : Option (List Nat) :=
  if 0 ≤ p ∧ p.toNat + len ≤ mem.length then some ((mem.drop p.toNat).take len) else none

/-- Exceptions thrown by the library. -/
inductive Exn where
  /-- The exception `std::runtime_error(what + detail)`. -/
  | runtime_error (what : String) (detail : List Nat)
  /-- The exception `std::out_of_range` of `unordered_map::at` for a missing key. -/
  | out_of_range (key : List Nat)
  /-- No exception: the program has left defined behaviour at the named place. -/
  | undefined_behaviour (site : String)
  deriving DecidableEq

/-- Equality of outcomes is decidable. -/
instance instDecidableEqExcept {ε α : Type} [DecidableEq ε] [DecidableEq α] :
    DecidableEq (Except ε α)
  | .ok a, .ok b => if h : a = b then isTrue (by rw [h]) else isFalse (fun h' => by cases h'; exact h rfl)
  | .error a, .error b =>
    if h : a = b then isTrue (by rw [h]) else isFalse (fun h' => by cases h'; exact h rfl)
  | .ok _, .error _ => isFalse (fun h => by cases h)
  | .error _, .ok _ => isFalse (fun h => by cases h)

/-! ## The input stream over the mapped file -/

/-- State of `bag_stream_`, a `boost::iostreams::stream<mapped_file_source>`. `failed` is
`fail()`, that is failbit or badbit. -/
structure Stream where
  is_open : Bool
  data : List Nat
  pos : Nat
  failed : Bool
  deriving DecidableEq

namespace Stream

/-- A stream that was never opened. -/
def closed : Stream := { is_open := false, data := [], pos := 0, failed := false }

/-- The stream after `open(mapped_file_source)`. -/
def opened (file : List Nat) : Stream := { is_open := true, data := file, pos := 0, failed := false }

/-- The call `read(buf, n)`: the bytes copied to the start of `buf` and the stream afterwards. A
failed stream copies nothing; a read that hits the end of the file copies what is left and sets
failbit. -/
def read (s : Stream) (n : Nat) : List Nat × Stream :=
  if s.failed then ([], s)
  else if s.pos + n ≤ s.data.length then ((s.data.drop s.pos).take n, { s with pos := s.pos + n })
  else (s.data.drop s.pos, { s with pos := s.data.length, failed := true })

/-- The call `tellg()`: `-1` on a failed stream. -/
def tellg (s : Stream) : Int := if s.failed then -1 else (s.pos : Int)

/-- The call `seekg(off, std::ios_base::cur)` with a non-negative offset: a target past the end of
the mapping is refused by the stream buffer and sets badbit. -/
def seekg (s : Stream) (off : Nat) : Stream :=
  if s.failed then s
  else if s.pos + off ≤ s.data.length then { s with pos := s.pos + off }
  else { s with failed := true }

/-- The call `close()`. -/
def close (s : Stream) : Stream := { s with is_open := false }

end Stream

/-! ## Records -/

/-- The struct `RosBagTypes::record_t`. -/
structure record_t where
  header_len : Nat
  header : Int
  data_len : Nat
  data : Int
  deriving DecidableEq

/-- `Embag::readRecord` (embag.cc:59-76). -/
def readRecord (s : Stream) : record_t × Stream :=
  -- Read header length
  let (b1, s1) := s.read 4
  let header_len := le_decode (overwrite [0, 0, 0, 0] b1)
  -- Set the header data pointer and skip to the next section
  let header := s1.tellg
  let s2 := s1.seekg header_len
  -- Read data length
  let (b2, s3) := s2.read 4
  let data_len := le_decode (overwrite [0, 0, 0, 0] b2)
  -- Set the data pointer and skip to the next record
  let data := s3.tellg
  let s4 := s3.seekg data_len
  ({ header_len := header_len, header := header, data_len := data_len, data := data }, s4)

/-! ## Header fields -/

/-- A `std::unordered_map<std::string, T>`: an association list in which no key occurs twice. -/
abbrev Dict (α : Type) := List (List Nat × α)

namespace Dict

/-- The lookup `find(k)`. -/
def find {α : Type} (d : Dict α) (k : List Nat) : Option α := List.lookup k d

/-- The assignment `d[k] = v`: replaces the value of an existing key, adds a missing one. -/
def assign {α : Type} : Dict α → List Nat → α → Dict α
  | [], k, v => [(k, v)]
  | (k', v') :: d, k, v => if k' = k then (k', v) :: d else (k', v') :: assign d k v

/-- The keys held by the map. -/
def keys {α : Type} (d : Dict α) : List (List Nat) := d.map Prod.fst

end Dict

/-- The call `buffer.find(c)`: index of the first occurrence. -/
def find_char (c : Nat) : List Nat → Option Nat
  | [] => none
  | b :: bs => if b = c then some 0 else (find_char c bs).map (· + 1)

/-- The loop of `Embag::readFields` (embag.cc:83-102) over the mapped file `mem`, started with
enough fuel for every iteration (see `readFields`). -/
def readFieldsLoop (mem : List Nat) (end_ : Int) : Nat → Int → Dict (List Nat) →
    Except Exn (Dict (List Nat))
  | 0, _, fields => .ok fields
  | fuel + 1, p, fields =>
    if p < end_ then
      match slice mem p 4 with
      | none => .error (.undefined_behaviour "readFields: field_len read outside the mapped file")
      | some lb =>
        let field_len := le_decode lb
        let p := p + 4
        match slice mem p field_len with
        | none => .error (.undefined_behaviour "readFields: field read outside the mapped file")
        | some buffer =>
          match find_char 61 buffer with
          | none => .error (.runtime_error
              "Unable to find '=' in header field - perhaps this bag is corrupt..." [])
          | some sep =>
            let name := buffer.take sep
            let value := buffer.drop (sep + 1)
            readFieldsLoop mem end_ fuel (p + field_len) (Dict.assign fields name value)
    else .ok fields

/-- `Embag::readFields` (embag.cc:79-105). Every iteration advances `p` by at least four bytes, so
`len + 1` iterations are never used up. -/
def readFields (mem : List Nat) (p : Int) (len : Nat) : Except Exn (Dict (List Nat)) :=
  readFieldsLoop mem (p + len) (len + 1) p []

/-- The struct `RosBagTypes::header_t`. -/
structure header_t where
  fields : Dict (List Nat)
  deriving DecidableEq

/-- `Embag::readHeader` (embag.cc:107-113). -/
def readHeader (mem : List Nat) (record : record_t) : Except Exn header_t :=
  match readFields mem record.header record.header_len with
  | .error e => .error e
  | .ok fields => .ok { fields := fields }

/-- The call `at(k)` of `std::unordered_map`: a missing key throws `std::out_of_range`. -/
def Dict.at {α : Type} (d : Dict α) (k : List Nat) : Except Exn α :=
  match d.find k with
  | some v => .ok v
  | none => .error (.out_of_range k)

/-- Modelled from the spec: `header_t::getOp`, the reserved field `op` read as a single-byte
opcode (an empty value reads the terminating zero of the string). -/
def header_t.getOp (h : header_t) : Except Exn Nat :=
  match Dict.at h.fields (bytes "op") with
  | .error e => .error e
  | .ok v => .ok (v.headD 0 % 256)

/-- Modelled from the spec: `header_t::getField` for a string, the raw value. -/
def header_t.getString (h : header_t) (name : String) : Except Exn (List Nat) :=
  Dict.at h.fields (bytes name)

/-- Modelled from the spec: `header_t::getField<T>` for a fixed-width unsigned `T` of `width`
bytes, the raw value reinterpreted as little-endian. -/
def header_t.getUInt (h : header_t) (name : String) (width : Nat) : Except Exn Nat :=
  match Dict.at h.fields (bytes name) with
  | .error e => .error e
  | .ok v => .ok (le_decode (v.take width))

/-! ## Boost.Spirit.Qi

The parsers of Qi that the grammar uses. A parser is called with the skipper in force and the
input left; it answers with its attribute, or with no attribute when it fails, and with the
position of the iterator `first` after the call. As in Qi, a primitive parser skips before it
matches and leaves the iterator behind the skipped input also when it fails, a sequence restores
the iterator when it fails, and `*`, `+`, `|` and `-` pass the iterator on as their operands
leave it. -/

/-- The input between the iterator `first` and `last`. -/
abbrev Input := List Nat

/-- Outcome of a call `parse(first, last, context, skipper, attr)`. -/
structure Res (α : Type) where
  val : Option α
  rest : Input
  deriving DecidableEq

/-- The effect of `qi::skip_over(first, last, skipper)` on the input. -/
abbrev Skip := Input → Input

/-- A Qi parser with attribute `α`. -/
abbrev Parser (α : Type) := Skip → Input → Res α

namespace Qi

/-- `Encoding::ischar` of the ascii encoding. -/
def ischar (c : Nat) : Bool := c < 128

/-- `Encoding::isspace` of the ascii encoding, whose domain is the characters below 128; a byte
outside the domain is taken not to be a space. -/
def isspace (c : Nat) : Bool := c == 32 || (9 ≤ c && c ≤ 13)

/-- A decimal digit. -/
def isdigit (c : Nat) : Bool := 48 ≤ c && c ≤ 57

/-- A character parser: skips, then takes one character that passes `test`. -/
def char_class (test : Nat → Bool) : Parser Nat := fun sk s =>
  match sk s with
  | [] => ⟨none, []⟩
  | c :: r => if test c then ⟨some c, r⟩ else ⟨none, c :: r⟩

/-- The parser `ascii::char_`. -/
def char_ : Parser Nat := char_class ischar

/-- The parser `ascii::space`. -/
def space : Parser Nat := char_class isspace

/-- The directive `omit[p]`, and every place where Qi drops an attribute. -/
def omit_ {α : Type} (p : Parser α) : Parser Unit := fun sk s =>
  match p sk s with
  | ⟨some _, r⟩ => ⟨some (), r⟩
  | ⟨none, r⟩ => ⟨none, r⟩

/-- The parser `lit(c)` for a character. -/
def lit (c : Nat) : Parser Unit := omit_ (char_class (fun x => x == c))

/-- The parser `lit(str)` for a string. -/
def lit_string (str : List Nat) : Parser Unit := fun sk s =>
  if str.isPrefixOf (sk s) then ⟨some (), (sk s).drop str.length⟩ else ⟨none, sk s⟩

/-- The parser `eol`: CR, LF or CR LF. -/
def eol : Parser Unit := fun sk s =>
  match sk s with
  | 13 :: 10 :: r => ⟨some (), r⟩
  | 13 :: r => ⟨some (), r⟩
  | 10 :: r => ⟨some (), r⟩
  | r => ⟨none, r⟩

/-- The parser `uint_` for `unsigned int`: all the digits that follow, rejected when there is none
or when the value does not fit 32 bits. -/
def uint_ : Parser Nat := fun sk s =>
  let ds := (sk s).takeWhile isdigit
  let v := ds.foldl (fun n c => 10 * n + (c - 48)) 0
  if ds.isEmpty then ⟨none, sk s⟩
  else if v < 2 ^ 32 then ⟨some v, (sk s).dropWhile isdigit⟩
  else ⟨none, sk s⟩

/-- The parser `attr(v)`: consumes nothing and succeeds. -/
def attr {α : Type} (v : α) : Parser α := fun _ s => ⟨some v, s⟩

/-- The attribute of `p` passed through `f` (the conversion to the attribute of a rule). -/
def pmap {α β : Type} (f : α → β) (p : Parser α) : Parser β := fun sk s =>
  match p sk s with
  | ⟨some a, r⟩ => ⟨some (f a), r⟩
  | ⟨none, r⟩ => ⟨none, r⟩

/-- The sequence `p >> q`. -/
def seq {α β : Type} (p : Parser α) (q : Parser β) : Parser (α × β) := fun sk s =>
  match p sk s with
  | ⟨none, _⟩ => ⟨none, s⟩
  | ⟨some a, r⟩ =>
    match q sk r with
    | ⟨none, _⟩ => ⟨none, s⟩
    | ⟨some b, r'⟩ => ⟨some (a, b), r'⟩

/-- The sequence `p >> q` where `q` has no attribute. -/
def seq_l {α β : Type} (p : Parser α) (q : Parser β) : Parser α := pmap Prod.fst (seq p q)

/-- The sequence `p >> q` where `p` has no attribute. -/
def seq_r {α β : Type} (p : Parser α) (q : Parser β) : Parser β := pmap Prod.snd (seq p q)

/-- The alternative `p | q`. -/
def alt {α : Type} (p q : Parser α) : Parser α := fun sk s =>
  match p sk s with
  | ⟨some a, r⟩ => ⟨some a, r⟩
  | ⟨none, r⟩ => q sk r

/-- The difference `p - q`. -/
def diff {α β : Type} (p : Parser α) (q : Parser β) : Parser α := fun sk s =>
  match q sk s with
  | ⟨some _, _⟩ => ⟨none, s⟩
  | ⟨none, r⟩ => p sk r

/-- The loop of `*p`. An iteration that succeeds consumes input, so `fuel` above the length of
the input is never used up. -/
def kleene_loop {α : Type} (p : Parser α) (sk : Skip) : Nat → Input → List α × Input
  | 0, s => ([], s)
  | fuel + 1, s =>
    match p sk s with
    | ⟨none, r⟩ => ([], r)
    | ⟨some a, r⟩ =>
      if r.length < s.length then ((a :: (kleene_loop p sk fuel r).1), (kleene_loop p sk fuel r).2)
      else ([a], r)

/-- The iterations of `*p` from the input `s`: the attributes collected and the iterator left. -/
def kleene_run {α : Type} (p : Parser α) (sk : Skip) (s : Input) : List α × Input :=
  kleene_loop p sk (s.length + 1) s

/-- The Kleene star `*p`. -/
def kleene {α : Type} (p : Parser α) : Parser (List α) := fun sk s =>
  ⟨some (kleene_run p sk s).1, (kleene_run p sk s).2⟩

/-- The plus `+p`. -/
def plus {α : Type} (p : Parser α) : Parser (List α) := fun sk s =>
  match p sk s with
  | ⟨none, _⟩ => ⟨none, s⟩
  | ⟨some a, r⟩ => ⟨some (a :: (kleene_run p sk r).1), (kleene_run p sk r).2⟩

/-- The directive `repeat(n)[p]`: exactly `n` times `p`. -/
def repeat_ {α : Type} (p : Parser α) : Nat → Parser (List α)
  | 0 => fun _ s => ⟨some [], s⟩
  | n + 1 => fun sk s =>
    match p sk s with
    | ⟨none, _⟩ => ⟨none, s⟩
    | ⟨some a, r⟩ =>
      match repeat_ p n sk r with
      | ⟨none, _⟩ => ⟨none, s⟩
      | ⟨some l, r'⟩ => ⟨some (a :: l), r'⟩

/-- The directive `lexeme[p]`: skips, then runs `p` without a skipper. -/
def lexeme {α : Type} (p : Parser α) : Parser α := fun sk s => p id (sk s)

/-- The loop of `qi::skip_over`: while input is left and the skipper matches. -/
def skip_over_loop (skipper : Parser Unit) : Nat → Input → Input
  | 0, s => s
  | fuel + 1, s =>
    match s with
    | [] => []
    | c :: t =>
      match skipper id (c :: t) with
      | ⟨none, r⟩ => r
      | ⟨some _, r⟩ => if r.length < (c :: t).length then skip_over_loop skipper fuel r else r

/-- The function `qi::skip_over(first, last, skipper)`. -/
def skip_over (skipper : Parser Unit) : Skip := fun s => skip_over_loop skipper (s.length + 1) s

/-- The function `qi::phrase_parse(first, last, p, skipper, attr)` with the default post-skip. -/
def phrase_parse {α : Type} (p : Parser α) (skipper : Parser Unit) (s : Input) : Res α :=
  match p (skip_over skipper) s with
  | ⟨none, r⟩ => ⟨none, r⟩
  | ⟨some a, r⟩ => ⟨some a, skip_over skipper r⟩

end Qi

/-! ## The message definition grammar -/

/-- The struct `Embag::ros_msg_field`. -/
structure ros_msg_field where
  type_name : List Nat
  array_size : Int
  field_name : List Nat
  deriving DecidableEq

/-- The struct `Embag::ros_msg_constant`. -/
structure ros_msg_constant where
  type_name : List Nat
  constant_name : List Nat
  value : List Nat
  deriving DecidableEq

/-- The variant `Embag::ros_msg_member`. -/
inductive ros_msg_member where
  | field (f : ros_msg_field)
  | constant (c : ros_msg_constant)
  deriving DecidableEq

/-- The struct `Embag::ros_embedded_msg_def`. -/
structure ros_embedded_msg_def where
  type_name : List Nat
  members : List ros_msg_member
  deriving DecidableEq

/-- The struct `Embag::ros_msg_def`. -/
structure ros_msg_def where
  members : List ros_msg_member
  embedded_types : List ros_embedded_msg_def
  deriving DecidableEq

/-- Conversion of an `unsigned int` to `int32_t`. -/
def to_int32 (n : Nat) : Int :=
  if n % 2 ^ 32 < 2 ^ 31 then (n % 2 ^ 32 : Nat) else ((n % 2 ^ 32 : Nat) : Int) - 2 ^ 32

open Qi in
/-- The rule `comment` of `ros_msg_skipper` (embag.cc:155). -/
def ros_msg_skipper.comment : Parser Unit :=
  seq_r (kleene space) (seq_r (lit_string (bytes "#")) (omit_ (kleene (diff char_ eol))))

open Qi in
/-- The rule `separator` of `ros_msg_skipper` (embag.cc:156). -/
def ros_msg_skipper.separator : Parser Unit := diff (omit_ (repeat_ (lit 61) 80)) eol

open Qi in
/-- The rule `blank_lines` of `ros_msg_skipper` (embag.cc:157). -/
def ros_msg_skipper.blank_lines : Parser Unit := seq_r (kleene (lit 32)) eol

open Qi in
/-- The start rule `skip` of `ros_msg_skipper` (embag.cc:159). -/
def ros_msg_skipper.skip : Parser Unit :=
  alt ros_msg_skipper.comment
    (alt ros_msg_skipper.separator (alt eol ros_msg_skipper.blank_lines))

namespace ros_msg_grammar

open Qi

/-- The rule `array_size` (embag.cc:188). -/
def array_size : Parser Int :=
  alt (seq_r (lit 91) (seq_l (alt (pmap to_int32 uint_) (attr (-1))) (lit 93))) (attr 0)

/-- The rule `type` (embag.cc:189). -/
def type : Parser (List Nat) :=
  alt (seq_r (lit_string (bytes "std_msgs/")) (plus (diff char_ (alt (lit 91) (omit_ space)))))
    (plus (diff char_ (alt (lit 91) (omit_ space))))

/-- The rule `field_name` (embag.cc:190). -/
def field_name : Parser (List Nat) :=
  lexeme (plus (diff char_ (alt (omit_ space) (alt eol (lit 35)))))

/-- The rule `field` (embag.cc:192). -/
def field : Parser ros_msg_field :=
  pmap (fun x => { type_name := x.1, array_size := x.2.1, field_name := x.2.2 })
    (seq type (seq array_size (seq_r (plus (lit 32)) field_name)))

/-- The rule `constant_name` (embag.cc:195). -/
def constant_name : Parser (List Nat) := lexeme (plus (diff char_ (alt (omit_ space) (lit 61))))

/-- The rule `constant_value` (embag.cc:196). -/
def constant_value : Parser (List Nat) :=
  lexeme (plus (diff char_ (alt (omit_ space) (alt eol (lit 35)))))

/-- The rule `constant` (embag.cc:197). -/
def constant : Parser ros_msg_constant :=
  pmap (fun x => { type_name := x.1, constant_name := x.2.1, value := x.2.2 })
    (seq type (seq_r (plus (lit 32)) (seq constant_name
      (seq_r (kleene (lit 32)) (seq_r (lit 61) (seq_r (kleene (lit 32)) constant_value))))))

/-- The rule `member` (embag.cc:200). -/
def member : Parser ros_msg_member :=
  alt (pmap ros_msg_member.constant constant) (pmap ros_msg_member.field field)

/-- The rule `embedded_type_name` (embag.cc:204). -/
def embedded_type_name : Parser (List Nat) :=
  seq_r (alt (lit_string (bytes "MSG: std_msgs/")) (lit_string (bytes "MSG: ")))
    (lexeme (plus (diff char_ eol)))

/-- The rule `embedded_type` (embag.cc:205). -/
def embedded_type : Parser ros_embedded_msg_def :=
  pmap (fun x => { type_name := x.1, members := x.2 })
    (seq embedded_type_name (plus (diff member (lit_string (bytes "MSG: ")))))

/-- The start rule `msg` (embag.cc:208). -/
def msg : Parser ros_msg_def :=
  pmap (fun x => { members := x.1, embedded_types := x.2 })
    (seq (kleene (diff member (lit_string (bytes "MSG: ")))) (kleene embedded_type))

end ros_msg_grammar

/-! ## The bag -/

/-- The info of a chunk, filled in from a CHUNK_INFO record. -/
structure chunk_info_t where
  start_time : Nat
  end_time : Nat
  message_count : Nat
  deriving DecidableEq

/-- The struct `RosBagTypes::chunk_t`. -/
structure chunk_t where
  record : record_t
  offset : Nat
  compression : List Nat
  uncompressed_size : Nat
  info : chunk_info_t
  deriving DecidableEq

/-- The struct `RosBagTypes::index_block_t`; `into_chunk` is null or points at an element of
`chunks_`. -/
structure index_block_t where
  into_chunk : Option Nat
  deriving DecidableEq

/-- The struct `RosBagTypes::connection_data_t`. -/
structure connection_data_t where
  topic : List Nat
  type : List Nat
  scope : List Nat
  md5sum : List Nat
  message_definition : List Nat
  callerid : List Nat
  latching : Bool
  deriving DecidableEq

/-- The struct `RosBagTypes::connection_record_t`. -/
structure connection_record_t where
  blocks : List index_block_t
  id : Nat
  topic : List Nat
  data : connection_data_t
  deriving DecidableEq

/-- A value-initialised `connection_data_t`. -/
def connection_data_t.init : connection_data_t :=
  { topic := [], type := [], scope := [], md5sum := [], message_definition := [], callerid := [],
    latching := false }

/-- A value-initialised `connection_record_t`, as `resize` appends it. -/
def connection_record_t.init : connection_record_t :=
  { blocks := [], id := 0, topic := [], data := connection_data_t.init }

/-- The call `v.resize(n)` of a `std::vector`. -/
def resize {α : Type} (v : List α) (n : Nat) (init : α) : List α :=
  v.take n ++ List.replicate (n - v.length) init

/-- The call `std::to_string(n)`. -/
def to_string (n : Nat) : List Nat := (Nat.toDigits 10 n).map Char.toNat

/-- A `connection_record_t*` as `topic_connection_map_` holds it: the index of the element of
`connections_` whose address was taken, and whether that address still is the address of this
element. It no longer is after a `resize` of `connections_` that removes the element or moves
the elements to new storage: the pointer dangles. -/
structure connection_ptr where
  index : Nat
  valid : Bool
  deriving DecidableEq

/-- The pointer after `connections_.resize(count)` on a vector of `size` elements. A vector that
shrinks keeps the storage of its first `count` elements. A vector that grows beyond its capacity
moves its elements; the model does not follow the capacity and takes every growth to move
them. -/
def connection_ptr.resized (p : connection_ptr) (size count : Nat) : connection_ptr :=
  { p with valid := p.valid && decide (count ≤ size) && decide (p.index < count) }

/-- The members of the class `Embag` that `embag.cc` uses. -/
structure Embag where
  bag_stream_ : Stream
  connections_ : List connection_record_t
  chunks_ : List chunk_t
  index_pos_ : Nat
  topic_connection_map_ : Dict connection_ptr
  message_schemata_ : Dict ros_msg_def
  deriving DecidableEq

/-- A bag before `open`. -/
def Embag.init : Embag :=
  { bag_stream_ := Stream.closed, connections_ := [], chunks_ := [], index_pos_ := 0,
    topic_connection_map_ := [], message_schemata_ := [] }

/-- Modelled from the spec: the constant `MAGIC_STRING`, declared in a header that is not part of
the sources. -/
def MAGIC_STRING : List Nat := bytes "#ROSBAG V"

/-- Modelled from the spec: the opcodes of `header_t::op`, declared in a header that is not part
of the sources. -/
def header_t.op.BAG_HEADER : Nat := 3

/-- Modelled from the spec: the opcode of a chunk record. -/
def header_t.op.CHUNK : Nat := 5

/-- Modelled from the spec: the opcode of an index record. -/
def header_t.op.INDEX_DATA : Nat := 4

/-- Modelled from the spec: the opcode of a connection record. -/
def header_t.op.CONNECTION : Nat := 7

/-- Modelled from the spec: the opcode of a message record. -/
def header_t.op.MESSAGE_DATA : Nat := 2

/-- Modelled from the spec: the opcode of a chunk info record. -/
def header_t.op.CHUNK_INFO : Nat := 6

/-- Case `BAG_HEADER` of the switch in `Embag::readRecords` (embag.cc:252-267). The case does
not write to `topic_connection_map_`; the model records there which of the pointers into
`connections_` the call of `resize` leaves dangling. -/
def readRecords_BAG_HEADER (self : Embag) (header : header_t) : Option Exn × Embag :=
  match header.getUInt "conn_count" 4 with
  | .error e => (some e, self)
  | .ok connection_count =>
    match header.getUInt "chunk_count" 4 with
    | .error e => (some e, self)
    | .ok _ =>
      match header.getUInt "index_pos" 8 with
      | .error e => (some e, self)
      | .ok index_pos =>
        (none, { self with
          connections_ := resize self.connections_ connection_count connection_record_t.init,
          index_pos_ := index_pos,
          topic_connection_map_ := self.topic_connection_map_.map (fun kv =>
            (kv.1, kv.2.resized self.connections_.length connection_count)) })

/-- Case `CHUNK` of the switch in `Embag::readRecords` (embag.cc:268-278). -/
def readRecords_CHUNK (self : Embag) (pos : Int) (record : record_t) (header : header_t) :
    Option Exn × Embag :=
  match header.getString "compression" with
  | .error e => (some e, self)
  | .ok compression =>
    match header.getUInt "size" 4 with
    | .error e => (some e, self)
    | .ok size =>
      (none, { self with chunks_ := self.chunks_ ++
        [{ record := record, offset := pos.toNat, compression := compression,
           uncompressed_size := size,
           info := { start_time := 0, end_time := 0, message_count := 0 } }] })

/-- Case `INDEX_DATA` of the switch in `Embag::readRecords` (embag.cc:279-296). -/
def readRecords_INDEX_DATA (self : Embag) (header : header_t) : Option Exn × Embag :=
  match header.getUInt "ver" 4 with
  | .error e => (some e, self)
  | .ok _ =>
    match header.getUInt "conn" 4 with
    | .error e => (some e, self)
    | .ok connection_id =>
      match header.getUInt "count" 4 with
      | .error e => (some e, self)
      | .ok _ =>
        if self.chunks_.isEmpty then
          (some (.undefined_behaviour "chunks_.back() of an empty vector"), self)
        else
          let index_block : index_block_t := { into_chunk := some (self.chunks_.length - 1) }
          match self.connections_.get? connection_id with
          | none => (some (.undefined_behaviour "connections_[connection_id] out of range"), self)
          | some c =>
            (none, { self with connections_ :=
              self.connections_.set connection_id { c with blocks := c.blocks ++ [index_block] } })

/-- The end of case `CONNECTION` (embag.cc:332-346): the message definition is parsed and the
schema stored, or the parse error thrown. -/
def readRecords_parse_definition (self : Embag) (topic message_definition : List Nat) :
    Option Exn × Embag :=
  let r := Qi.phrase_parse ros_msg_grammar.msg ros_msg_skipper.skip message_definition
  match r.val, r.rest with
  | some ast, [] => (none, { self with message_schemata_ := self.message_schemata_.assign topic ast })
  | _, iter =>
    let n : Int := min 30 (to_int32 iter.length)
    if n < 0 then (some (.undefined_behaviour "std::string(iter, some) with some before iter"), self)
    else (some (.runtime_error "Message definition parsing failed at: " (iter.take n.toNat)), self)

/-- The `connection_data` that case `CONNECTION` builds from the fields of the record data
(embag.cc:308-325). -/
def readRecords_connection_data (topic : List Nat) (fields : Dict (List Nat)) :
    Except Exn connection_data_t :=
  match fields.at (bytes "type") with
  | .error e => .error e
  | .ok type =>
    match fields.at (bytes "md5sum") with
    | .error e => .error e
    | .ok md5sum =>
      match fields.at (bytes "message_definition") with
      | .error e => .error e
      | .ok message_definition =>
        .ok { topic := topic, type := type,
              scope := (match find_char 47 type with
                | some slash_pos => type.take slash_pos
                | none => []),
              md5sum := md5sum, message_definition := message_definition,
              callerid := (match fields.find (bytes "callerid") with
                | some v => v
                | none => []),
              latching := (match fields.find (bytes "latching") with
                | some v => decide (v = bytes "1")
                | none => false) }

/-- The assignments to `connections_[connection_id]` and to `topic_connection_map_` of case
`CONNECTION` (embag.cc:327-330). -/
def readRecords_register (self : Embag) (connection_id : Nat) (topic : List Nat)
    (connection_data : connection_data_t) : Option Embag :=
  match self.connections_.get? connection_id with
  | none => none
  | some c =>
    some { self with
      connections_ := self.connections_.set connection_id
        { c with id := connection_id, topic := topic, data := connection_data },
      topic_connection_map_ := self.topic_connection_map_.assign topic ⟨connection_id, true⟩ }

/-- Case `CONNECTION` of the switch in `Embag::readRecords` (embag.cc:297-349). -/
def readRecords_CONNECTION (self : Embag) (record : record_t) (header : header_t) :
    Option Exn × Embag :=
  match header.getUInt "conn" 4 with
  | .error e => (some e, self)
  | .ok connection_id =>
    match header.getString "topic" with
    | .error e => (some e, self)
    | .ok topic =>
      if topic.isEmpty then (none, self)
      else
        match readFields self.bag_stream_.data record.data record.data_len with
        | .error e => (some e, self)
        | .ok fields =>
          match readRecords_connection_data topic fields with
          | .error e => (some e, self)
          | .ok connection_data =>
            match readRecords_register self connection_id topic connection_data with
            | none =>
              (some (.undefined_behaviour "connections_[connection_id] out of range"), self)
            | some self =>
              readRecords_parse_definition self topic connection_data.message_definition

/-- The call `std::find_if` of case `CHUNK_INFO`: index of the first chunk at offset
`chunk_pos`. -/
def find_chunk (chunk_pos : Nat) : List chunk_t → Option Nat
  | [] => none
  | c :: cs => if c.offset = chunk_pos then some 0 else (find_chunk chunk_pos cs).map (· + 1)

/-- Case `CHUNK_INFO` of the switch in `Embag::readRecords` (embag.cc:354-382). -/
def readRecords_CHUNK_INFO (self : Embag) (header : header_t) : Option Exn × Embag :=
  match header.getUInt "ver" 4 with
  | .error e => (some e, self)
  | .ok _ =>
    match header.getUInt "chunk_pos" 8 with
    | .error e => (some e, self)
    | .ok chunk_pos =>
      match header.getUInt "start_time" 8 with
      | .error e => (some e, self)
      | .ok start_time =>
        match header.getUInt "end_time" 8 with
        | .error e => (some e, self)
        | .ok end_time =>
          match header.getUInt "count" 4 with
          | .error e => (some e, self)
          | .ok count =>
            match find_chunk chunk_pos self.chunks_ with
            | none => (some (.runtime_error "Unable to find chunk for chunk info at pos: "
                (to_string chunk_pos)), self)
            | some i =>
              let info : chunk_info_t :=
                { start_time := start_time, end_time := end_time, message_count := count }
              let chunks := List.modify (fun c => { c with info := info }) i self.chunks_
              (none, { self with chunks_ := chunks })

/-- The switch of `Embag::readRecords` (embag.cc:251-386). -/
def readRecords_switch (self : Embag) (pos : Int) (record : record_t) (header : header_t)
    (op : Nat) : Option Exn × Embag :=
  if op = header_t.op.BAG_HEADER then readRecords_BAG_HEADER self header
  else if op = header_t.op.CHUNK then readRecords_CHUNK self pos record header
  else if op = header_t.op.INDEX_DATA then readRecords_INDEX_DATA self header
  else if op = header_t.op.CONNECTION then readRecords_CONNECTION self record header
  else if op = header_t.op.MESSAGE_DATA then (none, self)
  else if op = header_t.op.CHUNK_INFO then readRecords_CHUNK_INFO self header
  else (some (.runtime_error "Unknown record operation: " (to_string op)), self)

/-- The loop of `Embag::readRecords` (embag.cc:241-387). A record that is read without failure
moves the stream forward by at least eight bytes and a failed stream ends the loop, so `fuel`
above the size of the file plus one is never used up. -/
def readRecords_loop : Nat → Embag → Option Exn × Embag
  | 0, self => (none, self)
  | fuel + 1, self =>
    let file_size : Int := self.bag_stream_.data.length
    let pos := self.bag_stream_.tellg
    if pos = -1 ∨ pos = file_size then (none, self)
    else
      let rs := readRecord self.bag_stream_
      let self := { self with bag_stream_ := rs.2 }
      match readHeader self.bag_stream_.data rs.1 with
      | .error e => (some e, self)
      | .ok header =>
        match header.getOp with
        | .error e => (some e, self)
        | .ok op =>
          match readRecords_switch self pos rs.1 header op with
          | (some e, self) => (some e, self)
          | (none, self) => readRecords_loop fuel self

/-- `Embag::readRecords` (embag.cc:233-390): the exception thrown, if any, and the bag afterwards. -/
def readRecords (self : Embag) : Option Exn × Embag :=
  readRecords_loop (self.bag_stream_.data.length + 2) self

/-- `Embag::open` (embag.cc:14-48) on a file with content `file`: the value returned or the
exception thrown, and the bag afterwards. -/
def open_ (file : List Nat) (self : Embag) : Except Exn Bool × Embag :=
  let st := Stream.opened file
  -- First, check for the magic string indicating this is indeed a bag file
  let buffer := List.replicate MAGIC_STRING.length 0
  let rd := st.read MAGIC_STRING.length
  let buffer := overwrite buffer rd.1
  if buffer ≠ MAGIC_STRING then
    (.error (.runtime_error "This file doesn't appear to be a bag file... " []),
      { self with bag_stream_ := rd.2.close })
  else
    -- Next, parse the version
    let buffer := resize buffer 3 0
    let rd := rd.2.read 3
    let buffer := overwrite buffer rd.1
    -- Only version 2.0 is supported at the moment
    if bytes "2.0" ≠ buffer then
      (.error (.runtime_error "Unsupported bag file version: " buffer),
        { self with bag_stream_ := rd.2.close })
    else
      -- The version is followed by a newline
      let buffer := resize buffer 1 0
      let rd := rd.2.read 1
      let buffer := overwrite buffer rd.1
      if bytes "\n" ≠ buffer then
        (.error (.runtime_error
          "Unable to find newline after version string, perhaps this bag file is corrupted?" []),
          { self with bag_stream_ := rd.2 })
      else
        match readRecords { self with bag_stream_ := rd.2 } with
        | (some e, self) => (.error e, self)
        | (none, self) => (.ok true, self)

/-- `Embag::close` (embag.cc:50-57). -/
def close (self : Embag) : Bool × Embag :=
  if self.bag_stream_.is_open then (true, { self with bag_stream_ := self.bag_stream_.close })
  else (false, self)

/-! ## Encoders, used to state what the decoders do -/

/-- The little-endian `u32` at offset `pos` of `mem`. -/
def peek_u32 (mem : List Nat) (pos : Nat) : Nat := le_decode ((mem.drop pos).take 4)

/-- One entry `{u32 len, len bytes}` of a header. -/
def encode_field (e : List Nat) : List Nat := le_encode 4 e.length ++ e

/-- A byte range tiled by the entries `es`. -/
def encode_fields : List (List Nat) → List Nat
  | [] => []
  | e :: es => encode_field e ++ encode_fields es

/-- A record `{u32 header_len, header, u32 data_len, data}`. -/
def encode_record (header data : List Nat) : List Nat :=
  le_encode 4 header.length ++ header ++ le_encode 4 data.length ++ data

/-- The entry `name=value`. -/
def field_entry (name : String) (value : List Nat) : List Nat := bytes name ++ [61] ++ value

/-- The reference decoder of a header, written from the specification: the name of an entry is
what stands before its first `=`, the value is everything after it. -/
def reference_name (e : List Nat) : List Nat := e.takeWhile (fun b => b != 61)

/-- The value of an entry in the reference decoder. -/
def reference_value (e : List Nat) : List Nat := (e.dropWhile (fun b => b != 61)).drop 1

/-- The reference decoder of a header, written from the specification: it fails when an entry has
no `=`, and otherwise inserts the entries in order, a later one replacing an earlier one of the
same name. -/
def reference_readFields (es : List (List Nat)) : Option (Dict (List Nat)) :=
  if es.all (fun e => e.contains 61) then
    some (es.foldl (fun d e => Dict.assign d (reference_name e) (reference_value e)) [])
  else none

/-- The property of the tables that the scan keeps: the topic of every connection is registered
unless it is empty, and no registered topic is empty. -/
def topics_registered (b : Embag) : Prop :=
  (∀ c ∈ b.connections_, c.topic ≠ [] → c.topic ∈ b.topic_connection_map_.keys) ∧
  (∀ t ∈ b.topic_connection_map_.keys, t ≠ [])

/-! ## Sample files -/

/-- The preamble of a bag file of version 2.0. -/
def sample_preamble : List Nat := bytes "#ROSBAG V2.0\n"

/-- A BAG_HEADER record announcing `conn_count` connections. -/
def sample_bag_header (conn_count : Nat) : List Nat :=
  encode_record (encode_fields [field_entry "op" [3],
    field_entry "conn_count" (le_encode 4 conn_count),
    field_entry "chunk_count" (le_encode 4 0), field_entry "index_pos" (le_encode 8 0)]) []

/-- A CONNECTION record for connection `conn` with the fields `data_fields` in its data. -/
def sample_connection_with (conn : Nat) (topic : String) (data_fields : List (List Nat)) :
    List Nat :=
  encode_record (encode_fields [field_entry "op" [7], field_entry "conn" (le_encode 4 conn),
    field_entry "topic" (bytes topic)]) (encode_fields data_fields)

/-- A CONNECTION record for connection `conn` on `topic` with the message definition
`definition`. -/
def sample_connection (conn : Nat) (topic definition : String) : List Nat :=
  sample_connection_with conn topic [field_entry "type" (bytes "pkg/Type"),
    field_entry "md5sum" (bytes "0"), field_entry "message_definition" (bytes definition)]

/-- A bag in which connection 0 is announced twice, under two topics. -/
def sample_rebound_connection : List Nat :=
  sample_preamble ++ sample_bag_header 1 ++ sample_connection 0 "/a" "int32 x\n" ++
    sample_connection 0 "/b" "int32 x\n"

/-- A bag in which connection 0 is announced and a later BAG_HEADER record empties the
connection table. -/
def sample_dropped_connection : List Nat :=
  sample_preamble ++ sample_bag_header 1 ++ sample_connection 0 "/a" "int32 x\n" ++
    sample_bag_header 0

/-- A bag whose CONNECTION record carries a message definition and an md5sum, and no type. -/
def sample_untyped_connection : List Nat :=
  sample_preamble ++ sample_bag_header 1 ++
    sample_connection_with 0 "/a" [field_entry "md5sum" (bytes "0"),
      field_entry "message_definition" (bytes "int32 x\n")]

/-! ## The shape of a message definition -/

/-- The skipper in force while the grammar runs. -/
abbrev msg_skip : Skip := Qi.skip_over ros_msg_skipper.skip

/-- A line that holds no member: a comment line, a blank line, or a separator line. -/
inductive filler_line where
  /-- Spaces, `#`, the text of the comment, a newline. -/
  | comment (indent : Nat) (text : List Nat)
  /-- Spaces and a newline. -/
  | blank (spaces : Nat)
  /-- Eighty `=` and a newline. -/
  | separator
  deriving DecidableEq

/-- The text of a filler line. -/
def filler_line.render : filler_line → List Nat
  | .comment indent text => List.replicate indent 32 ++ 35 :: (text ++ [10])
  | .blank spaces => List.replicate spaces 32 ++ [10]
  | .separator => List.replicate 80 61 ++ [10]

/-- The text of a comment is made of ascii characters other than CR and LF. -/
def filler_line.wf : filler_line → Bool
  | .comment _ text => text.all (fun c => decide (c < 128) && c != 10 && c != 13)
  | _ => true

/-- The text of consecutive filler lines. -/
def render_fillers : List filler_line → List Nat
  | [] => []
  | f :: fs => f.render ++ render_fillers fs

/-- A character at which the skipper does nothing: not a space, not `#`, not `=`. -/
def is_solid (c : Nat) : Bool := !Qi.isspace c && c != 35 && c != 61

/-- The input is at its end or starts with a solid character. -/
def starts_solid : Input → Bool
  | [] => true
  | c :: _ => is_solid c

/-- A character of an identifier: printable, not white space, none of `[`, `=`, `#`. -/
def is_ident_char (c : Nat) : Bool :=
  decide (33 ≤ c) && decide (c ≤ 126) && c != 91 && c != 61 && c != 35

/-- An identifier: one or more identifier characters. -/
def is_ident (w : List Nat) : Bool := !w.isEmpty && w.all is_ident_char

/-- The name of a type as the grammar keeps it: an identifier that does not start with the
prefix `std_msgs/`, which the grammar strips, and is not the keyword `MSG:`. -/
def is_type_ident (w : List Nat) : Bool :=
  is_ident w && !(bytes "std_msgs/").isPrefixOf w && w != bytes "MSG:"

/-- A decimal digit string. -/
def is_decimal (ds : List Nat) : Bool := !ds.isEmpty && ds.all Qi.isdigit

/-- The value of a decimal digit string. -/
def decimal_value (ds : List Nat) : Nat := ds.foldl (fun n c => 10 * n + (c - 48)) 0

/-- A character of a literal without white space: ascii, not white space, not `#`. -/
def is_literal_char (c : Nat) : Bool := Qi.ischar c && !Qi.isspace c && c != 35

/-- A literal without white space that stands `b` spaces behind the `=` sign: one or more
characters, each ascii and neither white space nor `#`, with fewer than 80 `=` in a row where
the skipper looks, which is at the start of the literal, the `=` sign counted in when no space
stands between the two. Eighty `=` in a row are a separator line for the skipper. -/
def is_literal (b : Nat) (w : List Nat) : Bool :=
  w.all is_literal_char && !w.isEmpty &&
    decide ((w.takeWhile (fun c => c == 61)).length + (if b = 0 then 1 else 0) < 80)

/-- A member line of a definition, without the end of the line. -/
inductive member_line where
  /-- The line `T N`. -/
  | scalar (T N : List Nat)
  /-- The line `T[] N`. -/
  | var_array (T N : List Nat)
  /-- The line `T[n] N`, with the decimal digits of `n`. -/
  | fixed_array (T ds N : List Nat)
  /-- The line `T N = V` with `a` spaces before the `=` and `b` spaces after it. -/
  | constant (T N : List Nat) (a b : Nat) (V : List Nat)
  deriving DecidableEq

/-- The text of a member line. -/
def member_line.render : member_line → List Nat
  | .scalar T N => T ++ 32 :: N
  | .var_array T N => T ++ 91 :: 93 :: 32 :: N
  | .fixed_array T ds N => T ++ 91 :: (ds ++ 93 :: 32 :: N)
  | .constant T N a b V =>
    T ++ 32 :: (N ++ (List.replicate a 32 ++ 61 :: (List.replicate b 32 ++ V)))

/-- The member that a member line declares. -/
def member_line.member : member_line → ros_msg_member
  | .scalar T N => .field { type_name := T, array_size := 0, field_name := N }
  | .var_array T N => .field { type_name := T, array_size := -1, field_name := N }
  | .fixed_array T ds N =>
    .field { type_name := T, array_size := (decimal_value ds : Nat), field_name := N }
  | .constant T N _ _ V => .constant { type_name := T, constant_name := N, value := V }

/-- The parts of a member line are well formed; the size of a fixed array fits `int32_t`. -/
def member_line.wf : member_line → Bool
  | .scalar T N => is_type_ident T && is_ident N
  | .var_array T N => is_type_ident T && is_ident N
  | .fixed_array T ds N =>
    is_type_ident T && is_ident N && is_decimal ds && decide (decimal_value ds < 2 ^ 31)
  | .constant T N _ b V => is_type_ident T && is_ident N && is_literal b V

/-- A filler line that can end a member line: spaces and a newline, or spaces, at least one, and
a comment. -/
def filler_line.ends_line : filler_line → Bool
  | .blank _ => true
  | .comment indent _ => decide (0 < indent)
  | .separator => false

/-- A member line with the filler lines up to the next member line; the first of them ends the
member line. -/
abbrev member_text := member_line × List filler_line

/-- The end of the line is there and the lines are well formed. -/
def member_text.wf (m : member_text) : Bool :=
  m.1.wf && m.2.all filler_line.wf && (match m.2 with
    | [] => false
    | f :: _ => f.ends_line)

/-- The text of consecutive member lines, each with its filler lines. -/
def render_members : List member_text → List Nat
  | [] => []
  | m :: ms => m.1.render ++ (render_fillers m.2 ++ render_members ms)

/-- A section of a definition: the name on its `MSG: ` line, the filler lines after that line,
and its member lines. -/
structure section_text where
  name : List Nat
  fillers : List filler_line
  members : List member_text
  deriving DecidableEq

/-- The section has a name the grammar keeps as it is and at least one member line. -/
def section_text.wf (s : section_text) : Bool :=
  is_ident s.name && !(bytes "std_msgs/").isPrefixOf s.name && s.fillers.all filler_line.wf &&
    s.members.all member_text.wf && !s.members.isEmpty

/-- The text of consecutive sections, each introduced by a separator line and its `MSG: `
line. -/
def render_sections : List section_text → List Nat
  | [] => []
  | s :: ss =>
    filler_line.separator.render ++ (bytes "MSG: " ++ (s.name ++ 10 ::
      (render_fillers s.fillers ++ (render_members s.members ++ render_sections ss))))

/-- The text of a definition: leading filler lines, the top-level member lines, the sections. -/
def render_definition (lead : List filler_line) (top : List member_text)
    (sections : List section_text) : List Nat :=
  render_fillers lead ++ (render_members top ++ render_sections sections)

/-- The embedded type that a section declares. -/
def section_text.embedded (s : section_text) : ros_embedded_msg_def :=
  { type_name := s.name, members := s.members.map (fun m => m.1.member) }

/-! ## Auxiliary notions for the proofs about the grammar -/

/-- The characters that `char_ - eol` accepts. -/
def noneol (c : Nat) : Bool := decide (c < 128) && c != 10 && c != 13

/-- The first comment line that white space alone leads to: its text and the lines after it. -/
def first_comment : List filler_line → Option (List Nat × List filler_line)
  | [] => none
  | .blank _ :: fs => first_comment fs
  | .comment _ text :: fs => some (text, fs)
  | .separator :: _ => none

/-- The input is left alone by the skipper. -/
def quiet (s : Input) : Prop := msg_skip s = s

open Qi in
/-- The parser that ends a type name. -/
abbrev type_stop : Parser Unit := alt (lit 91) (omit_ space)

open Qi in
/-- The characters of a field name or of the value of a constant. -/
def name_char (c : Nat) : Bool := ischar c && !isspace c && c != 35

open Qi in
/-- The characters of the name of a constant. -/
def constant_name_char (c : Nat) : Bool := ischar c && !isspace c && c != 61

/-- What follows a member line: the end of the input, or a space or a newline, and the skipper
leads from there to the end of the input or to a solid character. -/
def line_cont (k k' : Input) : Prop :=
  (k = [] ∨ ∃ c r, k = c :: r ∧ (c = 32 ∨ c = 10)) ∧ msg_skip k = k' ∧ starts_solid k' = true

/-- The filler lines that stand last before what follows the member lines `ms`. -/
def tail_fillers (G : List filler_line) : List member_text → List filler_line
  | [] => G
  | m :: ms => tail_fillers m.2 ms

open Qi in
/-- One iteration of the loops over members. -/
abbrev member_not_msg : Parser ros_msg_member :=
  diff ros_msg_grammar.member (lit_string (bytes "MSG: "))

/-- Where the iterator stands before the sections `ss`, after the filler lines `G`: the grammar
gives the filler lines back when a section follows, and has skipped them at the end of the
input. -/
def sections_pos (G : List filler_line) : List section_text → Input
  | [] => []
  | s :: ss => render_fillers G ++ render_sections (s :: ss)

/-! ## Sample records and definitions -/

/-- The data of a CONNECTION record whose message definition is `definition`. -/
def sample_connection_fields (definition : String) : List Nat :=
  encode_fields [field_entry "type" (bytes "pkg/Type"), field_entry "md5sum" (bytes "0"),
    field_entry "message_definition" (bytes definition)]

/-- A bag during the scan: one connection announced, the stream over the data of a CONNECTION
record. -/
def sample_scan (definition : String) : Embag :=
  { Embag.init with
    bag_stream_ := Stream.opened (sample_connection_fields definition),
    connections_ := [connection_record_t.init] }

/-- The CONNECTION record whose data fills the stream of `sample_scan`. -/
def sample_record (definition : String) : record_t :=
  { header_len := 0, header := 0, data_len := (sample_connection_fields definition).length,
    data := 0 }

/-- The header of a CONNECTION record for connection 0 on topic `/a`. -/
def sample_header : header_t :=
  { fields := [(bytes "conn", le_encode 4 0), (bytes "topic", bytes "/a")] }

/-- The fields held by the data of `sample_record`. -/
def sample_fields (definition : String) : Dict (List Nat) :=
  [(bytes "type", bytes "pkg/Type"), (bytes "md5sum", bytes "0"),
    (bytes "message_definition", bytes definition)]

/-- The connection data built from `sample_fields`. -/
def sample_connection_data (definition : String) : connection_data_t :=
  { topic := bytes "/a", type := bytes "pkg/Type", scope := bytes "pkg", md5sum := bytes "0",
    message_definition := bytes definition, callerid := [], latching := false }

/-- The bag `sample_scan` after connection 0 is registered on topic `/a`. -/
def sample_registered (definition : String) : Embag :=
  { sample_scan definition with
    connections_ := [{ blocks := [], id := 0, topic := bytes "/a",
                       data := sample_connection_data definition }],
    topic_connection_map_ := [(bytes "/a", ⟨0, true⟩)] }

/-- Two field lines of a message definition. -/
def sample_field_lines : List member_line :=
  [.scalar (bytes "pkg/Pose") (bytes "pose"),
    .fixed_array (bytes "float64") (bytes "36") (bytes "covariance")]

/-- The top-level member lines of a sample definition, with a comment after the second. -/
def sample_top : List member_text :=
  [(.scalar (bytes "Header") (bytes "header"), [.blank 0]),
    (.fixed_array (bytes "float64") (bytes "36") (bytes "covariance"),
      [.comment 1 (bytes " row-major"), .blank 2])]

/-- The sections of a sample definition. -/
def sample_sections : List section_text :=
  [⟨bytes "geometry_msgs/Pose", [.comment 0 (bytes " A pose")],
      [(.scalar (bytes "Point") (bytes "position"), [.blank 0]),
        (.constant (bytes "uint8") (bytes "KIND") 1 1 (bytes "7"), [.blank 0])]⟩,
    ⟨bytes "Point", [], [(.var_array (bytes "float64") (bytes "xyz"), [.blank 0])]⟩]

/-! ## Definitions written with the `std_msgs/` prefix -/

/-- The prefix `std_msgs/` when `std` holds, and nothing otherwise. -/
def written_std (std : Bool) : List Nat := if std then bytes "std_msgs/" else []

/-- The text of consecutive member lines, the type of a line being written with the prefix
`std_msgs/` where the flag of the line says so. -/
def render_written_members : List (Bool × member_text) → List Nat
  | [] => []
  | m :: ms =>
    written_std m.1 ++ (m.2.1.render ++ (render_fillers m.2.2 ++ render_written_members ms))

/-- A section whose name is written with the prefix `std_msgs/` when `std` holds, and whose
member lines carry their own flags. -/
structure written_section where
  std : Bool
  name : List Nat
  fillers : List filler_line
  members : List (Bool × member_text)
  deriving DecidableEq

/-- The section without the prefixes. -/
def written_section.plain (s : written_section) : section_text :=
  { name := s.name, fillers := s.fillers, members := s.members.map Prod.snd }

/-- The text of consecutive sections with their prefixes. -/
def render_written_sections : List written_section → List Nat
  | [] => []
  | s :: ss =>
    filler_line.separator.render ++ (bytes "MSG: " ++ (written_std s.std ++ (s.name ++ 10 ::
      (render_fillers s.fillers ++
        (render_written_members s.members ++ render_written_sections ss)))))

/-- The text of a definition with its prefixes. -/
def render_written_definition (lead : List filler_line) (top : List (Bool × member_text))
    (sections : List written_section) : List Nat :=
  render_fillers lead ++ (render_written_members top ++ render_written_sections sections)

/-- Where the iterator stands before the sections `ss` with prefixes, after the filler
lines `G`. -/
def written_sections_pos (G : List filler_line) : List written_section → Input
  | [] => []
  | s :: ss => render_fillers G ++ render_written_sections (s :: ss)

/-- The top-level member lines of a sample definition, the first with the prefix. -/
def sample_written_top : List (Bool × member_text) :=
  [(true, (.scalar (bytes "Header") (bytes "header"), [.blank 0])),
    (false, (.var_array (bytes "Header") (bytes "history"), [.blank 0]))]

open Qi in
/-- The section of a sample definition, its name with the prefix. -/
def sample_written_sections : List written_section :=
  [⟨true, bytes "Header", [], [(false, (.scalar (bytes "uint32") (bytes "seq"), [.blank 0])),
      (true, (.scalar (bytes "String") (bytes "frame_id"), [.blank 0]))]⟩]

/-! ## Decompression of a chunk -/

/-- What one call `LZ4F_decompress(ctx, dst, &dst_size, src, &src_size, nullptr)` does: the value
it returns, the bytes it stores from `dst` on (their number is the new `dst_size`), the number
of source bytes it consumed (the new `src_size`), and the context afterwards. -/
structure lz4_call (σ : Type) where
  ret : Nat
  written : List Nat
  src_bytes_read : Nat
  ctx : σ
  deriving DecidableEq

/-- The library `lz4frame`, which is not part of the repository: `LZ4F_decompress` as a function
of the context, of the capacity offered at `dst` and of the source bytes offered at `src`, and
`LZ4F_isError`. -/
structure lz4_library (σ : Type) where
  LZ4F_decompress : σ → Nat → List Nat → lz4_call σ
  LZ4F_isError : Nat → Bool

/-- Subtraction of `size_t` values. -/
def size_sub (a b : Nat) : Nat := (a + 2 ^ 64 - b % 2 ^ 64) % 2 ^ 64

/-- State of `Embag::decompressLz4Chunk` between two iterations of its loop: the context, the
memory at `dst`, and the two counters. -/
structure lz4_state (σ : Type) where
  ctx : σ
  dst : List Nat
  src_bytes_left : Nat
  dst_bytes_left : Nat
  deriving DecidableEq

/-- The call made by one iteration of the loop (embag.cc:398-400). The pointers `src` and `dst`
are the parameters of the function, which no statement changes: the call is offered the first
`src_bytes_left` bytes at `src` and stores from the start of `dst`. -/
def decompressLz4Chunk_call {σ : Type} (lz : lz4_library σ) (src : List Nat)
    (st : lz4_state σ) : lz4_call σ :=
  lz.LZ4F_decompress st.ctx st.dst_bytes_left (src.take st.src_bytes_left)

/-- The state after an iteration of the loop without error (embag.cc:405-406). -/
def decompressLz4Chunk_next {σ : Type} (lz : lz4_library σ) (src : List Nat)
    (st : lz4_state σ) : lz4_state σ :=
  let call := decompressLz4Chunk_call lz src st
  { ctx := call.ctx, dst := overwrite st.dst call.written,
    src_bytes_left := size_sub st.src_bytes_left call.src_bytes_read,
    dst_bytes_left := size_sub st.dst_bytes_left call.written.length }

/-- The loop and the end of `Embag::decompressLz4Chunk` (embag.cc:397-413). The loop of the
source has no bound on its iterations; `none` says that `fuel` iterations did not end it. -/
def decompressLz4Chunk_loop {σ : Type} (lz : lz4_library σ) (src : List Nat) :
    Nat → lz4_state σ → Option (Except Exn Bool × lz4_state σ)
  | 0, _ => none
  | fuel + 1, st =>
    if st.dst_bytes_left ≠ 0 ∧ st.src_bytes_left ≠ 0 then
      let call := decompressLz4Chunk_call lz src st
      if lz.LZ4F_isError call.ret then
        some (.error (.runtime_error "chunk::decompress: lz4 decompression returned "
          (to_string call.ret ++ bytes ", expected " ++ to_string call.src_bytes_read)),
          { st with ctx := call.ctx, dst := overwrite st.dst call.written })
      else decompressLz4Chunk_loop lz src fuel (decompressLz4Chunk_next lz src st)
    else if st.src_bytes_left ≠ 0 ∨ st.dst_bytes_left ≠ 0 then
      some (.error (.runtime_error "chunk::decompress: lz4 decompression left "
        (to_string st.src_bytes_left ++ bytes "/" ++ to_string st.dst_bytes_left ++
          bytes " bytes in buffer")), st)
    else some (.ok true, st)

/-- The counters at the start of `Embag::decompressLz4Chunk` (embag.cc:394-395). -/
def decompressLz4Chunk_start {σ : Type} (ctx : σ) (dst : List Nat) (src_size dst_size : Nat) :
    lz4_state σ :=
  { ctx := ctx, dst := dst, src_bytes_left := src_size % 2 ^ 64,
    dst_bytes_left := dst_size % 2 ^ 64 }

/-- `Embag::decompressLz4Chunk` (embag.cc:393-414), run for at most `fuel` iterations of its
loop, with the context `lz4_ctx_` passed in and out. -/
def decompressLz4Chunk {σ : Type} (lz : lz4_library σ) (fuel : Nat) (ctx : σ) (src : List Nat)
    (src_size : Nat) (dst : List Nat) (dst_size : Nat) :
    Option (Except Exn Bool × lz4_state σ) :=
  decompressLz4Chunk_loop lz src fuel (decompressLz4Chunk_start ctx dst src_size dst_size)

/-- Every call of the library consumes at most the source bytes offered and produces at most the
destination bytes offered. -/
def lz4_within_bounds {σ : Type} (lz : lz4_library σ) : Prop :=
  ∀ (ctx : σ) (capacity : Nat) (s : List Nat),
    (lz.LZ4F_decompress ctx capacity s).src_bytes_read ≤ s.length ∧
      (lz.LZ4F_decompress ctx capacity s).written.length ≤ capacity

/-- Every call of the library that is offered source bytes and room consumes or produces at
least one byte. -/
def lz4_progress {σ : Type} (lz : lz4_library σ) : Prop :=
  ∀ (ctx : σ) (capacity : Nat) (s : List Nat), 0 < capacity → 0 < s.length →
    0 < (lz.LZ4F_decompress ctx capacity s).src_bytes_read +
      (lz.LZ4F_decompress ctx capacity s).written.length

/-- The state of the loop after `k` iterations, were none of them to end it. -/
def decompressLz4Chunk_after {σ : Type} (lz : lz4_library σ) (src : List Nat)
    (st : lz4_state σ) (k : Nat) : lz4_state σ :=
  (decompressLz4Chunk_next lz src)^[k] st

/-- The loop goes on from the state `st`: both counters are non-zero and the call made reports
no error. -/
def decompressLz4Chunk_running {σ : Type} (lz : lz4_library σ) (src : List Nat)
    (st : lz4_state σ) : Prop :=
  st.dst_bytes_left ≠ 0 ∧ st.src_bytes_left ≠ 0 ∧
    lz.LZ4F_isError (decompressLz4Chunk_call lz src st).ret = false

/-- A library that copies the source bytes to the destination, at most `step` of them in a
call, and reports the value `0`; a value from `2 ^ 63` on is an error code. -/
def sample_lz4 (step : Nat) : lz4_library Unit :=
  { LZ4F_decompress := fun _ capacity s =>
      { ret := 0, written := s.take (min step capacity),
        src_bytes_read := (s.take (min step capacity)).length, ctx := () },
    LZ4F_isError := fun ret => decide (2 ^ 63 ≤ ret) }

/-! ## The course of a scan -/

/-- A whole record lies between the cursor of the stream and the end of the file: the
`header_len` field, the header, the `data_len` field and the data. -/
def record_fits (s : Stream) : Bool :=
  decide (s.pos + 4 ≤ s.data.length) &&
    decide (s.pos + 4 + peek_u32 s.data s.pos + 4 ≤ s.data.length) &&
    decide (s.pos + 4 + peek_u32 s.data s.pos + 4 +
      peek_u32 s.data (s.pos + 4 + peek_u32 s.data s.pos) ≤ s.data.length)

/-- The bag in which `open` starts the scan of `file`: a fresh bag whose stream stands behind
the preamble. -/
def scan_start (file : List Nat) : Embag :=
  { Embag.init with bag_stream_ := ⟨true, file, 13, false⟩ }

/-- One iteration of the loop of `Embag::readRecords` that reaches the switch: the bag when the
switch is entered, and the position, the record, the header and the opcode it is entered
with. -/
structure scan_step where
  self : Embag
  pos : Int
  record : record_t
  header : header_t
  op : Nat
  deriving DecidableEq

/-- The outcome of the switch in the iteration. -/
def scan_step.result (st : scan_step) : Option Exn × Embag :=
  readRecords_switch st.self st.pos st.record st.header st.op

/-- The iterations of the loop of `Embag::readRecords` that reach the switch, in order: the
loop of `readRecords_loop`, keeping a log in place of the bag. -/
def readRecords_steps : Nat → Embag → List scan_step
  | 0, _ => []
  | fuel + 1, self =>
    let file_size : Int := self.bag_stream_.data.length
    let pos := self.bag_stream_.tellg
    if pos = -1 ∨ pos = file_size then []
    else
      let rs := readRecord self.bag_stream_
      let self := { self with bag_stream_ := rs.2 }
      match readHeader self.bag_stream_.data rs.1 with
      | .error _ => []
      | .ok header =>
        match header.getOp with
        | .error _ => []
        | .ok op =>
          { self := self, pos := pos, record := rs.1, header := header, op := op } ::
            (match readRecords_switch self pos rs.1 header op with
              | (some _, _) => []
              | (none, self) => readRecords_steps fuel self)

/-- The blocks of connection `i`, none when the table has no entry `i`. -/
def blocks_of (connections : List connection_record_t) (i : Nat) : List index_block_t :=
  match connections.get? i with
  | some c => c.blocks
  | none => []

/-- The index block that the iteration appends for connection `i`: one that points to the last
chunk of the table when the record is an INDEX_DATA record naming `i`, none otherwise. -/
def scan_step.index_block (st : scan_step) (i : Nat) : List index_block_t :=
  if st.op = header_t.op.INDEX_DATA ∧ st.header.getUInt "conn" 4 = .ok i then
    [{ into_chunk := some (st.self.chunks_.length - 1) }]
  else []

/-- The iteration does not shrink the connection table: its record is not a BAG_HEADER record
with a `conn_count` below the size of the table. -/
def scan_step.keeps_connections (st : scan_step) : Bool :=
  if st.op = header_t.op.BAG_HEADER then
    (match st.header.getUInt "conn_count" 4 with
      | .ok n => decide (st.self.connections_.length ≤ n)
      | .error _ => true)
  else true

/-- The `conn_count` of the last BAG_HEADER record among the iterations, `size` when there is
none. -/
def last_conn_count (size : Nat) : List scan_step → Nat
  | [] => size
  | st :: steps =>
    last_conn_count
      (if st.op = header_t.op.BAG_HEADER then
        (match st.header.getUInt "conn_count" 4 with
          | .ok n => n
          | .error _ => size)
       else size) steps

/-- The ids of a connection table: an entry with a topic has its index as id, and an entry
without topic has the id 0. -/
def connection_ids (connections : List connection_record_t) : Prop :=
  ∀ (i : Nat) (c : connection_record_t), connections[i]? = some c →
    (c.topic ≠ [] ∧ c.id = i) ∨ (c.topic = [] ∧ c.id = 0)

/-- The chunk `c` stands in `file` at its offset: its record is the one that `readRecord` reads
there, and the header of that record has the opcode CHUNK. -/
def chunk_at (file : List Nat) (c : chunk_t) : Prop :=
  c.record = (readRecord ⟨true, file, c.offset, false⟩).1 ∧
    ∃ header, readHeader file c.record = .ok header ∧ header.getOp = .ok header_t.op.CHUNK

/-- The chunk table lists chunks of `file` in file order: the offsets increase strictly, and
each is at least 13 and the start of the CHUNK record of its chunk. -/
def chunk_table_ordered (file : List Nat) (chunks : List chunk_t) : Prop :=
  List.Pairwise (fun c c' => c.offset < c'.offset) chunks ∧
    ∀ c ∈ chunks, 13 ≤ c.offset ∧ chunk_at file c

/-- The bags that a scan of at most `fuel` iterations from `self` goes through: the first one,
the one of every iteration before and after its switch, and the last one. -/
def readRecords_states (fuel : Nat) (self : Embag) : List Embag :=
  self :: ((readRecords_steps fuel self).flatMap (fun st => [st.self, st.result.2]) ++
    [(readRecords_loop fuel self).2])

/-- What the loop of `Embag::readRecords` keeps of the chunk table in a scan of `file`: the
stream is the open one over `file`, the chunk table is in file order, and as long as the stream
has not failed its cursor stands at 13 or further and behind the offset of every chunk. -/
def scan_chunks (file : List Nat) (self : Embag) : Prop :=
  self.bag_stream_.is_open = true ∧ self.bag_stream_.data = file ∧
    chunk_table_ordered file self.chunks_ ∧
    (self.bag_stream_.failed = false →
      13 ≤ self.bag_stream_.pos ∧ ∀ c ∈ self.chunks_, c.offset < self.bag_stream_.pos)

/-! ## More sample records -/

/-- A definition whose only section, named `pkg/Empty`, has no member line. -/
def sample_empty_section : List Nat :=
  render_definition [] [(.scalar (bytes "int32") (bytes "x"), [.blank 0])]
    [⟨bytes "pkg/Empty", [], []⟩]

/-- A bag with one connection whose message definition is `sample_empty_section`. -/
def sample_empty_section_bag : List Nat :=
  sample_preamble ++ sample_bag_header 1 ++
    sample_connection_with 0 "/a" [field_entry "type" (bytes "pkg/Type"),
      field_entry "md5sum" (bytes "0"), field_entry "message_definition" sample_empty_section]

/-- A CHUNK record with the data `data`. -/
def sample_chunk (data : List Nat) : List Nat :=
  encode_record (encode_fields [field_entry "op" [5], field_entry "compression" (bytes "none"),
    field_entry "size" (le_encode 4 data.length)]) data

/-- An INDEX_DATA record that names connection `conn`. -/
def sample_index_data (conn : Nat) : List Nat :=
  encode_record (encode_fields [field_entry "op" [4], field_entry "ver" (le_encode 4 1),
    field_entry "conn" (le_encode 4 conn), field_entry "count" (le_encode 4 0)]) []

/-- A CHUNK_INFO record for the chunk at offset `chunk_pos`. -/
def sample_chunk_info (chunk_pos : Nat) : List Nat :=
  encode_record (encode_fields [field_entry "op" [6], field_entry "ver" (le_encode 4 1),
    field_entry "chunk_pos" (le_encode 8 chunk_pos), field_entry "start_time" (le_encode 8 5),
    field_entry "end_time" (le_encode 8 9), field_entry "count" (le_encode 4 2)]) []

/-- A bag in which a later BAG_HEADER record empties the connection table and another one
restores its size. -/
def sample_resized_bag : List Nat :=
  sample_preamble ++ sample_bag_header 1 ++ sample_chunk [1, 2, 3] ++ sample_index_data 0 ++
    sample_bag_header 0 ++ sample_bag_header 1

/-- A bag with two connections, two chunks and three INDEX_DATA records. -/
def sample_indexed_bag : List Nat :=
  sample_preamble ++ sample_bag_header 2 ++ sample_chunk [1, 2, 3] ++ sample_index_data 0 ++
    sample_chunk [4] ++ sample_index_data 0 ++ sample_index_data 1

/-- The header of an INDEX_DATA record that names connection `conn`. -/
def sample_index_header (conn : Nat) : header_t :=
  { fields := [(bytes "op", [4]), (bytes "ver", le_encode 4 1),
      (bytes "conn", le_encode 4 conn), (bytes "count", le_encode 4 0)] }

/-- A bag that announces three connections and holds no CONNECTION record. -/
def sample_unannounced_bag : List Nat := sample_preamble ++ sample_bag_header 3

/-- A bag with two chunks and a CHUNK_INFO record for each. -/
def sample_chunk_bag : List Nat :=
  sample_preamble ++ sample_bag_header 1 ++ sample_chunk [1, 2, 3] ++ sample_index_data 0 ++
    sample_chunk [4] ++ sample_chunk_info 197 ++ sample_chunk_info 90

/-- A bag whose INDEX_DATA record names connection 5 of a table of size 1. -/
def sample_index_outside : List Nat :=
  sample_preamble ++ sample_bag_header 1 ++ sample_chunk [1] ++ sample_index_data 5

/-- A bag whose INDEX_DATA record comes before any CHUNK record. -/
def sample_index_before_chunk : List Nat :=
  sample_preamble ++ sample_bag_header 1 ++ sample_index_data 0

/-- A bag whose CONNECTION record names connection 1 of a table of size 1. -/
def sample_connection_outside : List Nat :=
  sample_preamble ++ sample_bag_header 1 ++ sample_connection 1 "/a" "int32 x\n"

/-- A bag whose CONNECTION record comes before any BAG_HEADER record. -/
def sample_connection_before_header : List Nat :=
  sample_preamble ++ sample_connection 0 "/a" "int32 x\n"

/-- The header of a CHUNK_INFO record for the chunk at offset `chunk_pos`. -/
def sample_chunk_info_header (chunk_pos : Nat) : header_t :=
  { fields := [(bytes "op", [6]), (bytes "ver", le_encode 4 1),
      (bytes "chunk_pos", le_encode 8 chunk_pos), (bytes "start_time", le_encode 8 5),
      (bytes "end_time", le_encode 8 9), (bytes "count", le_encode 4 2)] }

/-- The bag after the scan of `sample_indexed_bag`. -/
def sample_indexed_scan : Embag := (open_ sample_indexed_bag Embag.init).2

/-- What a CONNECTION record with the header `header` announces: the connection id, the topic
and the `connection_data` that case `CONNECTION` reads (embag.cc:301-325); nothing when a field
is missing or the topic is empty. -/
def connection_of (mem : List Nat) (record : record_t) (header : header_t) :
    Option (Nat × List Nat × connection_data_t) :=
  match header.getUInt "conn" 4 with
  | .error _ => none
  | .ok connection_id =>
    match header.getString "topic" with
    | .error _ => none
    | .ok topic =>
      if topic.isEmpty then none
      else
        match readFields mem record.data record.data_len with
        | .error _ => none
        | .ok fields =>
          match readRecords_connection_data topic fields with
          | .error _ => none
          | .ok connection_data => some (connection_id, topic, connection_data)

/-- The connection that the iteration announces, when its record is a CONNECTION record. -/
def scan_step.connection (st : scan_step) : Option (Nat × List Nat × connection_data_t) :=
  if st.op = header_t.op.CONNECTION then
    connection_of st.self.bag_stream_.data st.record st.header
  else none

/-- The iteration keeps entry `a` of the connection table in its place: its record is not a
BAG_HEADER record whose `conn_count` is `a` or less. -/
def scan_step.keeps_slot (st : scan_step) (a : Nat) : Bool :=
  if st.op = header_t.op.BAG_HEADER then
    (match st.header.getUInt "conn_count" 4 with
      | .ok n => decide (a < n)
      | .error _ => true)
  else true

/-- The iteration keeps a pointer to entry `i` of the connection table valid: its record is not
a BAG_HEADER record that makes the table grow or removes entry `i`. -/
def scan_step.keeps_pointer (st : scan_step) (i : Nat) : Bool :=
  if st.op = header_t.op.BAG_HEADER then
    (match st.header.getUInt "conn_count" 4 with
      | .ok n => decide (n ≤ st.self.connections_.length ∧ i < n)
      | .error _ => true)
  else true

/-- The iteration keeps every topic held by an entry of the connection table: it does not shrink
the table, and the entry of the connection that it announces, if any, held no topic or the topic
announced. -/
def scan_step.keeps_held_topics (st : scan_step) : Bool :=
  st.keeps_connections &&
    (match st.connection with
      | some (conn, topic, _) =>
        (match st.self.connections_.get? conn with
          | some c => decide (c.topic = [] ∨ c.topic = topic)
          | none => true)
      | none => true)

/-- The property of the tables that a scan keeps when every iteration keeps the topics held: no
registered topic is empty, and every registered topic is held by an entry of the connection
table. -/
def topics_held (b : Embag) : Prop :=
  (∀ t ∈ b.topic_connection_map_.keys, t ≠ []) ∧
    ∀ t ∈ b.topic_connection_map_.keys,
      ∃ (i : Nat) (c : connection_record_t), b.connections_[i]? = some c ∧ c.topic = t

/-- A bag in which the connections 0 and 1 are announced under the same topic. -/
def sample_shared_topic : List Nat :=
  sample_preamble ++ sample_bag_header 2 ++ sample_connection 0 "/a" "int32 x\n" ++
    sample_connection 1 "/a" "int64 y\n"

theorem slice_ofNat (mem : List Nat) (p len : Nat) (h : p + len ≤ mem.length) :
    slice mem ((p : Nat) : Int) len = some ((mem.drop p).take len) := by
  unfold slice
  rw [if_pos ⟨Int.ofNat_nonneg p, by rw [Int.toNat_ofNat]; exact h⟩, Int.toNat_ofNat]

/-- C1: at a cursor where a whole record fits, `readRecord` reads the little-endian `u32`
`header_len` at the cursor, returns the `header_len` bytes after it as header, reads the `u32`
`data_len` right after the header, returns the `data_len` bytes after it as data, and leaves the
cursor `8 + header_len + data_len` bytes further. -/
theorem readRecord_whole_record (s : Stream) (hl dl : Nat) (hgood : s.failed = false)
    (hhl : hl = peek_u32 s.data s.pos) (hdl : dl = peek_u32 s.data (s.pos + 4 + hl))
    (hfit : s.pos + 4 + hl + 4 + dl ≤ s.data.length) :
    (readRecord s).1 = { header_len := hl, header := ((s.pos + 4 : Nat) : Int), data_len := dl,
                         data := ((s.pos + 4 + hl + 4 : Nat) : Int) } ∧
    slice s.data (readRecord s).1.header (readRecord s).1.header_len =
      some ((s.data.drop (s.pos + 4)).take hl) ∧
    slice s.data (readRecord s).1.data (readRecord s).1.data_len =
      some ((s.data.drop (s.pos + 4 + hl + 4)).take dl) ∧
    (readRecord s).2 = { s with pos := s.pos + 8 + hl + dl } := by
  obtain ⟨o, d, p, f⟩ := s
  simp only at hgood hfit hhl hdl ⊢
  subst hgood
  have e1 : Stream.read ⟨o, d, p, false⟩ 4 = ((d.drop p).take 4, ⟨o, d, p + 4, false⟩) := by
    simp [Stream.read]; omega
  have l1 : ((d.drop p).take 4).length = 4 := by simp; omega
  have o1 : overwrite [0, 0, 0, 0] ((d.drop p).take 4) = (d.drop p).take 4 := by
    simp only [overwrite, l1]; simp
  have e2 : Stream.seekg ⟨o, d, p + 4, false⟩ hl = ⟨o, d, p + 4 + hl, false⟩ := by
    simp [Stream.seekg]; omega
  have e3 : Stream.read ⟨o, d, p + 4 + hl, false⟩ 4 =
      ((d.drop (p + 4 + hl)).take 4, ⟨o, d, p + 4 + hl + 4, false⟩) := by
    simp [Stream.read]; omega
  have l3 : ((d.drop (p + 4 + hl)).take 4).length = 4 := by simp; omega
  have o3 : overwrite [0, 0, 0, 0] ((d.drop (p + 4 + hl)).take 4) = (d.drop (p + 4 + hl)).take 4 := by
    simp only [overwrite, l3]; simp
  have e4 : Stream.seekg ⟨o, d, p + 4 + hl + 4, false⟩ dl = ⟨o, d, p + 4 + hl + 4 + dl, false⟩ := by
    simp [Stream.seekg]; omega
  have hr : readRecord ⟨o, d, p, false⟩ =
      (⟨hl, ((p + 4 : Nat) : Int), dl, ((p + 4 + hl + 4 : Nat) : Int)⟩, ⟨o, d, p + 4 + hl + 4 + dl, false⟩) := by
    have hhl' : le_decode ((d.drop p).take 4) = hl := hhl.symm
    have hdl' : le_decode ((d.drop (p + 4 + hl)).take 4) = dl := hdl.symm
    simp only [readRecord, e1, o1, hhl', e2, e3, o3, hdl', e4, Stream.tellg]
    simp
  rw [hr]
  refine ⟨rfl, ?_, ?_, ?_⟩
  · exact slice_ofNat d (p + 4) hl (by omega)
  · exact slice_ofNat d (p + 4 + hl + 4) dl (by omega)
  · simp; omega

/-- Witness of `readRecord_whole_record`: a record with a header of three bytes and two bytes of
data. -/
theorem readRecord_whole_record_witness :
    (readRecord ⟨true, encode_record [1, 2, 3] [4, 5], 0, false⟩).2 =
      ⟨true, encode_record [1, 2, 3] [4, 5], 13, false⟩ :=
  (readRecord_whole_record ⟨true, encode_record [1, 2, 3] [4, 5], 0, false⟩ 3 2 rfl
    (by decide) (by decide) (by decide)).2.2.2

theorem slice_append (pre x post : List Nat) :
    slice (pre ++ x ++ post) ((pre.length : Nat) : Int) x.length = some x := by
  rw [slice_ofNat _ _ _ (by simp)]
  simp

theorem le_encode_length (w n : Nat) : (le_encode w n).length = w := by
  induction w generalizing n with
  | zero => rfl
  | succ w ih => simp [le_encode, ih]

theorem le_decode_encode (w n : Nat) (h : n < 256 ^ w) : le_decode (le_encode w n) = n := by
  induction w generalizing n with
  | zero => simp at h; subst h; rfl
  | succ w ih =>
    have h2 : n / 256 < 256 ^ w := by
      rw [Nat.div_lt_iff_lt_mul (by norm_num)]
      rw [pow_succ] at h; exact h
    simp only [le_encode, le_decode, ih _ h2, Nat.mod_mod]
    omega

theorem find_char_none (c : Nat) (e : List Nat) : find_char c e = none ↔ e.contains c = false := by
  induction e with
  | nil => simp [find_char]
  | cons b e ih =>
    simp only [find_char]
    by_cases hb : b = c
    · subst hb; simp
    · have hb' : ¬ c = b := fun h => hb h.symm
      simp [hb, hb', ih]

theorem find_char_some (c : Nat) (e : List Nat) (i : Nat) (h : find_char c e = some i) :
    e.take i = e.takeWhile (fun b => b != c) ∧
    e.drop (i + 1) = (e.dropWhile (fun b => b != c)).drop 1 := by
  induction e generalizing i with
  | nil => simp [find_char] at h
  | cons b e ih =>
    simp only [find_char] at h
    by_cases hb : b = c
    · subst hb
      simp at h; subst h
      simp [List.takeWhile, List.dropWhile]
    · simp only [hb, if_false, Option.map_eq_some'] at h
      obtain ⟨j, hj, rfl⟩ := h
      have := ih j hj
      have hbc : (b != c) = true := by simpa using hb
      simp [List.takeWhile_cons, List.dropWhile_cons, hbc, this.1, this.2]



theorem readFieldsLoop_step (pre post e : List Nat) (es : List (List Nat))
    (acc : Dict (List Nat)) (fuel : Nat) (he : e.length < 2 ^ 32) :
    readFieldsLoop (pre ++ encode_fields (e :: es) ++ post)
        ((pre.length : Int) + ((encode_fields (e :: es)).length : Nat)) (fuel + 1)
        (pre.length : Int) acc =
      match find_char 61 e with
      | none => .error (.runtime_error
          "Unable to find '=' in header field - perhaps this bag is corrupt..." [])
      | some _ =>
        readFieldsLoop ((pre ++ encode_field e) ++ encode_fields es ++ post)
          (((pre ++ encode_field e).length : Int) + ((encode_fields es).length : Nat)) fuel
          ((pre ++ encode_field e).length : Int)
          (Dict.assign acc (reference_name e) (reference_value e)) := by
  have hmem : pre ++ encode_fields (e :: es) ++ post =
      (pre ++ le_encode 4 e.length) ++ e ++ (encode_fields es ++ post) := by
    simp [encode_fields, encode_field]
  have hmem1 : pre ++ encode_fields (e :: es) ++ post =
      pre ++ le_encode 4 e.length ++ (e ++ encode_fields es ++ post) := by
    simp [encode_fields, encode_field]
  have hmem2 : pre ++ encode_fields (e :: es) ++ post =
      (pre ++ encode_field e) ++ encode_fields es ++ post := by
    simp [encode_fields, encode_field]
  have s1 : slice (pre ++ encode_fields (e :: es) ++ post) (pre.length : Int) 4 =
      some (le_encode 4 e.length) := by
    rw [hmem1]
    have := slice_append pre (le_encode 4 e.length) (e ++ encode_fields es ++ post)
    rwa [le_encode_length] at this
  have s2 : slice (pre ++ encode_fields (e :: es) ++ post) ((pre.length : Int) + 4) e.length =
      some e := by
    rw [hmem]
    have := slice_append (pre ++ le_encode 4 e.length) e (encode_fields es ++ post)
    rwa [List.length_append, le_encode_length, Nat.cast_add] at this
  have hlt : (pre.length : Int) < (pre.length : Int) + ((encode_fields (e :: es)).length : Nat) := by
    simp [encode_fields, encode_field, le_encode_length]; omega
  have hd : le_decode (le_encode 4 e.length) = e.length := le_decode_encode 4 _ (by norm_num; omega)
  rw [readFieldsLoop, if_pos hlt]
  simp only [s1, hd, s2]
  cases hi : find_char 61 e with
  | none => rfl
  | some i =>
    obtain ⟨h1, h2⟩ := find_char_some 61 e i hi
    have e1 : ((pre ++ encode_field e).length : Int) = (pre.length : Int) + 4 + (e.length : Int) := by
      simp [encode_field, le_encode_length]; omega
    have e2 : (pre.length : Int) + ((encode_fields (e :: es)).length : Nat) =
        ((pre ++ encode_field e).length : Int) + ((encode_fields es).length : Nat) := by
      simp [encode_fields, encode_field, le_encode_length]; omega
    simp only [h1, h2, hmem2, e2, ← e1, reference_name, reference_value]

theorem readFieldsLoop_tiled (post : List Nat) (es : List (List Nat)) :
    ∀ (pre : List Nat) (acc : Dict (List Nat)) (fuel : Nat), es.length ≤ fuel →
      (∀ e ∈ es, e.length < 2 ^ 32) →
      readFieldsLoop (pre ++ encode_fields es ++ post)
        ((pre.length : Int) + ((encode_fields es).length : Nat)) fuel (pre.length : Int) acc =
      if es.all (fun e => e.contains 61) then
        .ok (es.foldl (fun d e => Dict.assign d (reference_name e) (reference_value e)) acc)
      else .error (.runtime_error
        "Unable to find '=' in header field - perhaps this bag is corrupt..." []) := by
  induction es with
  | nil =>
    intro pre acc fuel _ _
    cases fuel <;> simp [readFieldsLoop, encode_fields]
  | cons e es ih =>
    intro pre acc fuel hfuel hlen
    obtain ⟨fuel, rfl⟩ : ∃ f, fuel = f + 1 := ⟨fuel - 1, by simp at hfuel; omega⟩
    rw [readFieldsLoop_step pre post e es acc fuel (hlen e (by simp))]
    cases hi : find_char 61 e with
    | none =>
      have := (find_char_none 61 e).1 hi
      simp only [List.all_cons, this, Bool.false_and]
      rfl
    | some i =>
      have hc : e.contains 61 = true := by
        cases h : e.contains 61 with
        | true => rfl
        | false => rw [← find_char_none, hi] at h; cases h
      simp only [List.all_cons, hc, Bool.true_and, List.foldl_cons]
      exact ih (pre ++ encode_field e) _ fuel (by simp at hfuel; omega)
        (fun x hx => hlen x (by simp [hx]))

theorem encode_fields_length_ge (es : List (List Nat)) : es.length ≤ (encode_fields es).length := by
  induction es with
  | nil => simp
  | cons e es ih => simp [encode_fields, encode_field, le_encode_length]; omega

theorem Dict.find_cons {α : Type} (d : Dict α) (a k : List Nat) (b : α) :
    Dict.find ((a, b) :: d) k = if k = a then some b else Dict.find d k := by
  simp only [Dict.find, List.lookup]
  by_cases h : k = a
  · subst h; simp
  · have hb : (k == a) = false := by simpa using h
    simp [hb, h]

theorem Dict.find_nil {α : Type} (k : List Nat) : Dict.find ([] : Dict α) k = none := rfl

theorem Dict.find_assign {α : Type} (d : Dict α) (k k' : List Nat) (v : α) :
    (Dict.assign d k v).find k' = if k' = k then some v else d.find k' := by
  induction d with
  | nil => simp [Dict.assign, Dict.find_cons, Dict.find_nil]
  | cons x d ih =>
    obtain ⟨a, b⟩ := x
    simp only [Dict.assign]
    by_cases ha : a = k
    · subst ha
      simp only [if_true, Dict.find_cons]
      by_cases h : k' = a <;> simp [h]
    · simp only [ha, if_false, Dict.find_cons, ih]
      by_cases h : k' = a
      · subst h; simp [ha]
      · simp [h]

theorem foldl_assign_find (es : List (List Nat)) (acc : Dict (List Nat)) (name : List Nat) :
    (es.foldl (fun d e => Dict.assign d (reference_name e) (reference_value e)) acc).find name =
      match es.reverse.find? (fun e => decide (reference_name e = name)) with
      | some e => some (reference_value e)
      | none => acc.find name := by
  induction es generalizing acc with
  | nil => simp
  | cons e es ih =>
    rw [List.foldl_cons, ih, List.reverse_cons, List.find?_append]
    cases h : es.reverse.find? (fun e => decide (reference_name e = name)) with
    | some x => simp
    | none =>
      simp only [Option.none_or, List.find?_cons, List.find?_nil, Dict.find_assign]
      by_cases hn : reference_name e = name
      · simp [hn]
      · have : ¬ name = reference_name e := fun h => hn h.symm
        simp [hn, this]

/-- C2: on a byte range tiled by entries `{u32 len, len bytes}`, `readFields` equals the
reference decoder: it fails exactly when some entry has no `=`, and otherwise returns the
dictionary in which a name is bound to the value of the last entry of that name, name and value
being split at the first `=` of the entry. -/
theorem readFields_refines_reference (pre post : List Nat) (es : List (List Nat))
    (hlen : ∀ e ∈ es, e.length < 2 ^ 32) :
    (readFields (pre ++ encode_fields es ++ post) (pre.length : Int) (encode_fields es).length =
      match reference_readFields es with
      | some d => .ok d
      | none => .error (.runtime_error
          "Unable to find '=' in header field - perhaps this bag is corrupt..." [])) ∧
    (reference_readFields es = none ↔ ∃ e ∈ es, 61 ∉ e) ∧
    (∀ d, reference_readFields es = some d → ∀ name,
      d.find name = (es.reverse.find? (fun e => decide (reference_name e = name))).map
        reference_value) := by
  refine ⟨?_, ?_, ?_⟩
  · rw [readFields, readFieldsLoop_tiled post es pre [] _
      (by have := encode_fields_length_ge es; omega) hlen, reference_readFields]
    split <;> rfl
  · simp [reference_readFields]
  · intro d hd name
    simp only [reference_readFields] at hd
    split at hd
    · simp only [Option.some.injEq] at hd
      subst hd
      rw [foldl_assign_find]
      cases es.reverse.find? (fun e => decide (reference_name e = name)) <;> simp [Dict.find]
    · cases hd

/-- Witness of `readFields_refines_reference`: three entries, two of them of the same name,
between a byte before and a byte after the range. -/
theorem readFields_refines_reference_witness :
    (readFields ([7] ++ encode_fields [bytes "a=1", bytes "b=c=d", bytes "a=2"] ++ [9])
        (([7] : List Nat).length : Int)
        (encode_fields [bytes "a=1", bytes "b=c=d", bytes "a=2"]).length =
      match reference_readFields [bytes "a=1", bytes "b=c=d", bytes "a=2"] with
      | some d => .ok d
      | none => .error (.runtime_error
          "Unable to find '=' in header field - perhaps this bag is corrupt..." [])) ∧
    reference_readFields [bytes "a=1", bytes "b=c=d", bytes "a=2"] =
      some [(bytes "a", bytes "2"), (bytes "b", bytes "c=d")] :=
  ⟨(readFields_refines_reference [7] [9] [bytes "a=1", bytes "b=c=d", bytes "a=2"]
    (by decide)).1, by decide⟩

/-! ## Opening and closing -/

/-- C3: `open` gets past the preamble and scans the records from offset 13 when the file begins
with the 13 bytes `#ROSBAG V2.0` and a newline; on every other beginning, a file shorter than 13
bytes included, it throws from the preamble, with the cursor within the first 13 bytes and every
table of the bag untouched. -/
theorem open_preamble (file : List Nat) (self : Embag) :
    (file.take 13 = bytes "#ROSBAG V2.0\n" →
      open_ file self =
        match readRecords { self with bag_stream_ := ⟨true, file, 13, false⟩ } with
        | (some e, b) => (.error e, b)
        | (none, b) => (.ok true, b)) ∧
    (file.take 13 ≠ bytes "#ROSBAG V2.0\n" →
      (∃ what detail, (open_ file self).1 = .error (.runtime_error what detail)) ∧
      (open_ file self).2.bag_stream_.pos ≤ 13 ∧
      (open_ file self).2 = { self with bag_stream_ := (open_ file self).2.bag_stream_ }) := by
  have hm : bytes "#ROSBAG V2.0\n" = [35, 82, 79, 83, 66, 65, 71, 32, 86, 50, 46, 48, 10] := by decide
  have hM : MAGIC_STRING = [35, 82, 79, 83, 66, 65, 71, 32, 86] := by decide
  have h2 : bytes "2.0" = [50, 46, 48] := by decide
  have hn : bytes "\n" = [10] := by decide
  rw [hm]
  rcases file with _ | ⟨b0, _ | ⟨b1, _ | ⟨b2, _ | ⟨b3, _ | ⟨b4, _ | ⟨b5, _ | ⟨b6, _ | ⟨b7, _ | ⟨b8, _ | ⟨b9, _ | ⟨b10, _ | ⟨b11, _ | ⟨b12, rest⟩⟩⟩⟩⟩⟩⟩⟩⟩⟩⟩⟩⟩
  iterate 9
    · simp only [open_, Stream.opened, Stream.read, hM]
      simp [overwrite, Stream.close]
  iterate 4
    · simp only [open_, Stream.opened, Stream.read, hM, h2, hn]
      simp only [overwrite, Stream.close, resize]
      simp
      split_ifs <;> simp_all <;> omega
  · refine ⟨fun h => ?_, fun h => ?_⟩
    · simp only [List.take, List.cons.injEq, and_true] at h
      obtain ⟨rfl, rfl, rfl, rfl, rfl, rfl, rfl, rfl, rfl, rfl, rfl, rfl, rfl⟩ := h
      simp only [open_, Stream.opened, Stream.read, hM, h2, hn]
      simp [overwrite, Stream.close, resize]
    · simp only [List.take, List.cons.injEq, and_true] at h
      simp only [open_, Stream.opened, Stream.read, hM, h2, hn]
      simp only [overwrite, Stream.close, resize]
      simp
      split_ifs <;> simp_all

/-- Witness of `open_preamble`: a file that is just the preamble, and one with a wrong version. -/
theorem open_preamble_witness :
    (open_ (bytes "#ROSBAG V2.0\n") Embag.init =
      match readRecords { Embag.init with
        bag_stream_ := ⟨true, bytes "#ROSBAG V2.0\n", 13, false⟩ } with
      | (some e, b) => (.error e, b)
      | (none, b) => (.ok true, b)) ∧
    ((∃ what detail, (open_ (bytes "#ROSBAG V1.2\n") Embag.init).1 =
        .error (.runtime_error what detail)) ∧
      (open_ (bytes "#ROSBAG V1.2\n") Embag.init).2.bag_stream_.pos ≤ 13 ∧
      (open_ (bytes "#ROSBAG V1.2\n") Embag.init).2 = { Embag.init with
        bag_stream_ := (open_ (bytes "#ROSBAG V1.2\n") Embag.init).2.bag_stream_ }) :=
  ⟨(open_preamble (bytes "#ROSBAG V2.0\n") Embag.init).1 (by decide),
   (open_preamble (bytes "#ROSBAG V1.2\n") Embag.init).2 (by decide)⟩

/-- C4 (a defect of the code): `open` on a file whose version is not followed by a newline, and on
a file whose first record has an unknown opcode, throws and leaves the stream open, so that the
following `close()` returns true. -/
theorem open_failure_leaves_stream_open :
    ((open_ (bytes "#ROSBAG V2.0X") Embag.init).1 = .error (.runtime_error
        "Unable to find newline after version string, perhaps this bag file is corrupted?" []) ∧
      (open_ (bytes "#ROSBAG V2.0X") Embag.init).2.bag_stream_.is_open = true ∧
      (close (open_ (bytes "#ROSBAG V2.0X") Embag.init).2).1 = true) ∧
    ((open_ (bytes "#ROSBAG V2.0\n" ++ encode_record (encode_fields [field_entry "op" [9]]) [])
        Embag.init).1 = .error (.runtime_error "Unknown record operation: " (bytes "9")) ∧
      (open_ (bytes "#ROSBAG V2.0\n" ++ encode_record (encode_fields [field_entry "op" [9]]) [])
        Embag.init).2.bag_stream_.is_open = true ∧
      (close (open_ (bytes "#ROSBAG V2.0\n" ++
        encode_record (encode_fields [field_entry "op" [9]]) []) Embag.init).2).1 = true) := by
  decide

theorem Stream.read_is_open (s : Stream) (n : Nat) : (s.read n).2.is_open = s.is_open := by
  unfold Stream.read; split_ifs <;> rfl

theorem Stream.seekg_is_open (s : Stream) (n : Nat) : (s.seekg n).is_open = s.is_open := by
  unfold Stream.seekg; split_ifs <;> rfl

theorem readRecord_is_open (s : Stream) : (readRecord s).2.is_open = s.is_open := by
  simp only [readRecord, Stream.seekg_is_open, Stream.read_is_open]

theorem readRecords_BAG_HEADER_stream (self : Embag) (header : header_t) :
    (readRecords_BAG_HEADER self header).2.bag_stream_ = self.bag_stream_ := by
  unfold readRecords_BAG_HEADER
  repeat' split
  all_goals rfl

theorem readRecords_CHUNK_stream (self : Embag) (pos : Int) (record : record_t)
    (header : header_t) :
    (readRecords_CHUNK self pos record header).2.bag_stream_ = self.bag_stream_ := by
  unfold readRecords_CHUNK
  repeat' split
  all_goals rfl

theorem readRecords_INDEX_DATA_stream (self : Embag) (header : header_t) :
    (readRecords_INDEX_DATA self header).2.bag_stream_ = self.bag_stream_ := by
  unfold readRecords_INDEX_DATA
  repeat' split
  all_goals rfl

theorem readRecords_parse_definition_stream (self : Embag) (topic md : List Nat) :
    (readRecords_parse_definition self topic md).2.bag_stream_ = self.bag_stream_ := by
  unfold readRecords_parse_definition
  generalize Qi.phrase_parse ros_msg_grammar.msg ros_msg_skipper.skip md = r
  obtain ⟨v, rest⟩ := r
  cases v <;> cases rest <;> simp only [] <;> split_ifs <;> rfl

theorem readRecords_register_stream (self b : Embag) (id : Nat) (topic : List Nat)
    (cd : connection_data_t) (h : readRecords_register self id topic cd = some b) :
    b.bag_stream_ = self.bag_stream_ := by
  unfold readRecords_register at h
  split at h
  · cases h
  · cases h; rfl

theorem readRecords_CONNECTION_stream (self : Embag) (record : record_t) (header : header_t) :
    (readRecords_CONNECTION self record header).2.bag_stream_ = self.bag_stream_ := by
  unfold readRecords_CONNECTION
  split
  · rfl
  split
  · rfl
  split_ifs
  · rfl
  split
  · rfl
  split
  · rfl
  split
  · rfl
  · rename_i b hb
    rw [readRecords_parse_definition_stream]
    exact readRecords_register_stream _ _ _ _ _ hb

theorem readRecords_CHUNK_INFO_stream (self : Embag) (header : header_t) :
    (readRecords_CHUNK_INFO self header).2.bag_stream_ = self.bag_stream_ := by
  unfold readRecords_CHUNK_INFO
  repeat' split
  all_goals rfl

theorem readRecords_switch_stream (self : Embag) (pos : Int) (record : record_t)
    (header : header_t) (op : Nat) :
    (readRecords_switch self pos record header op).2.bag_stream_ = self.bag_stream_ := by
  unfold readRecords_switch
  split_ifs
  · exact readRecords_BAG_HEADER_stream _ _
  · exact readRecords_CHUNK_stream _ _ _ _
  · exact readRecords_INDEX_DATA_stream _ _
  · exact readRecords_CONNECTION_stream _ _ _
  · rfl
  · exact readRecords_CHUNK_INFO_stream _ _
  · rfl

/-- A property kept by reading a record and by the switch holds after the loop. -/
theorem readRecords_loop_induct (P : Embag → Prop)
    (hrec : ∀ self, P self → P { self with bag_stream_ := (readRecord self.bag_stream_).2 })
    (hsw : ∀ self pos record header op, P self →
      P (readRecords_switch self pos record header op).2) :
    ∀ (fuel : Nat) (self : Embag), P self → P (readRecords_loop fuel self).2 := by
  intro fuel
  induction fuel with
  | zero => intro self h; exact h
  | succ fuel ih =>
    intro self h
    rw [readRecords_loop]
    simp only
    split_ifs
    · exact h
    · split
      · exact hrec self h
      · split
        · exact hrec self h
        · rename_i header _ _ op _
          have h1 := hsw _ self.bag_stream_.tellg (readRecord self.bag_stream_).1 header op
            (hrec self h)
          split
          · rename_i e b heq
            rw [heq] at h1
            exact h1
          · rename_i b heq
            rw [heq] at h1
            exact ih b h1

theorem readRecords_is_open (self : Embag) :
    (readRecords self).2.bag_stream_.is_open = self.bag_stream_.is_open := by
  apply readRecords_loop_induct (fun b => b.bag_stream_.is_open = self.bag_stream_.is_open)
  · intro b hb
    simp only [readRecord_is_open, hb]
  · intro b pos record header op hb
    simp only [readRecords_switch_stream, hb]
  · rfl

/-- C5: `close()` returns true exactly when the stream was open, and leaves it closed; after a
successful `open`, two calls of `close()` in a row return true and then false. -/
theorem close_returns_was_open (self : Embag) :
    ((close self).1 = true ↔ self.bag_stream_.is_open = true) ∧
    (close self).2.bag_stream_.is_open = false ∧
    (∀ (file : List Nat) (r : Bool) (b : Embag), open_ file self = (.ok r, b) →
      (close b).1 = true ∧ (close (close b).2).1 = false) := by
  refine ⟨?_, ?_, ?_⟩
  · unfold close; split_ifs with h <;> simp [h]
  · unfold close; split_ifs with h
    · rfl
    · simpa using h
  · intro file r b h
    have hopen : b.bag_stream_.is_open = true := by
      simp only [open_] at h
      split_ifs at h
      · cases h
      · cases h
      · cases h
      split at h
      · cases h
      · rename_i b' heq
        have := readRecords_is_open { self with bag_stream_ :=
          (((Stream.opened file).read MAGIC_STRING.length).2.read 3).2.read 1 |>.2 }
        rw [heq] at this
        simp only [Stream.read_is_open, Stream.opened] at this
        simp only [Prod.mk.injEq] at h
        rw [← h.2]; exact this
    unfold close
    simp [hopen, Stream.close]

/-- Witness of `close_returns_was_open`: the bag opened on a file that is just the preamble. -/
theorem close_returns_was_open_witness :
    open_ (bytes "#ROSBAG V2.0\n") Embag.init =
      (.ok true, { Embag.init with bag_stream_ := ⟨true, bytes "#ROSBAG V2.0\n", 13, false⟩ }) ∧
    (close { Embag.init with bag_stream_ := ⟨true, bytes "#ROSBAG V2.0\n", 13, false⟩ }).1 = true ∧
    (close (close { Embag.init with
      bag_stream_ := ⟨true, bytes "#ROSBAG V2.0\n", 13, false⟩ }).2).1 = false :=
  ⟨by decide, (close_returns_was_open Embag.init).2.2 (bytes "#ROSBAG V2.0\n") true
    { Embag.init with bag_stream_ := ⟨true, bytes "#ROSBAG V2.0\n", 13, false⟩ } (by decide)⟩

/-! ## The topics of a scanned bag -/

theorem Dict.mem_keys_assign {α : Type} (d : Dict α) (k t : List Nat) (v : α) :
    t ∈ (Dict.assign d k v).keys ↔ t = k ∨ t ∈ d.keys := by
  induction d with
  | nil => simp [Dict.assign, Dict.keys]
  | cons x d ih =>
    obtain ⟨a, b⟩ := x
    simp only [Dict.assign]
    by_cases ha : a = k
    · subst ha; simp [Dict.keys]
    · simp only [ha, if_false]
      simp only [Dict.keys, List.map_cons, List.mem_cons] at ih ⊢
      rw [ih]
      tauto

theorem Dict.keys_map {α β : Type} (d : Dict α) (f : α → β) :
    Dict.keys (d.map (fun kv => (kv.1, f kv.2))) = Dict.keys d := by
  induction d with
  | nil => rfl
  | cons x d ih =>
    simp only [Dict.keys, List.map_cons, List.cons.injEq, true_and] at ih ⊢
    exact ih

theorem Dict.find_map {α β : Type} (d : Dict α) (f : α → β) (k : List Nat) :
    Dict.find (d.map (fun kv => (kv.1, f kv.2))) k = (Dict.find d k).map f := by
  induction d with
  | nil => rfl
  | cons x d ih =>
    obtain ⟨a, b⟩ := x
    simp only [List.map_cons, Dict.find_cons, ih]
    split_ifs <;> rfl

theorem topics_registered_BAG_HEADER (self : Embag) (header : header_t)
    (h : topics_registered self) : topics_registered (readRecords_BAG_HEADER self header).2 := by
  unfold readRecords_BAG_HEADER
  split
  · exact h
  split
  · exact h
  split
  · exact h
  · rename_i n _ _ _ _ _ _ _
    have hk : Dict.keys (self.topic_connection_map_.map (fun kv =>
        (kv.1, kv.2.resized self.connections_.length n))) = Dict.keys self.topic_connection_map_ :=
      Dict.keys_map _ (fun p : connection_ptr => p.resized self.connections_.length n)
    refine ⟨?_, ?_⟩
    · intro c hc hne
      simp only [resize, List.mem_append, List.mem_replicate] at hc
      simp only [hk]
      rcases hc with hc | ⟨_, rfl⟩
      · exact h.1 c (List.mem_of_mem_take hc) hne
      · exact absurd rfl hne
    · intro t ht
      simp only [hk] at ht
      exact h.2 t ht

theorem topics_registered_CHUNK (self : Embag) (pos : Int) (record : record_t)
    (header : header_t) (h : topics_registered self) :
    topics_registered (readRecords_CHUNK self pos record header).2 := by
  unfold readRecords_CHUNK
  split
  · exact h
  split
  · exact h
  · exact h

theorem topics_registered_INDEX_DATA (self : Embag) (header : header_t)
    (h : topics_registered self) : topics_registered (readRecords_INDEX_DATA self header).2 := by
  unfold readRecords_INDEX_DATA
  split
  · exact h
  split
  · exact h
  split
  · exact h
  split_ifs
  · exact h
  simp only []
  split
  · exact h
  · rename_i c hc
    refine ⟨?_, h.2⟩
    intro c' hc' hne
    rcases List.mem_or_eq_of_mem_set hc' with h1 | rfl
    · exact h.1 c' h1 hne
    · exact h.1 c (List.get?_mem hc) hne

theorem topics_registered_parse_definition (self : Embag) (topic md : List Nat)
    (h : topics_registered self) :
    topics_registered (readRecords_parse_definition self topic md).2 := by
  unfold readRecords_parse_definition
  generalize Qi.phrase_parse ros_msg_grammar.msg ros_msg_skipper.skip md = r
  obtain ⟨v, rest⟩ := r
  cases v <;> cases rest <;> simp only [] <;> first | exact h | (split_ifs <;> exact h)

theorem topics_registered_register (self b : Embag) (id : Nat) (topic : List Nat)
    (cd : connection_data_t) (hne : topic ≠ [])
    (hb : readRecords_register self id topic cd = some b) (h : topics_registered self) :
    topics_registered b := by
  unfold readRecords_register at hb
  split at hb
  · cases hb
  · cases hb
    constructor
    · intro c' hc' hne'
      simp only [Dict.mem_keys_assign]
      rcases List.mem_or_eq_of_mem_set hc' with h1 | rfl
      · exact Or.inr (h.1 c' h1 hne')
      · exact Or.inl rfl
    · intro t ht
      simp only [Dict.mem_keys_assign] at ht
      rcases ht with rfl | ht
      · exact hne
      · exact h.2 t ht

theorem topics_registered_CONNECTION (self : Embag) (record : record_t) (header : header_t)
    (h : topics_registered self) :
    topics_registered (readRecords_CONNECTION self record header).2 := by
  unfold readRecords_CONNECTION
  split
  · exact h
  split
  · exact h
  split_ifs with hempty
  · exact h
  split
  · exact h
  split
  · exact h
  split
  · exact h
  · rename_i b hb
    apply topics_registered_parse_definition
    refine topics_registered_register _ _ _ _ _ ?_ hb h
    intro he; apply hempty; simp [he]

theorem topics_registered_CHUNK_INFO (self : Embag) (header : header_t)
    (h : topics_registered self) : topics_registered (readRecords_CHUNK_INFO self header).2 := by
  unfold readRecords_CHUNK_INFO
  split
  · exact h
  split
  · exact h
  split
  · exact h
  split
  · exact h
  split
  · exact h
  split
  · exact h
  · exact h

theorem topics_registered_switch (self : Embag) (pos : Int) (record : record_t)
    (header : header_t) (op : Nat) (h : topics_registered self) :
    topics_registered (readRecords_switch self pos record header op).2 := by
  unfold readRecords_switch
  split_ifs
  · exact topics_registered_BAG_HEADER _ _ h
  · exact topics_registered_CHUNK _ _ _ _ h
  · exact topics_registered_INDEX_DATA _ _ h
  · exact topics_registered_CONNECTION _ _ _ h
  · exact h
  · exact topics_registered_CHUNK_INFO _ _ h
  · exact h

theorem topics_registered_readRecords (self : Embag) (h : topics_registered self) :
    topics_registered (readRecords self).2 :=
  readRecords_loop_induct topics_registered (fun _ hb => hb)
    (fun b pos record header op hb => topics_registered_switch b pos record header op hb) _ _ h

theorem open_ok_readRecords (file : List Nat) (self b : Embag) (r : Bool)
    (h : open_ file self = (.ok r, b)) :
    ∃ st : Stream, st.is_open = true ∧ readRecords { self with bag_stream_ := st } = (none, b) := by
  simp only [open_] at h
  split_ifs at h
  · cases h
  · cases h
  · cases h
  split at h
  · cases h
  · rename_i b' heq
    simp only [Prod.mk.injEq] at h
    refine ⟨_, ?_, by rw [heq, h.2]⟩
    simp only [Stream.read_is_open, Stream.opened]

/-- After a successful `open` of a fresh bag, every non-empty topic held by an entry of the
connection table is a registered topic, and no registered topic is empty. -/
theorem topics_registered_open (file : List Nat) (b : Embag)
    (h : open_ file Embag.init = (.ok true, b)) : topics_registered b := by
  obtain ⟨st, _, hst⟩ := open_ok_readRecords file Embag.init b true h
  have := topics_registered_readRecords { Embag.init with bag_stream_ := st }
    (And.intro (fun c hc => by cases hc) (fun t ht => by cases ht))
  rw [hst] at this
  exact this

/-- C6 (counterexample): a bag that announces connection 0 first on `/a` and then on `/b` is
scanned successfully; `/a` stays registered although no entry of the connection table holds
it. So is a bag that announces connection 0 on `/a` and then holds a BAG_HEADER record with
`conn_count` 0: `/a` stays registered and the connection table is empty. -/
theorem registered_topic_without_connection :
    ((open_ sample_rebound_connection Embag.init).1 = .ok true ∧
      bytes "/a" ∈ (open_ sample_rebound_connection Embag.init).2.topic_connection_map_.keys ∧
      ¬ ∃ c ∈ (open_ sample_rebound_connection Embag.init).2.connections_,
        c.topic = bytes "/a") ∧
    ((open_ sample_dropped_connection Embag.init).1 = .ok true ∧
      bytes "/a" ∈ (open_ sample_dropped_connection Embag.init).2.topic_connection_map_.keys ∧
      (open_ sample_dropped_connection Embag.init).2.connections_ = []) := by
  decide

/-! ## The grammar of message definitions -/

open Qi

namespace Qi

theorem kleene_loop_fuel {α : Type} (p : Parser α) (sk : Skip) :
    ∀ (f1 f2 : Nat) (s : Input), s.length < f1 → s.length < f2 →
      kleene_loop p sk f1 s = kleene_loop p sk f2 s := by
  intro f1
  induction f1 with
  | zero => intro f2 s h; omega
  | succ f1 ih =>
    intro f2 s h1 h2
    obtain ⟨f2, rfl⟩ : ∃ f, f2 = f + 1 := ⟨f2 - 1, by omega⟩
    simp only [kleene_loop]
    rcases hp : p sk s with ⟨_ | a, r⟩
    · rfl
    · simp only []
      split_ifs with hlt
      · rw [ih f2 r (by omega) (by omega)]
      · rfl

theorem kleene_run_fail {α : Type} (p : Parser α) (sk : Skip) (s r : Input)
    (h : p sk s = ⟨none, r⟩) : kleene_run p sk s = ([], r) := by
  unfold kleene_run
  rw [kleene_loop]
  simp only [h]

theorem kleene_run_ok {α : Type} (p : Parser α) (sk : Skip) (s r : Input) (a : α)
    (h : p sk s = ⟨some a, r⟩) (hlt : r.length < s.length) :
    kleene_run p sk s = (a :: (kleene_run p sk r).1, (kleene_run p sk r).2) := by
  unfold kleene_run
  rw [kleene_loop]
  simp only [h, hlt, if_true]
  rw [kleene_loop_fuel p sk (s.length) (r.length + 1) r hlt (by omega)]

theorem skip_over_loop_fuel (skipper : Parser Unit) :
    ∀ (f1 f2 : Nat) (s : Input), s.length < f1 → s.length < f2 →
      skip_over_loop skipper f1 s = skip_over_loop skipper f2 s := by
  intro f1
  induction f1 with
  | zero => intro f2 s h; omega
  | succ f1 ih =>
    intro f2 s h1 h2
    obtain ⟨f2, rfl⟩ : ∃ f, f2 = f + 1 := ⟨f2 - 1, by omega⟩
    cases s with
    | nil => rfl
    | cons c t =>
      simp only [skip_over_loop]
      rcases hp : skipper id (c :: t) with ⟨_ | a, r⟩
      · rfl
      · simp only []
        split_ifs with hlt
        · exact ih f2 r (by simp at hlt h1; omega) (by simp at hlt h2; omega)
        · rfl

theorem skip_over_nil (skipper : Parser Unit) : skip_over skipper [] = [] := rfl

theorem skip_over_fail (skipper : Parser Unit) (c : Nat) (t r : Input)
    (h : skipper id (c :: t) = ⟨none, r⟩) : skip_over skipper (c :: t) = r := by
  unfold skip_over
  rw [List.length_cons, skip_over_loop]
  simp only [h]

theorem skip_over_ok (skipper : Parser Unit) (s r : Input)
    (h : skipper id s = ⟨some (), r⟩) (hlt : r.length < s.length) :
    skip_over skipper s = skip_over skipper r := by
  cases s with
  | nil => simp at hlt
  | cons c t =>
    unfold skip_over
    rw [skip_over_loop]
    simp only [h, hlt, if_true]
    exact skip_over_loop_fuel skipper (c :: t).length (r.length + 1) r hlt (by omega)

/-- A loop over the characters of `w`, each accepted by `p`, that stops at `k`. -/
theorem kleene_run_span (p : Parser Nat) (sk : Skip) (w : List Nat) (k k' : Input)
    (hw : ∀ c ∈ w, ∀ r, p sk (c :: r) = ⟨some c, r⟩) (hk : p sk k = ⟨none, k'⟩) :
    kleene_run p sk (w ++ k) = (w, k') := by
  induction w with
  | nil => simpa using kleene_run_fail p sk k k' hk
  | cons c w ih =>
    rw [List.cons_append, kleene_run_ok p sk _ (w ++ k) c (hw c (by simp) _) (by simp),
      ih (fun c hc r => hw c (by simp [hc]) r)]

theorem plus_span (p : Parser Nat) (sk : Skip) (c : Nat) (w : List Nat) (k k' : Input)
    (hw : ∀ x ∈ c :: w, ∀ r, p sk (x :: r) = ⟨some x, r⟩) (hk : p sk k = ⟨none, k'⟩) :
    plus p sk (c :: w ++ k) = ⟨some (c :: w), k'⟩ := by
  have h1 := hw c (by simp) (w ++ k)
  simp only [plus, List.cons_append, h1]
  rw [kleene_run_span p sk w k k' (fun x hx r => hw x (by simp [hx]) r) hk]

end Qi

theorem eol_fail (sk : Skip) (s : Input) (c : Nat) (r : Input) (hs : sk s = c :: r)
    (h10 : c ≠ 10) (h13 : c ≠ 13) : eol sk s = ⟨none, c :: r⟩ := by
  unfold eol
  rw [hs]
  split
  · rename_i h; simp only [List.cons.injEq] at h; exact absurd h.1 h13
  · rename_i h; simp only [List.cons.injEq] at h; exact absurd h.1 h13
  · rename_i h; simp only [List.cons.injEq] at h; exact absurd h.1 h10
  · rfl

theorem eol_nil (sk : Skip) (s : Input) (hs : sk s = []) : eol sk s = ⟨none, []⟩ := by
  unfold eol
  rw [hs]

theorem eol_lf (sk : Skip) (s r : Input) (hs : sk s = 10 :: r) : eol sk s = ⟨some (), r⟩ := by
  unfold eol
  rw [hs]

theorem char_class_ok (test : Nat → Bool) (sk : Skip) (s : Input) (c : Nat) (r : Input)
    (hs : sk s = c :: r) (ht : test c = true) : char_class test sk s = ⟨some c, r⟩ := by
  simp only [char_class, hs, ht, if_true]

theorem char_class_fail (test : Nat → Bool) (sk : Skip) (s : Input) (c : Nat) (r : Input)
    (hs : sk s = c :: r) (ht : test c = false) : char_class test sk s = ⟨none, c :: r⟩ := by
  simp [char_class, hs, ht]

theorem char_class_nil (test : Nat → Bool) (sk : Skip) (s : Input) (hs : sk s = []) :
    char_class test sk s = ⟨none, []⟩ := by
  simp only [char_class, hs]

theorem lit_ok (x : Nat) (sk : Skip) (s r : Input) (hs : sk s = x :: r) :
    lit x sk s = ⟨some (), r⟩ := by
  have h := char_class_ok (fun y => y == x) sk s x r hs (by simp)
  simp only [lit, omit_, h]

theorem lit_fail (x : Nat) (sk : Skip) (s : Input) (c : Nat) (r : Input) (hs : sk s = c :: r)
    (hc : c ≠ x) : lit x sk s = ⟨none, c :: r⟩ := by
  have h := char_class_fail (fun y => y == x) sk s c r hs (by simpa using hc)
  simp only [lit, omit_, h]

theorem lit_nil (x : Nat) (sk : Skip) (s : Input) (hs : sk s = []) : lit x sk s = ⟨none, []⟩ := by
  have h := char_class_nil (fun y => y == x) sk s hs
  simp only [lit, omit_, h]

theorem kleene_run_char_class (test : Nat → Bool) :
    ∀ s : Input, kleene_run (char_class test) id s = (s.takeWhile test, s.dropWhile test) := by
  intro s
  induction s with
  | nil => exact kleene_run_fail _ _ _ _ (char_class_nil test id [] rfl)
  | cons c t ih =>
    cases ht : test c with
    | true =>
      rw [kleene_run_ok _ _ _ t c (char_class_ok test id _ c t rfl ht) (by simp), ih]
      simp [List.takeWhile_cons, List.dropWhile_cons, ht]
    | false =>
      rw [kleene_run_fail _ _ _ _ (char_class_fail test id _ c t rfl ht)]
      simp [List.takeWhile_cons, List.dropWhile_cons, ht]

theorem kleene_run_lit_snd (x : Nat) :
    ∀ s : Input, (kleene_run (lit x) id s).2 = s.dropWhile (fun c => c == x) := by
  intro s
  induction s with
  | nil => rw [kleene_run_fail _ _ _ _ (lit_nil x id [] rfl)]; rfl
  | cons c t ih =>
    by_cases hc : c = x
    · subst hc
      rw [kleene_run_ok _ _ _ t () (lit_ok c id _ t rfl) (by simp)]
      simp [List.dropWhile_cons, ih]
    · rw [kleene_run_fail _ _ _ _ (lit_fail x id _ c t rfl hc)]
      simp [List.dropWhile_cons, hc]

theorem diff_char_eol (c : Nat) (r : Input) :
    diff char_ eol id (c :: r) = if noneol c then ⟨some c, r⟩ else ⟨none, c :: r⟩ := by
  by_cases h10 : c = 10
  · subst h10; simp [diff, eol_lf id _ r rfl, noneol]
  by_cases h13 : c = 13
  · subst h13
    have : (eol id (13 :: r)).val = some () := by
      unfold eol; simp only [id]; split <;> simp_all
    simp only [diff]
    rcases he : eol id (13 :: r) with ⟨_ | u, r'⟩
    · rw [he] at this; cases this
    · simp [noneol]
  · simp only [diff, eol_fail id _ c r rfl h10 h13, char_, char_class, id, ischar, noneol]
    by_cases h : c < 128 <;> simp [h, h10, h13]

theorem diff_char_eol_nil : diff char_ eol id [] = ⟨none, []⟩ := by
  simp [diff, eol_nil id [] rfl, char_, char_class]

theorem kleene_run_noneol :
    ∀ s : Input, (kleene_run (diff char_ eol) id s).2 = s.dropWhile noneol := by
  intro s
  induction s with
  | nil => rw [kleene_run_fail _ _ _ _ diff_char_eol_nil]; rfl
  | cons c t ih =>
    cases h : noneol c with
    | true =>
      rw [kleene_run_ok _ _ _ t c (by rw [diff_char_eol, h]; rfl) (by simp)]
      simp [List.dropWhile_cons, h, ih]
    | false =>
      rw [kleene_run_fail _ _ _ (c :: t) (by rw [diff_char_eol, h]; rfl)]
      simp [List.dropWhile_cons, h]

/-- What the rule `comment` does: after the white space a `#` and the rest of the line. -/
theorem comment_eval (s : Input) :
    ros_msg_skipper.comment id s =
      match s.dropWhile isspace with
      | 35 :: t => ⟨some (), t.dropWhile noneol⟩
      | _ => ⟨none, s⟩ := by
  have h1 : (kleene space id s) = ⟨some (s.takeWhile isspace), s.dropWhile isspace⟩ := by
    simp only [kleene, space, kleene_run_char_class]
  simp only [ros_msg_skipper.comment, seq_r, pmap, seq, h1]
  have hb : bytes "#" = [35] := by decide
  rw [hb]
  rcases hd : s.dropWhile isspace with _ | ⟨c, t⟩
  · simp [lit_string]
  · by_cases hc : c = 35
    · subst hc
      simp [lit_string, omit_, kleene, kleene_run_noneol]
    · have hc' : ¬ 35 = c := fun h => hc h.symm
      simp [lit_string, hc']
      split
      · rename_i h; simp only [List.cons.injEq] at h; exact absurd h.1 hc
      · rfl

theorem eol_fail_at (s : Input) (c : Nat) (r : Input) (hs : s = c :: r) (h10 : c ≠ 10)
    (h13 : c ≠ 13) : eol id s = ⟨none, s⟩ := by
  subst hs; exact eol_fail id _ c r rfl h10 h13

theorem separator_fail_at (s : Input) (c : Nat) (r : Input) (hs : s = c :: r) (hc : c ≠ 61) :
    ros_msg_skipper.separator id s = ⟨none, s⟩ := by
  subst hs
  simp only [ros_msg_skipper.separator, diff]
  rcases he : eol id (c :: r) with ⟨_ | u, r'⟩
  · have hr' : r' = c :: r := by
      unfold eol at he
      simp only [id] at he
      split at he <;> simp_all
    subst hr'
    simp only [omit_, repeat_, lit_fail 61 id (c :: r) c r rfl hc]
  · rfl

theorem repeat_lit_ok (x : Nat) : ∀ (n : Nat) (r : Input),
    (repeat_ (lit x) n id (List.replicate n x ++ r)).rest = r ∧
    (repeat_ (lit x) n id (List.replicate n x ++ r)).val.isSome = true := by
  intro n
  induction n with
  | zero => intro r; simp [repeat_]
  | succ n ih =>
    intro r
    have h := lit_ok x id (x :: (List.replicate n x ++ r)) _ rfl
    simp only [List.replicate_succ, List.cons_append, repeat_, h]
    have := ih r
    rcases hr : repeat_ (lit x) n id (List.replicate n x ++ r) with ⟨_ | l, r'⟩
    · rw [hr] at this; simp at this
    · rw [hr] at this; simp at this; simp [this]

theorem separator_ok (r : Input) :
    ros_msg_skipper.separator id (List.replicate 80 61 ++ 10 :: r) = ⟨some (), 10 :: r⟩ := by
  have he : eol id (List.replicate 80 61 ++ 10 :: r) = ⟨none, List.replicate 80 61 ++ 10 :: r⟩ :=
    eol_fail_at (List.replicate 80 61 ++ 10 :: r) 61 (List.replicate 79 61 ++ 10 :: r)
      (by simp [List.replicate_succ]) (by decide) (by decide)
  have := repeat_lit_ok 61 80 (10 :: r)
  rcases hr : repeat_ (lit 61) 80 id (List.replicate 80 61 ++ 10 :: r) with ⟨_ | l, r'⟩
  · rw [hr] at this; simp at this
  · rw [hr] at this
    simp only [Option.isSome_some, and_true] at this
    simp only [ros_msg_skipper.separator, diff, he, omit_, hr, this]

theorem separator_fail (c : Nat) (r : Input) (hc : c ≠ 61) :
    ros_msg_skipper.separator id (c :: r) = ⟨none, c :: r⟩ :=
  separator_fail_at _ c r rfl hc

theorem separator_nil : ros_msg_skipper.separator id [] = ⟨none, []⟩ := by
  simp only [ros_msg_skipper.separator, diff, eol_nil id [] rfl, omit_, repeat_,
    lit_nil 61 id [] rfl]

theorem dropWhile_replicate_append (p : Nat → Bool) (a : Nat) (n : Nat) (l : List Nat)
    (h : p a = true) : (List.replicate n a ++ l).dropWhile p = l.dropWhile p := by
  induction n with
  | zero => rfl
  | succ n ih => simp [List.replicate_succ, List.dropWhile_cons, h, ih]

theorem blank_lines_eval (s : Input) :
    ros_msg_skipper.blank_lines id s =
      match eol id (s.dropWhile (fun c => c == 32)) with
      | ⟨some _, r⟩ => ⟨some (), r⟩
      | ⟨none, _⟩ => ⟨none, s⟩ := by
  simp only [ros_msg_skipper.blank_lines, seq_r, pmap, seq, kleene, kleene_run_lit_snd]
  rcases he : eol id (s.dropWhile (fun c => c == 32)) with ⟨_ | u, r'⟩ <;> rfl

theorem blank_lines_ok (n : Nat) (r : Input) :
    ros_msg_skipper.blank_lines id (List.replicate n 32 ++ 10 :: r) = ⟨some (), r⟩ := by
  rw [blank_lines_eval, dropWhile_replicate_append _ _ _ _ (by decide)]
  simp [List.dropWhile_cons, eol_lf id (10 :: r) r rfl]

theorem blank_lines_fail (n : Nat) (c : Nat) (r : Input) (h32 : c ≠ 32) (h10 : c ≠ 10)
    (h13 : c ≠ 13) :
    ros_msg_skipper.blank_lines id (List.replicate n 32 ++ c :: r) =
      ⟨none, List.replicate n 32 ++ c :: r⟩ := by
  rw [blank_lines_eval, dropWhile_replicate_append _ _ _ _ (by decide)]
  simp [List.dropWhile_cons, h32, eol_fail id (c :: r) c r rfl h10 h13]

theorem blank_lines_nil (n : Nat) :
    ros_msg_skipper.blank_lines id (List.replicate n 32) = ⟨none, List.replicate n 32⟩ := by
  have : List.replicate n 32 = List.replicate n 32 ++ [] := by simp
  rw [blank_lines_eval]
  conv_lhs => rw [this, dropWhile_replicate_append _ _ _ _ (by decide)]
  simp [eol_nil id [] rfl]

theorem is_solid_iff (c : Nat) :
    is_solid c = true ↔ isspace c = false ∧ c ≠ 35 ∧ c ≠ 61 := by
  simp [is_solid, and_assoc]

theorem isspace_false (c : Nat) (h : isspace c = false) : c ≠ 32 ∧ c ≠ 10 ∧ c ≠ 13 := by
  simp only [isspace, Bool.or_eq_false_iff, Bool.and_eq_false_iff, beq_eq_false_iff_ne,
    decide_eq_false_iff_not] at h
  omega

/-- The skipper rule fails on spaces followed by a character that is neither white space nor
`#`, nor `=` when there is no space before it. -/
theorem skip_fail_spaces (n : Nat) (c : Nat) (r : Input) (hsp : isspace c = false)
    (h35 : c ≠ 35) (h61 : n = 0 → c ≠ 61) :
    ros_msg_skipper.skip id (List.replicate n 32 ++ c :: r) =
      ⟨none, List.replicate n 32 ++ c :: r⟩ := by
  obtain ⟨h32, h10, h13⟩ := isspace_false c hsp
  have hc : ros_msg_skipper.comment id (List.replicate n 32 ++ c :: r) =
      ⟨none, List.replicate n 32 ++ c :: r⟩ := by
    rw [comment_eval, dropWhile_replicate_append _ _ _ _ (by decide)]
    simp only [List.dropWhile_cons, hsp]
    split
    · rename_i h; simp at h; exact absurd h.1 h35
    · rfl
  have hs : ros_msg_skipper.separator id (List.replicate n 32 ++ c :: r) =
      ⟨none, List.replicate n 32 ++ c :: r⟩ := by
    cases n with
    | zero => exact separator_fail c r (h61 rfl)
    | succ n =>
      exact separator_fail_at _ 32 (List.replicate n 32 ++ c :: r)
        (by simp [List.replicate_succ]) (by decide)
  have he : eol id (List.replicate n 32 ++ c :: r) = ⟨none, List.replicate n 32 ++ c :: r⟩ := by
    cases n with
    | zero => exact eol_fail id _ c r rfl h10 h13
    | succ n =>
      exact eol_fail_at _ 32 (List.replicate n 32 ++ c :: r)
        (by simp [List.replicate_succ]) (by decide) (by decide)
  simp only [ros_msg_skipper.skip, alt, hc, hs, he, blank_lines_fail n c r h32 h10 h13]

theorem skip_fail_solid (c : Nat) (r : Input) (h : is_solid c = true) :
    ros_msg_skipper.skip id (c :: r) = ⟨none, c :: r⟩ := by
  rw [is_solid_iff] at h
  exact skip_fail_spaces 0 c r h.1 h.2.1 (fun _ => h.2.2)

theorem msg_skip_solid (k : Input) (h : starts_solid k = true) : msg_skip k = k := by
  cases k with
  | nil => rfl
  | cons c r => exact skip_over_fail _ c r _ (skip_fail_solid c r h)

theorem msg_skip_spaces (n : Nat) (c : Nat) (r : Input) (hsp : isspace c = false)
    (h35 : c ≠ 35) (h61 : n = 0 → c ≠ 61) :
    msg_skip (List.replicate n 32 ++ c :: r) = List.replicate n 32 ++ c :: r := by
  have h := skip_fail_spaces n c r hsp h35 h61
  cases n with
  | zero => exact skip_over_fail _ c r _ h
  | succ n =>
    have e : List.replicate (n + 1) 32 ++ c :: r = 32 :: (List.replicate n 32 ++ c :: r) := by
      simp [List.replicate_succ]
    rw [e] at h ⊢
    exact skip_over_fail _ 32 (List.replicate n 32 ++ c :: r) _ h

theorem render_fillers_blank (n : Nat) (fs : List filler_line) (k : Input) :
    render_fillers (.blank n :: fs) ++ k = List.replicate n 32 ++ 10 :: (render_fillers fs ++ k) := by
  simp [render_fillers, filler_line.render]

theorem render_fillers_comment (i : Nat) (t : List Nat) (fs : List filler_line) (k : Input) :
    render_fillers (.comment i t :: fs) ++ k =
      List.replicate i 32 ++ 35 :: (t ++ 10 :: (render_fillers fs ++ k)) := by
  simp [render_fillers, filler_line.render]

theorem render_fillers_separator (fs : List filler_line) (k : Input) :
    render_fillers (.separator :: fs) ++ k =
      List.replicate 80 61 ++ 10 :: (render_fillers fs ++ k) := by
  simp [render_fillers, filler_line.render]

theorem starts_solid_dropWhile (k : Input) (h : starts_solid k = true) :
    k.dropWhile isspace = k ∧ ∀ t, k ≠ 35 :: t := by
  cases k with
  | nil => simp
  | cons c r =>
    simp only [starts_solid, is_solid_iff] at h
    refine ⟨by simp [List.dropWhile_cons, h.1], ?_⟩
    intro t ht
    simp only [List.cons.injEq] at ht
    exact h.2.1 ht.1

theorem dropWhile_space_blank (n : Nat) (l : Input) :
    (List.replicate n 32 ++ 10 :: l).dropWhile isspace = l.dropWhile isspace := by
  rw [dropWhile_replicate_append _ _ _ _ (by decide)]
  simp [List.dropWhile_cons, isspace]

theorem first_comment_some (k : Input) :
    ∀ (fs : List filler_line) (text : List Nat) (fs2 : List filler_line),
      first_comment fs = some (text, fs2) →
      (render_fillers fs ++ k).dropWhile isspace = 35 :: (text ++ 10 :: (render_fillers fs2 ++ k)) ∧
      (∀ f ∈ fs2, f ∈ fs) ∧
      ((∀ f ∈ fs, f.wf = true) → text.all noneol = true) ∧
      (render_fillers fs2).length + 2 ≤ (render_fillers fs).length := by
  intro fs
  induction fs with
  | nil => intro text fs2 h; cases h
  | cons f fs ih =>
    intro text fs2 h
    cases f with
    | blank n =>
      simp only [first_comment] at h
      obtain ⟨h1, h2, h3, h4⟩ := ih text fs2 h
      refine ⟨?_, ?_, ?_, ?_⟩
      · rw [render_fillers_blank, dropWhile_space_blank, h1]
      · intro f hf; exact List.mem_cons_of_mem _ (h2 f hf)
      · intro hwf; exact h3 (fun f hf => hwf f (List.mem_cons_of_mem _ hf))
      · simp only [render_fillers, List.length_append]; omega
    | comment i t =>
      simp only [first_comment, Option.some.injEq, Prod.mk.injEq] at h
      obtain ⟨rfl, rfl⟩ := h
      refine ⟨?_, ?_, ?_, ?_⟩
      · rw [render_fillers_comment, dropWhile_replicate_append _ _ _ _ (by decide)]
        simp [List.dropWhile_cons, isspace]
      · intro f hf; exact List.mem_cons_of_mem _ hf
      · intro hwf
        have := hwf (.comment i t) (by simp)
        simpa [filler_line.wf, noneol] using this
      · simp only [render_fillers, filler_line.render, List.length_append, List.length_cons,
          List.length_replicate]
        omega
    | separator => simp [first_comment] at h

theorem first_comment_none (k : Input) (hk : starts_solid k = true) :
    ∀ (fs : List filler_line), first_comment fs = none →
      ∀ t, (render_fillers fs ++ k).dropWhile isspace ≠ 35 :: t := by
  intro fs
  induction fs with
  | nil =>
    intro _ t
    simp only [render_fillers, List.nil_append]
    rw [(starts_solid_dropWhile k hk).1]
    exact (starts_solid_dropWhile k hk).2 t
  | cons f fs ih =>
    intro h t
    cases f with
    | blank n =>
      simp only [first_comment] at h
      rw [render_fillers_blank, dropWhile_space_blank]
      exact ih h t
    | comment i text => simp [first_comment] at h
    | separator =>
      rw [render_fillers_separator]
      simp [List.replicate_succ, List.dropWhile_cons, isspace]

theorem dropWhile_noneol_text (text : List Nat) (l : Input) (h : text.all noneol = true) :
    (text ++ 10 :: l).dropWhile noneol = 10 :: l := by
  induction text with
  | nil => simp [List.dropWhile_cons, noneol]
  | cons c t ih =>
    simp only [List.all_cons, Bool.and_eq_true] at h
    simp [List.dropWhile_cons, h.1, ih h.2]

theorem comment_fillers (k : Input) (hk : starts_solid k = true) (fs : List filler_line)
    (hwf : ∀ f ∈ fs, f.wf = true) :
    ros_msg_skipper.comment id (render_fillers fs ++ k) =
      match first_comment fs with
      | some (_, fs2) => ⟨some (), 10 :: (render_fillers fs2 ++ k)⟩
      | none => ⟨none, render_fillers fs ++ k⟩ := by
  rw [comment_eval]
  cases h : first_comment fs with
  | none =>
    have := first_comment_none k hk fs h
    split
    · rename_i t ht; exact absurd ht (this t)
    · rfl
  | some p =>
    obtain ⟨text, fs2⟩ := p
    obtain ⟨h1, _, h3, _⟩ := first_comment_some k fs text fs2 h
    simp only [h1, dropWhile_noneol_text text _ (h3 hwf)]

theorem skip_step_fillers (k : Input) (hk : starts_solid k = true) (f : filler_line)
    (fs : List filler_line) (hwf : ∀ x ∈ f :: fs, x.wf = true) :
    ∃ fs', (∀ x ∈ fs', x.wf = true) ∧
      ros_msg_skipper.skip id (render_fillers (f :: fs) ++ k) =
        ⟨some (), render_fillers fs' ++ k⟩ ∧
      (render_fillers fs').length < (render_fillers (f :: fs)).length := by
  have hc := comment_fillers k hk (f :: fs) hwf
  cases hfc : first_comment (f :: fs) with
  | some p =>
    obtain ⟨text, fs2⟩ := p
    obtain ⟨_, h2, _, h4⟩ := first_comment_some k (f :: fs) text fs2 hfc
    rw [hfc] at hc
    refine ⟨.blank 0 :: fs2, ?_, ?_, ?_⟩
    · intro x hx
      rcases List.mem_cons.1 hx with rfl | hx
      · rfl
      · exact hwf x (h2 x hx)
    · simp only [ros_msg_skipper.skip, alt, hc]
      rw [render_fillers_blank]; rfl
    · have e : (render_fillers (.blank 0 :: fs2)).length = (render_fillers fs2).length + 1 := by
        simp [render_fillers, filler_line.render]
      rw [e]; omega
  | none =>
    rw [hfc] at hc
    have hwf' : ∀ x ∈ fs, x.wf = true := fun x hx => hwf x (List.mem_cons_of_mem _ hx)
    cases f with
    | comment i t => simp [first_comment] at hfc
    | separator =>
      refine ⟨.blank 0 :: fs, ?_, ?_, ?_⟩
      · intro x hx
        rcases List.mem_cons.1 hx with rfl | hx
        · rfl
        · exact hwf' x hx
      · simp only [ros_msg_skipper.skip, alt, hc]
        rw [render_fillers_separator, separator_ok, render_fillers_blank]; rfl
      · simp [render_fillers, filler_line.render]
    | blank n =>
      refine ⟨fs, hwf', ?_, ?_⟩
      · simp only [ros_msg_skipper.skip, alt, hc]
        rw [render_fillers_blank]
        cases n with
        | zero =>
          simp only [List.replicate_zero, List.nil_append]
          rw [separator_fail 10 _ (by decide)]
          simp only [eol_lf id (10 :: (render_fillers fs ++ k)) _ rfl]
        | succ n =>
          rw [separator_fail_at _ 32 (List.replicate n 32 ++ 10 :: (render_fillers fs ++ k))
            (by simp [List.replicate_succ]) (by decide)]
          simp only []
          rw [eol_fail_at _ 32 (List.replicate n 32 ++ 10 :: (render_fillers fs ++ k))
            (by simp [List.replicate_succ]) (by decide) (by decide)]
          simp only [blank_lines_ok]
      · simp [render_fillers, filler_line.render]; omega

/-- The skipper runs over filler lines up to the next solid character. -/
theorem msg_skip_fillers (k : Input) (hk : starts_solid k = true) :
    ∀ (n : Nat) (fs : List filler_line), (∀ x ∈ fs, x.wf = true) →
      (render_fillers fs).length ≤ n → msg_skip (render_fillers fs ++ k) = k := by
  intro n
  induction n with
  | zero =>
    intro fs _ hlen
    have : render_fillers fs = [] := List.eq_nil_of_length_eq_zero (by omega)
    rw [this, List.nil_append]
    exact msg_skip_solid k hk
  | succ n ih =>
    intro fs hwf hlen
    cases fs with
    | nil => exact msg_skip_solid k hk
    | cons f fs =>
      obtain ⟨fs', hwf', hstep, hlt⟩ := skip_step_fillers k hk f fs hwf
      unfold msg_skip
      rw [skip_over_ok _ _ _ hstep (by simp only [List.length_append]; omega)]
      exact ih fs' hwf' (by omega)

theorem msg_skip_fillers_eq (k : Input) (hk : starts_solid k = true) (fs : List filler_line)
    (hwf : ∀ x ∈ fs, x.wf = true) : msg_skip (render_fillers fs ++ k) = k :=
  msg_skip_fillers k hk _ fs hwf (le_refl _)

/-! ### Facts about characters -/

theorem is_ident_char_facts (c : Nat) (h : is_ident_char c = true) :
    ischar c = true ∧ isspace c = false ∧ c ≠ 91 ∧ c ≠ 61 ∧ c ≠ 35 ∧ c ≠ 32 ∧ c ≠ 10 ∧
      c ≠ 13 ∧ is_solid c = true := by
  simp only [is_ident_char, Bool.and_eq_true, decide_eq_true_eq, bne_iff_ne, ne_eq] at h
  obtain ⟨⟨⟨⟨h1, h2⟩, h3⟩, h4⟩, h5⟩ := h
  have hsp : isspace c = false := by
    simp only [isspace, Bool.or_eq_false_iff, beq_eq_false_iff_ne, ne_eq, Bool.and_eq_false_iff,
      decide_eq_false_iff_not]
    omega
  refine ⟨by simp [ischar]; omega, hsp, h3, h4, h5, by omega, by omega, by omega, ?_⟩
  rw [is_solid_iff]; exact ⟨hsp, h5, h4⟩

theorem is_ident_cons (w : List Nat) (h : is_ident w = true) :
    ∃ c t, w = c :: t ∧ is_ident_char c = true ∧ ∀ x ∈ c :: t, is_ident_char x = true := by
  cases w with
  | nil => simp [is_ident] at h
  | cons c t =>
    simp only [is_ident, List.isEmpty_cons, Bool.not_false, Bool.true_and, List.all_eq_true] at h
    exact ⟨c, t, rfl, h c (by simp), h⟩

theorem is_literal_char_facts (c : Nat) (h : is_literal_char c = true) :
    ischar c = true ∧ isspace c = false ∧ c ≠ 35 := by
  simpa [is_literal_char, and_assoc] using h

theorem is_literal_cons (b : Nat) (w : List Nat) (h : is_literal b w = true) :
    ∃ c t, w = c :: t ∧ ∀ x ∈ c :: t, is_literal_char x = true := by
  cases w with
  | nil => simp [is_literal] at h
  | cons c t =>
    simp only [is_literal, Bool.and_eq_true, List.all_eq_true] at h
    exact ⟨c, t, rfl, h.1.1⟩

/-- The `=` at the start of a literal, and what follows them. -/
theorem literal_run (w : List Nat) :
    ∃ w', w = List.replicate (w.takeWhile (fun c => c == 61)).length 61 ++ w' ∧
      (w' = [] ∨ ∃ c r, w' = c :: r ∧ c ≠ 61) := by
  induction w with
  | nil => exact ⟨[], rfl, Or.inl rfl⟩
  | cons x t ih =>
    by_cases hx : x = 61
    · subst hx
      obtain ⟨w', h1, h2⟩ := ih
      refine ⟨w', ?_, h2⟩
      simp only [List.takeWhile_cons, beq_self_eq_true, if_true, List.length_cons,
        List.replicate_succ, List.cons_append, List.cons.injEq, true_and]
      exact h1
    · refine ⟨x :: t, ?_, Or.inr ⟨x, t, rfl, hx⟩⟩
      have hb : (x == 61) = false := by simpa using hx
      simp only [List.takeWhile_cons, hb, List.length_nil, List.replicate_zero, List.nil_append]
      rfl

/-! ### A string that is not a prefix -/

theorem isPrefixOf_append_cons (p : List Nat) : ∀ (T : List Nat) (c : Nat) (r : List Nat),
    c ∉ p → p.isPrefixOf (T ++ c :: r) = true → p.isPrefixOf T = true := by
  induction p with
  | nil => intro T c r _ _; simp
  | cons a p ih =>
    intro T c r hc h
    cases T with
    | nil =>
      simp only [List.nil_append, List.isPrefixOf, Bool.and_eq_true, beq_iff_eq] at h
      exact absurd (by simp [h.1]) hc
    | cons t T =>
      simp only [List.cons_append, List.isPrefixOf, Bool.and_eq_true, beq_iff_eq] at h ⊢
      exact ⟨h.1, ih T c r (fun hm => hc (List.mem_cons_of_mem _ hm)) h.2⟩

/-- The keyword `MSG: ` is no prefix of a line that starts with an identifier other than `MSG:`
followed by a space or a bracket. -/
theorem msg_not_isPrefixOf (T : List Nat) (c : Nat) (r : List Nat)
    (hT : ∀ x ∈ T, is_ident_char x = true) (hne : T ≠ bytes "MSG:") (hc : c = 32 ∨ c = 91) :
    (bytes "MSG: ").isPrefixOf (T ++ c :: r) = false := by
  have hb : bytes "MSG: " = [77, 83, 71, 58, 32] := by decide
  have hb' : bytes "MSG:" = [77, 83, 71, 58] := by decide
  rw [hb]
  rw [hb'] at hne
  have h32 : ∀ x ∈ T, x ≠ 32 := fun x hx => (is_ident_char_facts x (hT x hx)).2.2.2.2.2.1
  rcases T with _ | ⟨t0, _ | ⟨t1, _ | ⟨t2, _ | ⟨t3, _ | ⟨t4, T⟩⟩⟩⟩⟩
  · rcases hc with rfl | rfl <;> simp [List.isPrefixOf]
  · rcases hc with rfl | rfl <;> simp [List.isPrefixOf]
  · rcases hc with rfl | rfl <;> simp [List.isPrefixOf]
  · rcases hc with rfl | rfl <;> simp [List.isPrefixOf]
  · simp only [List.cons_append, List.nil_append, List.isPrefixOf, Bool.and_eq_false_iff,
      beq_eq_false_iff_ne, ne_eq, Bool.true_eq_false, or_false]
    by_contra hcon
    push_neg at hcon
    obtain ⟨h0, h1, h2, h3, h4⟩ := hcon
    apply hne
    rw [← h0, ← h1, ← h2, ← h3]
  · have := h32 t4 (by simp)
    simp only [List.cons_append, List.isPrefixOf, Bool.and_eq_false_iff, beq_eq_false_iff_ne,
      ne_eq, Bool.true_eq_false, or_false]
    by_contra hcon
    push_neg at hcon
    exact this hcon.2.2.2.2.symm

theorem msg_skip_cons_solid (c : Nat) (r : Input) (h : is_solid c = true) :
    msg_skip (c :: r) = c :: r := msg_skip_solid (c :: r) h

theorem quiet_solid (k : Input) (h : starts_solid k = true) : quiet k := msg_skip_solid k h

theorem quiet_ident (c : Nat) (r : Input) (h : is_ident_char c = true) : quiet (c :: r) :=
  msg_skip_solid _ (is_ident_char_facts c h).2.2.2.2.2.2.2.2

/-! ### The rule `type` -/

theorem type_char (c : Nat) (r : Input) (h : is_ident_char c = true) (s : Input)
    (hs : msg_skip s = c :: r) : diff char_ type_stop msg_skip s = ⟨some c, r⟩ := by
  obtain ⟨h1, h2, h3, _⟩ := is_ident_char_facts c h
  have hq : msg_skip (c :: r) = c :: r := quiet_ident c r h
  have e1 : lit 91 msg_skip s = ⟨none, c :: r⟩ := lit_fail 91 msg_skip s c r hs h3
  have e2 : space msg_skip (c :: r) = ⟨none, c :: r⟩ := char_class_fail _ _ _ c r hq h2
  have e3 : char_ msg_skip (c :: r) = ⟨some c, r⟩ := char_class_ok _ _ _ c r hq h1
  simp only [diff, type_stop, alt, e1, omit_, e2, e3]

theorem type_stop_bracket (r : Input) : type_stop msg_skip (91 :: r) = ⟨some (), r⟩ := by
  have hq : msg_skip (91 :: r) = 91 :: r := msg_skip_cons_solid _ _ (by decide)
  simp only [type_stop, alt, lit_ok 91 msg_skip _ r hq]

theorem type_stop_space (r : Input) (hq : quiet (32 :: r)) :
    type_stop msg_skip (32 :: r) = ⟨some (), r⟩ := by
  have e1 : lit 91 msg_skip (32 :: r) = ⟨none, 32 :: r⟩ := lit_fail 91 _ _ 32 r hq (by decide)
  have e2 : space msg_skip (32 :: r) = ⟨some 32, r⟩ := char_class_ok _ _ _ 32 r hq (by decide)
  simp only [type_stop, alt, e1, omit_, e2]

/-- The rule `type` reads an identifier that is followed by what ends a type. -/
theorem type_span (T : List Nat) (k : Input) (s : Input) (r' : Input)
    (hT : is_ident T = true) (hpre : (bytes "std_msgs/").isPrefixOf (T ++ k) = false)
    (hs : msg_skip s = T ++ k) (hstop : type_stop msg_skip k = ⟨some (), r'⟩) :
    ros_msg_grammar.type msg_skip s = ⟨some T, k⟩ := by
  obtain ⟨c, t, rfl, hc, hall⟩ := is_ident_cons T hT
  have e1 : lit_string (bytes "std_msgs/") msg_skip s = ⟨none, c :: t ++ k⟩ := by
    simp only [lit_string, hs, hpre]; rfl
  have e2 : diff char_ type_stop msg_skip s = ⟨some c, t ++ k⟩ := type_char c (t ++ k) hc s hs
  have hk : diff char_ type_stop msg_skip k = ⟨none, k⟩ := by
    simp only [diff, hstop]
  have e3 := kleene_run_span (diff char_ type_stop) msg_skip t k k
    (fun x hx r => type_char x r (hall x (by simp [hx])) (x :: r)
      (quiet_ident x r (hall x (by simp [hx])))) hk
  simp only [ros_msg_grammar.type, alt, seq_r, pmap, seq, e1]
  show plus (diff char_ type_stop) msg_skip s = _
  simp only [plus, e2, e3]

/-! ### The rule `array_size` -/

theorem array_size_absent (r : Input) (hq : quiet (32 :: r)) :
    ros_msg_grammar.array_size msg_skip (32 :: r) = ⟨some 0, 32 :: r⟩ := by
  have e1 : lit 91 msg_skip (32 :: r) = ⟨none, 32 :: r⟩ := lit_fail 91 _ _ 32 r hq (by decide)
  simp only [ros_msg_grammar.array_size, alt, seq_r, seq_l, pmap, seq, e1, attr]

theorem uint_fail (c : Nat) (r : Input) (hq : quiet (c :: r)) (hc : isdigit c = false) :
    uint_ msg_skip (c :: r) = ⟨none, c :: r⟩ := by
  have hq' : msg_skip (c :: r) = c :: r := hq
  simp [uint_, hq', List.takeWhile_cons, hc]

theorem array_size_empty (r : Input) :
    ros_msg_grammar.array_size msg_skip (91 :: 93 :: r) = ⟨some (-1), r⟩ := by
  have hq1 : msg_skip (91 :: 93 :: r) = 91 :: 93 :: r := msg_skip_cons_solid _ _ (by decide)
  have hq2 : msg_skip (93 :: r) = 93 :: r := msg_skip_cons_solid _ _ (by decide)
  have e1 := lit_ok 91 msg_skip _ (93 :: r) hq1
  have e2 := uint_fail 93 r hq2 (by decide)
  have e3 := lit_ok 93 msg_skip _ r hq2
  simp only [ros_msg_grammar.array_size, alt, seq_r, seq_l, pmap, seq, e1, e2, attr, e3]

theorem isdigit_solid (c : Nat) (h : isdigit c = true) : is_solid c = true := by
  simp only [isdigit, Bool.and_eq_true, decide_eq_true_eq] at h
  rw [is_solid_iff]
  refine ⟨?_, by omega, by omega⟩
  simp only [isspace, Bool.or_eq_false_iff, beq_eq_false_iff_ne, ne_eq, Bool.and_eq_false_iff,
    decide_eq_false_iff_not]
  omega

theorem takeWhile_append_stop (g : Nat → Bool) (w : List Nat) (k : Input)
    (hw : ∀ x ∈ w, g x = true) (hk : k = [] ∨ ∃ c r, k = c :: r ∧ g c = false) :
    (w ++ k).takeWhile g = w ∧ (w ++ k).dropWhile g = k := by
  induction w with
  | nil =>
    rcases hk with rfl | ⟨c, r, rfl, hc⟩
    · simp
    · simp [List.takeWhile_cons, List.dropWhile_cons, hc]
  | cons a w ih =>
    have := ih (fun x hx => hw x (by simp [hx]))
    simp [List.takeWhile_cons, List.dropWhile_cons, hw a (by simp), this.1, this.2]

theorem uint_ok (ds : List Nat) (r : Input) (hds : is_decimal ds = true)
    (hv : decimal_value ds < 2 ^ 32) :
    uint_ msg_skip (ds ++ 93 :: r) = ⟨some (decimal_value ds), 93 :: r⟩ := by
  simp only [is_decimal, Bool.and_eq_true, List.all_eq_true, Bool.not_eq_true',
    List.isEmpty_eq_false] at hds
  obtain ⟨hne, hall⟩ := hds
  obtain ⟨d, ds', rfl⟩ : ∃ d ds', ds = d :: ds' := by
    cases ds with
    | nil => exact absurd rfl hne
    | cons d ds' => exact ⟨d, ds', rfl⟩
  have hq : msg_skip (d :: ds' ++ 93 :: r) = d :: ds' ++ 93 :: r :=
    msg_skip_solid _ (isdigit_solid d (hall d (by simp)))
  obtain ⟨t1, t2⟩ := takeWhile_append_stop isdigit (d :: ds') (93 :: r) hall
    (Or.inr ⟨93, r, rfl, by decide⟩)
  have hv' : List.foldl (fun n c => 10 * n + (c - 48)) 0 (d :: ds') < 2 ^ 32 := hv
  simp only [uint_, hq, t1, t2, List.isEmpty_cons, Bool.false_eq_true, if_false, if_pos hv',
    decimal_value]

theorem to_int32_small (n : Nat) (h : n < 2 ^ 31) : to_int32 n = (n : Int) := by
  have h1 : n % 2 ^ 32 = n := Nat.mod_eq_of_lt (by omega)
  simp only [to_int32, h1, h, if_true]

theorem array_size_fixed (ds : List Nat) (r : Input) (hds : is_decimal ds = true)
    (hv : decimal_value ds < 2 ^ 31) :
    ros_msg_grammar.array_size msg_skip (91 :: (ds ++ 93 :: r)) =
      ⟨some (decimal_value ds : Nat), r⟩ := by
  have hq1 : msg_skip (91 :: (ds ++ 93 :: r)) = 91 :: (ds ++ 93 :: r) :=
    msg_skip_cons_solid _ _ (by decide)
  have hq2 : msg_skip (93 :: r) = 93 :: r := msg_skip_cons_solid _ _ (by decide)
  have e1 := lit_ok 91 msg_skip _ (ds ++ 93 :: r) hq1
  have e2 := uint_ok ds r hds (by omega)
  have e3 := lit_ok 93 msg_skip _ r hq2
  simp only [ros_msg_grammar.array_size, alt, seq_r, seq_l, pmap, seq, e1, e2, e3,
    to_int32_small _ hv]

theorem kleene_loop_congr {α : Type} (p q : Parser α) (sk : Skip)
    (h : ∀ s, p sk s = q sk s) : ∀ (fuel : Nat) (s : Input),
      kleene_loop p sk fuel s = kleene_loop q sk fuel s := by
  intro fuel
  induction fuel with
  | zero => intro s; rfl
  | succ fuel ih =>
    intro s
    simp only [kleene_loop, h s]
    rcases q sk s with ⟨_ | a, r⟩
    · rfl
    · simp only [ih r]

theorem plus_congr {α : Type} (p q : Parser α) (sk : Skip) (h : ∀ s, p sk s = q sk s)
    (s : Input) : plus p sk s = plus q sk s := by
  simp only [plus, kleene_run, h s, kleene_loop_congr p q sk h]

theorem plus_char_class (g : Nat → Bool) (w : List Nat) (k : Input) (hne : w ≠ [])
    (hw : ∀ x ∈ w, g x = true) (hk : k = [] ∨ ∃ c r, k = c :: r ∧ g c = false) :
    plus (char_class g) id (w ++ k) = ⟨some w, k⟩ := by
  obtain ⟨c, t, rfl⟩ : ∃ c t, w = c :: t := by
    cases w with
    | nil => exact absurd rfl hne
    | cons c t => exact ⟨c, t, rfl⟩
  have e1 : char_class g id (c :: t ++ k) = ⟨some c, t ++ k⟩ :=
    char_class_ok g id _ c (t ++ k) rfl (hw c (by simp))
  obtain ⟨t1, t2⟩ := takeWhile_append_stop g t k (fun x hx => hw x (by simp [hx])) hk
  simp only [plus, e1, kleene_run_char_class, t1, t2]

/-- A `lexeme[+(char_ - stop)]` whose `char_ - stop` accepts the characters that pass `g` reads
the longest run of such characters. -/
theorem lexeme_span (P : Parser Nat) (g : Nat → Bool) (hP : ∀ s, P id s = char_class g id s)
    (w : List Nat) (k : Input) (s : Input) (hs : msg_skip s = w ++ k) (hne : w ≠ [])
    (hw : ∀ x ∈ w, g x = true) (hk : k = [] ∨ ∃ c r, k = c :: r ∧ g c = false) :
    lexeme (plus P) msg_skip s = ⟨some w, k⟩ := by
  simp only [lexeme, hs]
  rw [plus_congr P (char_class g) id hP, plus_char_class g w k hne hw hk]

theorem isspace_of_eol (c : Nat) (h : c = 10 ∨ c = 13) : isspace c = true := by
  rcases h with rfl | rfl <;> decide

theorem diff_name_char (s : Input) :
    diff char_ (alt (omit_ space) (alt eol (lit 35))) id s = char_class name_char id s := by
  cases s with
  | nil =>
    simp only [diff, alt, omit_, char_class_nil isspace id [] rfl, space, eol_nil id [] rfl,
      lit_nil 35 id [] rfl, char_, char_class_nil ischar id [] rfl,
      char_class_nil name_char id [] rfl]
  | cons c r =>
    cases hsp : isspace c with
    | true =>
      have e1 := char_class_ok isspace id (c :: r) c r rfl hsp
      have e2 := char_class_fail name_char id (c :: r) c r rfl (by simp [name_char, hsp])
      simp only [diff, alt, omit_, space, e1, e2]
    | false =>
      obtain ⟨h32, h10, h13⟩ := isspace_false c hsp
      have e1 := char_class_fail isspace id (c :: r) c r rfl hsp
      have e2 := eol_fail id (c :: r) c r rfl h10 h13
      by_cases h35 : c = 35
      · subst h35
        have e3 := lit_ok 35 id (35 :: r) r rfl
        have e4 := char_class_fail name_char id (35 :: r) 35 r rfl (by decide)
        simp only [diff, alt, omit_, space, e1, e2, e3, e4]
      · have e3 := lit_fail 35 id (c :: r) c r rfl h35
        simp only [diff, alt, omit_, space, e1, e2, e3]
        cases hc : ischar c with
        | true =>
          rw [char_class_ok name_char id _ c r rfl (by simp [name_char, hc, hsp, h35])]
          exact char_class_ok ischar id _ c r rfl hc
        | false =>
          rw [char_class_fail name_char id _ c r rfl (by simp [name_char, hc])]
          exact char_class_fail ischar id _ c r rfl hc

theorem diff_constant_name_char (s : Input) :
    diff char_ (alt (omit_ space) (lit 61)) id s = char_class constant_name_char id s := by
  cases s with
  | nil =>
    simp only [diff, alt, omit_, char_class_nil isspace id [] rfl, space,
      lit_nil 61 id [] rfl, char_, char_class_nil ischar id [] rfl,
      char_class_nil constant_name_char id [] rfl]
  | cons c r =>
    cases hsp : isspace c with
    | true =>
      have e1 := char_class_ok isspace id (c :: r) c r rfl hsp
      have e2 := char_class_fail constant_name_char id (c :: r) c r rfl
        (by simp [constant_name_char, hsp])
      simp only [diff, alt, omit_, space, e1, e2]
    | false =>
      have e1 := char_class_fail isspace id (c :: r) c r rfl hsp
      by_cases h61 : c = 61
      · subst h61
        have e3 := lit_ok 61 id (61 :: r) r rfl
        have e4 := char_class_fail constant_name_char id (61 :: r) 61 r rfl (by decide)
        simp only [diff, alt, omit_, space, e1, e3, e4]
      · have e3 := lit_fail 61 id (c :: r) c r rfl h61
        simp only [diff, alt, omit_, space, e1, e3]
        cases hc : ischar c with
        | true =>
          rw [char_class_ok constant_name_char id _ c r rfl
            (by simp [constant_name_char, hc, hsp, h61])]
          exact char_class_ok ischar id _ c r rfl hc
        | false =>
          rw [char_class_fail constant_name_char id _ c r rfl (by simp [constant_name_char, hc])]
          exact char_class_fail ischar id _ c r rfl hc

theorem diff_noneol_char (s : Input) : diff char_ eol id s = char_class noneol id s := by
  cases s with
  | nil => rw [diff_char_eol_nil, char_class_nil noneol id [] rfl]
  | cons c r =>
    rw [diff_char_eol]
    cases h : noneol c with
    | true => rw [char_class_ok noneol id _ c r rfl h]; rfl
    | false => rw [char_class_fail noneol id _ c r rfl h]; rfl

theorem line_cont_stop (g : Nat → Bool) (h32 : g 32 = false) (h10 : g 10 = false) (k k' : Input)
    (hk : line_cont k k') : k = [] ∨ ∃ c r, k = c :: r ∧ g c = false := by
  rcases hk.1 with rfl | ⟨c, r, rfl, rfl | rfl⟩
  · exact Or.inl rfl
  · exact Or.inr ⟨32, r, rfl, h32⟩
  · exact Or.inr ⟨10, r, rfl, h10⟩

theorem ident_append_quiet (N : List Nat) (k : Input) (hN : is_ident N = true) :
    msg_skip (N ++ k) = N ++ k := by
  obtain ⟨c, t, rfl, hc, _⟩ := is_ident_cons N hN
  exact quiet_ident c (t ++ k) hc

theorem space_ident_quiet (N : List Nat) (k : Input) (hN : is_ident N = true) :
    msg_skip (32 :: (N ++ k)) = 32 :: (N ++ k) := by
  obtain ⟨c, t, rfl, hc, _⟩ := is_ident_cons N hN
  obtain ⟨_, h2, _, _, h5, _⟩ := is_ident_char_facts c hc
  exact msg_skip_spaces 1 c (t ++ k) h2 h5 (by omega)

theorem field_name_span (N : List Nat) (k : Input) (s : Input) (hN : is_ident N = true)
    (hs : msg_skip s = N ++ k) (hk : k = [] ∨ ∃ c r, k = c :: r ∧ name_char c = false) :
    ros_msg_grammar.field_name msg_skip s = ⟨some N, k⟩ := by
  obtain ⟨c, t, rfl, hc, hall⟩ := is_ident_cons N hN
  refine lexeme_span _ name_char diff_name_char (c :: t) k s hs (by simp) ?_ hk
  intro x hx
  obtain ⟨h1, h2, _, _, h5, _⟩ := is_ident_char_facts x (hall x hx)
  simp [name_char, h1, h2, h5]

theorem constant_name_span (N : List Nat) (k : Input) (s : Input) (hN : is_ident N = true)
    (hs : msg_skip s = N ++ k)
    (hk : k = [] ∨ ∃ c r, k = c :: r ∧ constant_name_char c = false) :
    ros_msg_grammar.constant_name msg_skip s = ⟨some N, k⟩ := by
  obtain ⟨c, t, rfl, hc, hall⟩ := is_ident_cons N hN
  refine lexeme_span _ constant_name_char diff_constant_name_char (c :: t) k s hs (by simp) ?_ hk
  intro x hx
  obtain ⟨h1, h2, _, h4, _⟩ := is_ident_char_facts x (hall x hx)
  simp [constant_name_char, h1, h2, h4]

theorem constant_value_span (b : Nat) (V : List Nat) (k : Input) (s : Input)
    (hV : is_literal b V = true)
    (hs : msg_skip s = V ++ k) (hk : k = [] ∨ ∃ c r, k = c :: r ∧ name_char c = false) :
    ros_msg_grammar.constant_value msg_skip s = ⟨some V, k⟩ := by
  obtain ⟨c, t, rfl, hall⟩ := is_literal_cons b V hV
  refine lexeme_span _ name_char diff_name_char (c :: t) k s hs (by simp) ?_ hk
  intro x hx
  have := is_literal_char_facts x (hall x hx)
  simp [name_char, this.1, this.2.1, this.2.2]

/-- The spaces before something the skipper leaves alone. -/
theorem kleene_spaces (n : Nat) (x : Input)
    (hq : ∀ m, m ≤ n → msg_skip (List.replicate m 32 ++ x) = List.replicate m 32 ++ x)
    (hx : x = [] ∨ ∃ c r, x = c :: r ∧ c ≠ 32) :
    ∃ l, kleene (lit 32) msg_skip (List.replicate n 32 ++ x) = ⟨some l, x⟩ := by
  induction n with
  | zero =>
    have h0 := hq 0 (le_refl _)
    simp only [List.replicate_zero, List.nil_append] at h0 ⊢
    have hf : lit 32 msg_skip x = ⟨none, x⟩ := by
      rcases hx with rfl | ⟨c, r, rfl, hc⟩
      · exact lit_nil 32 _ _ h0
      · exact lit_fail 32 _ _ c r h0 hc
    exact ⟨[], by simp only [kleene, kleene_run_fail _ _ _ _ hf]⟩
  | succ n ih =>
    obtain ⟨l, hl⟩ := ih (fun m hm => hq m (by omega))
    have h1 := hq (n + 1) (le_refl _)
    have e : List.replicate (n + 1) 32 ++ x = 32 :: (List.replicate n 32 ++ x) := by
      simp [List.replicate_succ]
    rw [e] at h1 ⊢
    have hok := lit_ok 32 msg_skip _ (List.replicate n 32 ++ x) h1
    simp only [kleene] at hl ⊢
    rw [kleene_run_ok _ _ _ _ () hok (by simp)]
    simp only [Res.mk.injEq, Option.some.injEq] at hl
    exact ⟨() :: l, by simp only [hl.1, hl.2]⟩

/-- The spaces, none in fact, before filler lines: the skipper runs over the filler lines. -/
theorem kleene_spaces_skipped (k k' : Input) (hk : msg_skip k = k')
    (hs : starts_solid k' = true) : kleene (lit 32) msg_skip k = ⟨some [], k'⟩ := by
  have hf : lit 32 msg_skip k = ⟨none, k'⟩ := by
    cases k' with
    | nil => exact lit_nil 32 _ _ hk
    | cons c r =>
      simp only [starts_solid, is_solid_iff] at hs
      exact lit_fail 32 _ _ c r hk (isspace_false c hs.1).1
  simp only [kleene, kleene_run_fail _ _ _ _ hf]

theorem plus_space (x : Input) (hq1 : msg_skip (32 :: x) = 32 :: x) (hq0 : msg_skip x = x)
    (hx : x = [] ∨ ∃ c r, x = c :: r ∧ c ≠ 32) :
    plus (lit 32) msg_skip (32 :: x) = ⟨some [()], x⟩ := by
  have hok := lit_ok 32 msg_skip _ x hq1
  have hf : lit 32 msg_skip x = ⟨none, x⟩ := by
    rcases hx with rfl | ⟨c, r, rfl, hc⟩
    · exact lit_nil 32 _ _ hq0
    · exact lit_fail 32 _ _ c r hq0 hc
  simp only [plus, hok, kleene_run_fail _ _ _ _ hf]

theorem plus_space_fail (c : Nat) (r : Input) (hq : msg_skip (c :: r) = c :: r) (hc : c ≠ 32) :
    plus (lit 32) msg_skip (c :: r) = ⟨none, c :: r⟩ := by
  simp only [plus, lit_fail 32 _ _ c r hq hc]

theorem ident_head_ne_space (N : List Nat) (k : Input) (hN : is_ident N = true) :
    N ++ k = [] ∨ ∃ c r, N ++ k = c :: r ∧ c ≠ 32 := by
  obtain ⟨c, t, rfl, hc, _⟩ := is_ident_cons N hN
  exact Or.inr ⟨c, t ++ k, rfl, (is_ident_char_facts c hc).2.2.2.2.2.1⟩

theorem std_not_isPrefixOf (T : List Nat) (c : Nat) (r : List Nat)
    (hT : (bytes "std_msgs/").isPrefixOf T = false) (hc : c = 32 ∨ c = 91 ∨ c = 10) :
    (bytes "std_msgs/").isPrefixOf (T ++ c :: r) = false := by
  cases h : (bytes "std_msgs/").isPrefixOf (T ++ c :: r) with
  | false => rfl
  | true =>
    have hmem : c ∉ bytes "std_msgs/" := by
      rcases hc with rfl | rfl | rfl <;> decide
    rw [isPrefixOf_append_cons _ T c r hmem h] at hT
    cases hT

theorem is_type_ident_facts (T : List Nat) (h : is_type_ident T = true) :
    is_ident T = true ∧ (bytes "std_msgs/").isPrefixOf T = false ∧ T ≠ bytes "MSG:" := by
  simpa [is_type_ident, and_assoc] using h

theorem lit_fail_solid (x : Nat) (k' : Input) (hs : starts_solid k' = true)
    (hx : x = 61 ∨ x = 32) : lit x msg_skip k' = ⟨none, k'⟩ := by
  have hq := msg_skip_solid k' hs
  cases k' with
  | nil => exact lit_nil x _ _ hq
  | cons c r =>
    simp only [starts_solid, is_solid_iff] at hs
    refine lit_fail x _ _ c r hq ?_
    rcases hx with rfl | rfl
    · exact hs.2.2
    · exact (isspace_false c hs.1).1

/-- The rule `type` on a line that goes on with a space and an identifier. -/
theorem type_before_space (T N : List Nat) (x : Input) (hT : is_type_ident T = true)
    (hN : is_ident N = true) :
    ros_msg_grammar.type msg_skip (T ++ 32 :: (N ++ x)) = ⟨some T, 32 :: (N ++ x)⟩ := by
  obtain ⟨h1, h2, _⟩ := is_type_ident_facts T hT
  exact type_span T _ _ _ h1 (std_not_isPrefixOf T 32 _ h2 (Or.inl rfl))
    (ident_append_quiet T _ h1) (type_stop_space _ (space_ident_quiet N x hN))

/-- The rule `type` on a line that goes on with a bracket. -/
theorem type_before_bracket (T : List Nat) (x : Input) (hT : is_type_ident T = true) :
    ros_msg_grammar.type msg_skip (T ++ 91 :: x) = ⟨some T, 91 :: x⟩ := by
  obtain ⟨h1, h2, _⟩ := is_type_ident_facts T hT
  exact type_span T _ _ _ h1 (std_not_isPrefixOf T 91 _ h2 (Or.inr (Or.inl rfl)))
    (ident_append_quiet T _ h1) (type_stop_bracket x)

theorem space_name (N : List Nat) (k : Input) (hN : is_ident N = true) :
    plus (lit 32) msg_skip (32 :: (N ++ k)) = ⟨some [()], N ++ k⟩ :=
  plus_space (N ++ k) (space_ident_quiet N k hN) (ident_append_quiet N k hN)
    (ident_head_ne_space N k hN)

/-- The rule `constant` fails on a line that ends after the name. -/
theorem constant_fail_after_name (T N : List Nat) (k k' : Input)
    (hT : is_type_ident T = true) (hN : is_ident N = true) (hk : line_cont k k') :
    ros_msg_grammar.constant msg_skip (T ++ 32 :: (N ++ k)) = ⟨none, T ++ 32 :: (N ++ k)⟩ := by
  have e1 := type_before_space T N k hT hN
  have e2 := space_name N k hN
  have e3 := constant_name_span N k (N ++ k) hN (ident_append_quiet N k hN)
    (line_cont_stop constant_name_char (by decide) (by decide) k k' hk)
  have e4 := kleene_spaces_skipped k k' hk.2.1 hk.2.2
  have e5 := lit_fail_solid 61 k' hk.2.2 (Or.inl rfl)
  simp only [ros_msg_grammar.constant, pmap, seq, seq_r, e1, e2, e3, e4, e5]

/-- The rule `constant` fails on a line with a bracket after the type. -/
theorem constant_fail_bracket (T : List Nat) (x : Input) (hT : is_type_ident T = true) :
    ros_msg_grammar.constant msg_skip (T ++ 91 :: x) = ⟨none, T ++ 91 :: x⟩ := by
  have e1 := type_before_bracket T x hT
  have e2 := plus_space_fail 91 x (msg_skip_cons_solid _ _ (by decide)) (by decide)
  simp only [ros_msg_grammar.constant, pmap, seq, seq_r, e1, e2]

theorem member_scalar (T N : List Nat) (k k' : Input) (hT : is_type_ident T = true)
    (hN : is_ident N = true) (hk : line_cont k k') :
    ros_msg_grammar.member msg_skip (T ++ 32 :: (N ++ k)) =
      ⟨some (.field { type_name := T, array_size := 0, field_name := N }), k⟩ := by
  have e0 := constant_fail_after_name T N k k' hT hN hk
  have e1 := type_before_space T N k hT hN
  have e2 := array_size_absent (N ++ k) (space_ident_quiet N k hN)
  have e3 := space_name N k hN
  have e4 := field_name_span N k (N ++ k) hN (ident_append_quiet N k hN)
    (line_cont_stop name_char (by decide) (by decide) k k' hk)
  simp only [ros_msg_grammar.member, ros_msg_grammar.field, alt, pmap, seq, seq_r, e0, e1, e2,
    e3, e4]

theorem member_var_array (T N : List Nat) (k k' : Input) (hT : is_type_ident T = true)
    (hN : is_ident N = true) (hk : line_cont k k') :
    ros_msg_grammar.member msg_skip (T ++ 91 :: 93 :: 32 :: (N ++ k)) =
      ⟨some (.field { type_name := T, array_size := -1, field_name := N }), k⟩ := by
  have e0 := constant_fail_bracket T (93 :: 32 :: (N ++ k)) hT
  have e1 := type_before_bracket T (93 :: 32 :: (N ++ k)) hT
  have e2 := array_size_empty (32 :: (N ++ k))
  have e3 := space_name N k hN
  have e4 := field_name_span N k (N ++ k) hN (ident_append_quiet N k hN)
    (line_cont_stop name_char (by decide) (by decide) k k' hk)
  simp only [ros_msg_grammar.member, ros_msg_grammar.field, alt, pmap, seq, seq_r, e0, e1, e2,
    e3, e4]

theorem member_fixed_array (T ds N : List Nat) (k k' : Input) (hT : is_type_ident T = true)
    (hN : is_ident N = true) (hds : is_decimal ds = true) (hv : decimal_value ds < 2 ^ 31)
    (hk : line_cont k k') :
    ros_msg_grammar.member msg_skip (T ++ 91 :: (ds ++ 93 :: 32 :: (N ++ k))) =
      ⟨some (.field ⟨T, (decimal_value ds : Nat), N⟩), k⟩ := by
  have e0 := constant_fail_bracket T (ds ++ 93 :: 32 :: (N ++ k)) hT
  have e1 := type_before_bracket T (ds ++ 93 :: 32 :: (N ++ k)) hT
  have e2 := array_size_fixed ds (32 :: (N ++ k)) hds hv
  have e3 := space_name N k hN
  have e4 := field_name_span N k (N ++ k) hN (ident_append_quiet N k hN)
    (line_cont_stop name_char (by decide) (by decide) k k' hk)
  simp only [ros_msg_grammar.member, ros_msg_grammar.field, alt, pmap, seq, seq_r, e0, e1, e2,
    e3, e4]

/-- The skipper leaves a single `=` alone. -/
theorem msg_skip_eq (c : Nat) (r : Input) (hc : c ≠ 61) :
    msg_skip (61 :: c :: r) = 61 :: c :: r := by
  have h1 : ros_msg_skipper.comment id (61 :: c :: r) = ⟨none, 61 :: c :: r⟩ := by
    rw [comment_eval]
    simp [List.dropWhile_cons, isspace]
  have h2 : ros_msg_skipper.separator id (61 :: c :: r) = ⟨none, 61 :: c :: r⟩ := by
    have he := eol_fail id (61 :: c :: r) 61 (c :: r) rfl (by decide) (by decide)
    have hl := lit_ok 61 id (61 :: c :: r) (c :: r) rfl
    have hf := lit_fail 61 id (c :: r) c r rfl hc
    simp only [ros_msg_skipper.separator, diff, he, omit_, repeat_, hl, hf]
  have h3 := eol_fail id (61 :: c :: r) 61 (c :: r) rfl (by decide) (by decide)
  have h4 := blank_lines_fail 0 61 (c :: r) (by decide) (by decide) (by decide)
  simp only [List.replicate_zero, List.nil_append] at h4
  refine skip_over_fail _ 61 (c :: r) _ ?_
  simp only [ros_msg_skipper.skip, alt, h1, h2, h3, h4]

/-- Fewer `=` than asked for, and then another character or the end: `repeat` fails. -/
theorem repeat_lit_short (rest : Input) (hrest : rest = [] ∨ ∃ c r, rest = c :: r ∧ c ≠ 61) :
    ∀ (n j : Nat), j < n →
      repeat_ (lit 61) n id (List.replicate j 61 ++ rest) =
        ⟨none, List.replicate j 61 ++ rest⟩ := by
  intro n
  induction n with
  | zero => intro j hj; omega
  | succ n ih =>
    intro j hj
    cases j with
    | zero =>
      simp only [List.replicate_zero, List.nil_append, repeat_]
      rcases hrest with rfl | ⟨c, r, rfl, hc⟩
      · rw [lit_nil 61 id [] rfl]
      · rw [lit_fail 61 id (c :: r) c r rfl hc]
    | succ j =>
      have hok := lit_ok 61 id (61 :: (List.replicate j 61 ++ rest)) _ rfl
      have hjn : j < n := by omega
      simp only [List.replicate_succ, List.cons_append, repeat_, hok, ih j hjn]

/-- The skipper leaves alone a run of fewer than 80 `=`. -/
theorem msg_skip_eq_run (j : Nat) (rest : Input) (hj : j + 1 < 80)
    (hrest : rest = [] ∨ ∃ c r, rest = c :: r ∧ c ≠ 61) :
    msg_skip (61 :: (List.replicate j 61 ++ rest)) = 61 :: (List.replicate j 61 ++ rest) := by
  have h1 : ros_msg_skipper.comment id (61 :: (List.replicate j 61 ++ rest)) =
      ⟨none, 61 :: (List.replicate j 61 ++ rest)⟩ := by
    rw [comment_eval]
    simp [List.dropWhile_cons, isspace]
  have h2 : ros_msg_skipper.separator id (61 :: (List.replicate j 61 ++ rest)) =
      ⟨none, 61 :: (List.replicate j 61 ++ rest)⟩ := by
    have he := eol_fail id (61 :: (List.replicate j 61 ++ rest)) 61 _ rfl (by decide)
      (by decide)
    have hr := repeat_lit_short rest hrest 80 (j + 1) hj
    simp only [List.replicate_succ, List.cons_append] at hr
    simp only [ros_msg_skipper.separator, diff, he, omit_, hr]
  have h3 := eol_fail id (61 :: (List.replicate j 61 ++ rest)) 61 _ rfl (by decide) (by decide)
  have h4 := blank_lines_fail 0 61 (List.replicate j 61 ++ rest) (by decide) (by decide)
    (by decide)
  simp only [List.replicate_zero, List.nil_append] at h4
  refine skip_over_fail _ 61 _ _ ?_
  simp only [ros_msg_skipper.skip, alt, h1, h2, h3, h4]

theorem literal_quiet (b : Nat) (V : List Nat) (k : Input) (hV : is_literal b V = true)
    (hk : k = [] ∨ ∃ c r, k = c :: r ∧ c ≠ 61) (m : Nat) :
    msg_skip (List.replicate m 32 ++ (V ++ k)) = List.replicate m 32 ++ (V ++ k) := by
  obtain ⟨c, t, hct, hall⟩ := is_literal_cons b V hV
  obtain ⟨_, h2, h3⟩ := is_literal_char_facts c (hall c (by simp))
  cases m with
  | succ m =>
    rw [hct]
    exact msg_skip_spaces (m + 1) c (t ++ k) h2 h3 (fun h => by omega)
  | zero =>
    simp only [List.replicate_zero, List.nil_append]
    obtain ⟨w', hw, hw'⟩ := literal_run V
    have hlen : (V.takeWhile (fun c => c == 61)).length < 80 := by
      simp only [is_literal, Bool.and_eq_true, decide_eq_true_eq] at hV
      have := hV.2
      split_ifs at this <;> omega
    have hrest : w' ++ k = [] ∨ ∃ c r, w' ++ k = c :: r ∧ c ≠ 61 := by
      rcases hw' with rfl | ⟨c', r', rfl, hc'⟩
      · simpa using hk
      · exact Or.inr ⟨c', r' ++ k, rfl, hc'⟩
    rcases hj : (V.takeWhile (fun c => c == 61)).length with _ | j
    · rw [hj] at hw
      simp only [List.replicate_zero, List.nil_append] at hw
      rw [hw]
      rcases hw' with rfl | ⟨c', r', rfl, hc'⟩
      · rw [hw] at hct; cases hct
      · rw [hw] at hct
        simp only [List.cons.injEq] at hct
        obtain ⟨rfl, rfl⟩ := hct
        exact msg_skip_spaces 0 c' (r' ++ k) h2 h3 (fun _ => hc')
    · rw [hj] at hw hlen
      rw [hw]
      simp only [List.replicate_succ, List.cons_append, List.append_assoc]
      exact msg_skip_eq_run j (w' ++ k) (by omega) hrest

/-- The skipper leaves alone the `=` sign of a constant and what follows it. -/
theorem sign_quiet (b : Nat) (V : List Nat) (k : Input) (hV : is_literal b V = true)
    (hk : k = [] ∨ ∃ c r, k = c :: r ∧ c ≠ 61) :
    msg_skip (61 :: (List.replicate b 32 ++ (V ++ k))) =
      61 :: (List.replicate b 32 ++ (V ++ k)) := by
  cases b with
  | succ b =>
    exact msg_skip_eq 32 (List.replicate b 32 ++ (V ++ k)) (by decide)
  | zero =>
    simp only [List.replicate_zero, List.nil_append]
    obtain ⟨w', hw, hw'⟩ := literal_run V
    have hlen : (V.takeWhile (fun c => c == 61)).length + 1 < 80 := by
      simp only [is_literal, Bool.and_eq_true, decide_eq_true_eq] at hV
      simpa using hV.2
    have hrest : w' ++ k = [] ∨ ∃ c r, w' ++ k = c :: r ∧ c ≠ 61 := by
      rcases hw' with rfl | ⟨c', r', rfl, hc'⟩
      · simpa using hk
      · exact Or.inr ⟨c', r' ++ k, rfl, hc'⟩
    have e : V ++ k = List.replicate (V.takeWhile (fun c => c == 61)).length 61 ++ (w' ++ k) := by
      conv_lhs => rw [hw]
      rw [List.append_assoc]
    rw [e]
    exact msg_skip_eq_run _ (w' ++ k) (by omega) hrest

theorem member_constant (T N : List Nat) (a b : Nat) (V : List Nat) (k k' : Input)
    (hT : is_type_ident T = true) (hN : is_ident N = true) (hV : is_literal b V = true)
    (hk : line_cont k k') :
    ros_msg_grammar.member msg_skip
        (T ++ 32 :: (N ++ (List.replicate a 32 ++ 61 :: (List.replicate b 32 ++ (V ++ k))))) =
      ⟨some (.constant ⟨T, N, V⟩), k⟩ := by
  have hk61 : k = [] ∨ ∃ c r, k = c :: r ∧ c ≠ 61 := by
    rcases line_cont_stop (fun c => c == 61) (by decide) (by decide) k k' hk with h | ⟨c, r, h, hc⟩
    · exact Or.inl h
    · exact Or.inr ⟨c, r, h, by simpa using hc⟩
  have hq61 := sign_quiet b V k hV hk61
  have e1 := type_before_space T N (List.replicate a 32 ++ 61 :: (List.replicate b 32 ++ (V ++ k)))
    hT hN
  have e2 := space_name N (List.replicate a 32 ++ 61 :: (List.replicate b 32 ++ (V ++ k))) hN
  have e3 := constant_name_span N
    (List.replicate a 32 ++ 61 :: (List.replicate b 32 ++ (V ++ k))) _ hN
    (ident_append_quiet N _ hN) (by
      cases a with
      | zero => exact Or.inr ⟨61, _, rfl, by decide⟩
      | succ a =>
        exact Or.inr ⟨32, List.replicate a 32 ++ 61 :: (List.replicate b 32 ++ (V ++ k)),
          by simp [List.replicate_succ], by decide⟩)
  obtain ⟨l4, e4⟩ := kleene_spaces a (61 :: (List.replicate b 32 ++ (V ++ k)))
    (fun m _ => by
      cases m with
      | zero => simpa using hq61
      | succ m => exact msg_skip_spaces (m + 1) 61 _ (by decide) (by decide) (by omega))
    (Or.inr ⟨61, _, rfl, by decide⟩)
  have e5 := lit_ok 61 msg_skip _ (List.replicate b 32 ++ (V ++ k)) hq61
  obtain ⟨l6, e6⟩ := kleene_spaces b (V ++ k) (fun m _ => literal_quiet b V k hV hk61 m) (by
    obtain ⟨c, t, rfl, hall⟩ := is_literal_cons b V hV
    exact Or.inr ⟨c, t ++ k, rfl, (isspace_false c (is_literal_char_facts c (hall c (by simp))).2.1).1⟩)
  have e7 := constant_value_span b V k (V ++ k) hV (by simpa using literal_quiet b V k hV hk61 0)
    (line_cont_stop name_char (by decide) (by decide) k k' hk)
  simp only [ros_msg_grammar.member, ros_msg_grammar.constant, alt, pmap, seq, seq_r, e1, e2, e3,
    e4, e5, e6, e7]

/-- The rule `member` reads a well-formed member line and stops at its end. -/
theorem member_step (l : member_line) (k k' : Input) (hl : l.wf = true) (hk : line_cont k k') :
    ros_msg_grammar.member msg_skip (l.render ++ k) = ⟨some l.member, k⟩ := by
  cases l with
  | scalar T N =>
    simp only [member_line.wf, Bool.and_eq_true] at hl
    simpa [member_line.render, member_line.member] using member_scalar T N k k' hl.1 hl.2 hk
  | var_array T N =>
    simp only [member_line.wf, Bool.and_eq_true] at hl
    simpa [member_line.render, member_line.member] using member_var_array T N k k' hl.1 hl.2 hk
  | fixed_array T ds N =>
    simp only [member_line.wf, Bool.and_eq_true, decide_eq_true_eq] at hl
    simpa [member_line.render, member_line.member] using
      member_fixed_array T ds N k k' hl.1.1.1 hl.1.1.2 hl.1.2 hl.2 hk
  | constant T N a b V =>
    simp only [member_line.wf, Bool.and_eq_true] at hl
    simpa [member_line.render, member_line.member] using
      member_constant T N a b V k k' hl.1.1 hl.1.2 hl.2 hk

theorem render_fillers_append (A B : List filler_line) :
    render_fillers (A ++ B) = render_fillers A ++ render_fillers B := by
  induction A with
  | nil => rfl
  | cons a A ih => simp [render_fillers, ih]

theorem member_nil : ros_msg_grammar.member msg_skip [] = ⟨none, []⟩ := by decide

theorem member_line_head (l : member_line) (hl : l.wf = true) (k : Input) :
    starts_solid (l.render ++ k) = true ∧ (bytes "MSG: ").isPrefixOf (l.render ++ k) = false ∧
      l.render ≠ [] := by
  have key : ∀ (T : List Nat) (c : Nat) (x : Input), is_type_ident T = true → (c = 32 ∨ c = 91) →
      starts_solid (T ++ c :: x) = true ∧ (bytes "MSG: ").isPrefixOf (T ++ c :: x) = false ∧
        T ++ c :: x ≠ [] := by
    intro T c x hT hc
    obtain ⟨h1, _, h3⟩ := is_type_ident_facts T hT
    obtain ⟨t0, t, rfl, ht0, hall⟩ := is_ident_cons T h1
    exact ⟨(is_ident_char_facts t0 ht0).2.2.2.2.2.2.2.2, msg_not_isPrefixOf _ c x hall h3 hc,
      by simp⟩
  cases l with
  | scalar T N =>
    simp only [member_line.wf, Bool.and_eq_true] at hl
    have := key T 32 (N ++ k) hl.1 (Or.inl rfl)
    simpa [member_line.render] using this
  | var_array T N =>
    simp only [member_line.wf, Bool.and_eq_true] at hl
    have := key T 91 (93 :: 32 :: (N ++ k)) hl.1 (Or.inr rfl)
    simpa [member_line.render] using this
  | fixed_array T ds N =>
    simp only [member_line.wf, Bool.and_eq_true] at hl
    have := key T 91 (ds ++ 93 :: 32 :: (N ++ k)) hl.1.1.1 (Or.inr rfl)
    simpa [member_line.render] using this
  | constant T N a b V =>
    simp only [member_line.wf, Bool.and_eq_true] at hl
    have := key T 32 (N ++ (List.replicate a 32 ++ 61 :: (List.replicate b 32 ++ (V ++ k))))
      hl.1.1 (Or.inl rfl)
    simpa [member_line.render] using this

theorem member_text_facts (m : member_text) (h : m.wf = true) :
    m.1.wf = true ∧ (∀ x ∈ m.2, x.wf = true) ∧
      ∃ f fs, m.2 = f :: fs ∧ f.ends_line = true := by
  simp only [member_text.wf, Bool.and_eq_true, List.all_eq_true] at h
  refine ⟨h.1.1, h.1.2, ?_⟩
  rcases hm : m.2 with _ | ⟨f, fs⟩
  · rw [hm] at h; simp at h
  · rw [hm] at h; exact ⟨f, fs, rfl, h.2⟩

theorem ends_line_head (f : filler_line) (fs : List filler_line) (Y : Input)
    (h : f.ends_line = true) :
    ∃ c r, render_fillers (f :: fs) ++ Y = c :: r ∧ (c = 32 ∨ c = 10) := by
  cases f with
  | blank n =>
    cases n with
    | zero => exact ⟨10, _, by rw [render_fillers_blank]; rfl, Or.inr rfl⟩
    | succ n =>
      exact ⟨32, List.replicate n 32 ++ 10 :: (render_fillers fs ++ Y),
        by rw [render_fillers_blank]; simp [List.replicate_succ], Or.inl rfl⟩
  | comment i t =>
    cases i with
    | zero => simp [filler_line.ends_line] at h
    | succ i =>
      exact ⟨32, List.replicate i 32 ++ 35 :: (t ++ 10 :: (render_fillers fs ++ Y)),
        by rw [render_fillers_comment]; simp [List.replicate_succ], Or.inl rfl⟩
  | separator => simp [filler_line.ends_line] at h

/-- Where the skipper gets from the filler lines `F` that are followed by more member lines, by
the filler lines `G'` and by `K`. -/
theorem skip_to_members (F G' : List filler_line) (ms : List member_text) (K : Input)
    (hF : ∀ x ∈ F, x.wf = true) (hG' : ∀ x ∈ G', x.wf = true)
    (hms : ∀ m ∈ ms, member_text.wf m = true) (hK : starts_solid K = true) :
    ∃ k', msg_skip (render_fillers F ++ (render_members ms ++ (render_fillers G' ++ K))) = k' ∧
      starts_solid k' = true ∧
      (ms = [] → k' = K) ∧
      (∀ m ms', ms = m :: ms' → k' = render_members ms ++ (render_fillers G' ++ K)) := by
  cases ms with
  | nil =>
    refine ⟨K, ?_, hK, fun _ => rfl, fun m ms' h => by cases h⟩
    simp only [render_members, List.nil_append]
    rw [← List.append_assoc, ← render_fillers_append]
    exact msg_skip_fillers_eq K hK (F ++ G') (fun x hx => by
      rcases List.mem_append.1 hx with h | h
      · exact hF x h
      · exact hG' x h)
  | cons m ms' =>
    have hm := (member_text_facts m (hms m (by simp))).1
    have hs : starts_solid (render_members (m :: ms') ++ (render_fillers G' ++ K)) = true := by
      simp only [render_members, List.append_assoc]
      exact (member_line_head m.1 hm _).1
    exact ⟨_, msg_skip_fillers_eq _ hs F hF, hs, fun h => (List.cons_ne_nil _ _ h).elim,
      fun _ _ _ => rfl⟩

theorem member_not_msg_step (G F : List filler_line) (l : member_line) (Y : Input) (k' : Input)
    (hG : ∀ x ∈ G, x.wf = true) (hl : l.wf = true)
    (hcont : line_cont (render_fillers F ++ Y) k') :
    member_not_msg msg_skip (render_fillers G ++ (l.render ++ (render_fillers F ++ Y))) =
      ⟨some l.member, render_fillers F ++ Y⟩ := by
  obtain ⟨h1, h2, _⟩ := member_line_head l hl (render_fillers F ++ Y)
  have hs := msg_skip_fillers_eq _ h1 G hG
  have e1 : lit_string (bytes "MSG: ") msg_skip
      (render_fillers G ++ (l.render ++ (render_fillers F ++ Y))) =
      ⟨none, l.render ++ (render_fillers F ++ Y)⟩ := by
    simp only [lit_string, hs, h2]; rfl
  have e2 := member_step l (render_fillers F ++ Y) k' hl hcont
  simp only [member_not_msg, diff, e1, e2]

/-- The loop over the member lines `ms`, begun before the filler lines `G`, reads every member
and ends where `E` says. -/
theorem members_loop (G' : List filler_line) (K : Input) (E : List filler_line → Input)
    (hG' : ∀ x ∈ G', x.wf = true) (hK : starts_solid K = true)
    (hend : ∀ G0 : List filler_line, (∀ x ∈ G0, x.wf = true) →
      kleene_run member_not_msg msg_skip (render_fillers G0 ++ (render_fillers G' ++ K)) =
        ([], E G0)) :
    ∀ (ms : List member_text) (G : List filler_line), (∀ x ∈ G, x.wf = true) →
      (∀ m ∈ ms, member_text.wf m = true) →
      kleene_run member_not_msg msg_skip
          (render_fillers G ++ (render_members ms ++ (render_fillers G' ++ K))) =
        (ms.map (fun m => m.1.member), E (tail_fillers G ms)) := by
  intro ms
  induction ms with
  | nil =>
    intro G hG _
    simpa [render_members, tail_fillers] using hend G hG
  | cons m ms ih =>
    intro G hG hms
    obtain ⟨hl, hF, f, fs, hf, hfe⟩ := member_text_facts m (hms m (by simp))
    have hms' : ∀ x ∈ ms, member_text.wf x = true := fun x hx => hms x (by simp [hx])
    obtain ⟨k', hk1, hk2, _, _⟩ := skip_to_members m.2 G' ms K hF hG' hms' hK
    have hcont : line_cont (render_fillers m.2 ++ (render_members ms ++ (render_fillers G' ++ K)))
        k' := by
      refine ⟨Or.inr ?_, hk1, hk2⟩
      rw [hf]
      exact ends_line_head f fs _ hfe
    have hstep := member_not_msg_step G m.2 m.1 _ k' hG hl hcont
    have hne := (member_line_head m.1 hl []).2.2
    have e : render_fillers G ++ (render_members (m :: ms) ++ (render_fillers G' ++ K)) =
        render_fillers G ++ (m.1.render ++ (render_fillers m.2 ++
          (render_members ms ++ (render_fillers G' ++ K)))) := by
      simp [render_members]
    rw [e, kleene_run_ok _ _ _ _ _ hstep (by
      simp only [List.length_append]
      have : 0 < m.1.render.length := List.length_pos.2 hne
      omega), ih m.2 hF hms']
    rfl

theorem msg_head_solid (x : Input) : starts_solid (bytes "MSG: " ++ x) = true := by
  have : bytes "MSG: " ++ x = 77 :: (bytes "SG: " ++ x) := by
    have h1 : bytes "MSG: " = [77, 83, 71, 58, 32] := by decide
    have h2 : bytes "SG: " = [83, 71, 58, 32] := by decide
    rw [h1, h2]; rfl
  rw [this]; rfl

theorem loop_end_nil (G' G0 : List filler_line) (hG' : ∀ x ∈ G', x.wf = true)
    (hG0 : ∀ x ∈ G0, x.wf = true) :
    kleene_run member_not_msg msg_skip (render_fillers G0 ++ (render_fillers G' ++ [])) =
      ([], []) := by
  have hs : msg_skip (render_fillers G0 ++ (render_fillers G' ++ [])) = [] := by
    rw [← List.append_assoc, ← render_fillers_append]
    exact msg_skip_fillers_eq [] rfl (G0 ++ G') (fun x hx => by
      rcases List.mem_append.1 hx with h | h
      · exact hG0 x h
      · exact hG' x h)
  have e1 : lit_string (bytes "MSG: ") msg_skip
      (render_fillers G0 ++ (render_fillers G' ++ [])) = ⟨none, []⟩ := by
    simp only [lit_string, hs]; rfl
  refine kleene_run_fail _ _ _ _ ?_
  simp only [member_not_msg, diff, e1, member_nil]

theorem loop_end_msg (G' G0 : List filler_line) (x : Input) (hG' : ∀ x ∈ G', x.wf = true)
    (hG0 : ∀ x ∈ G0, x.wf = true) :
    kleene_run member_not_msg msg_skip
        (render_fillers G0 ++ (render_fillers G' ++ (bytes "MSG: " ++ x))) =
      ([], render_fillers G0 ++ (render_fillers G' ++ (bytes "MSG: " ++ x))) := by
  have hs : msg_skip (render_fillers G0 ++ (render_fillers G' ++ (bytes "MSG: " ++ x))) =
      bytes "MSG: " ++ x := by
    rw [← List.append_assoc, ← render_fillers_append]
    exact msg_skip_fillers_eq _ (msg_head_solid x) (G0 ++ G') (fun x hx => by
      rcases List.mem_append.1 hx with h | h
      · exact hG0 x h
      · exact hG' x h)
  have e1 : lit_string (bytes "MSG: ") msg_skip
      (render_fillers G0 ++ (render_fillers G' ++ (bytes "MSG: " ++ x))) =
      ⟨some (), x⟩ := by
    have hp : (bytes "MSG: ").isPrefixOf (bytes "MSG: " ++ x) = true := by
      simp [List.isPrefixOf_iff_prefix]
    simp only [lit_string, hs, hp, if_true, List.drop_left]
  refine kleene_run_fail _ _ _ _ ?_
  simp only [member_not_msg, diff, e1]

theorem render_sections_cons (s : section_text) (ss : List section_text) :
    render_sections (s :: ss) = render_fillers [filler_line.separator] ++
      (bytes "MSG: " ++ (s.name ++ 10 ::
        (render_fillers s.fillers ++ (render_members s.members ++ render_sections ss)))) := by
  simp [render_sections, render_fillers]

/-- The loop over member lines that are followed by the sections `ss`. -/
theorem members_before_sections (ss : List section_text) (ms : List member_text)
    (G : List filler_line) (hG : ∀ x ∈ G, x.wf = true)
    (hms : ∀ m ∈ ms, member_text.wf m = true) :
    kleene_run member_not_msg msg_skip
        (render_fillers G ++ (render_members ms ++ render_sections ss)) =
      (ms.map (fun m => m.1.member), sections_pos (tail_fillers G ms) ss) := by
  cases ss with
  | nil =>
    have := members_loop [] [] (fun _ => []) (fun x hx => by cases hx) rfl
      (fun G0 hG0 => loop_end_nil [] G0 (fun x hx => by cases hx) hG0) ms G hG hms
    simpa [render_fillers, render_sections, sections_pos] using this
  | cons s ss =>
    have hsep : ∀ x ∈ [filler_line.separator], x.wf = true := by
      intro x hx; simp only [List.mem_singleton] at hx; subst hx; rfl
    have := members_loop [filler_line.separator] (bytes "MSG: " ++ (s.name ++ 10 ::
        (render_fillers s.fillers ++ (render_members s.members ++ render_sections ss))))
      (fun G0 => render_fillers G0 ++ (render_fillers [filler_line.separator] ++
        (bytes "MSG: " ++ (s.name ++ 10 ::
          (render_fillers s.fillers ++ (render_members s.members ++ render_sections ss))))))
      hsep (msg_head_solid _)
      (fun G0 hG0 => loop_end_msg [filler_line.separator] G0 _ hsep hG0) ms G hG hms
    rw [render_sections_cons]
    simpa [sections_pos, render_sections_cons] using this

theorem section_text_facts (s : section_text) (h : s.wf = true) :
    is_ident s.name = true ∧ (bytes "std_msgs/").isPrefixOf s.name = false ∧
      (∀ x ∈ s.fillers, x.wf = true) ∧ (∀ m ∈ s.members, member_text.wf m = true) ∧
      ∃ m ms, s.members = m :: ms := by
  simp only [section_text.wf, Bool.and_eq_true, List.all_eq_true, Bool.not_eq_true',
    List.isEmpty_eq_false] at h
  obtain ⟨⟨⟨⟨h1, h2⟩, h3⟩, h4⟩, h5⟩ := h
  refine ⟨h1, h2, h3, h4, ?_⟩
  rcases hm : s.members with _ | ⟨m, ms⟩
  · exact absurd hm h5
  · exact ⟨m, ms, rfl⟩

/-- The rule `embedded_type_name` reads the name on the `MSG: ` line after the filler lines and
the separator line. -/
theorem embedded_type_name_step (Gp : List filler_line) (name : List Nat) (rest : Input)
    (hGp : ∀ x ∈ Gp, x.wf = true) (hname : is_ident name = true)
    (hpre : (bytes "std_msgs/").isPrefixOf name = false) :
    ros_msg_grammar.embedded_type_name msg_skip
        (render_fillers Gp ++ (render_fillers [filler_line.separator] ++
          (bytes "MSG: " ++ (name ++ 10 :: rest)))) =
      ⟨some name, 10 :: rest⟩ := by
  have hsep : ∀ x ∈ [filler_line.separator], x.wf = true := by
    intro x hx; simp only [List.mem_singleton] at hx; subst hx; rfl
  have hs : msg_skip (render_fillers Gp ++ (render_fillers [filler_line.separator] ++
      (bytes "MSG: " ++ (name ++ 10 :: rest)))) = bytes "MSG: " ++ (name ++ 10 :: rest) := by
    rw [← List.append_assoc, ← render_fillers_append]
    exact msg_skip_fillers_eq _ (msg_head_solid _) (Gp ++ [filler_line.separator])
      (fun x hx => by
        rcases List.mem_append.1 hx with h | h
        · exact hGp x h
        · exact hsep x h)
  have hq : msg_skip (bytes "MSG: " ++ (name ++ 10 :: rest)) =
      bytes "MSG: " ++ (name ++ 10 :: rest) := msg_skip_solid _ (msg_head_solid _)
  have hnp : (bytes "MSG: std_msgs/").isPrefixOf (bytes "MSG: " ++ (name ++ 10 :: rest)) =
      false := by
    have h1 : bytes "MSG: std_msgs/" = bytes "MSG: " ++ bytes "std_msgs/" := by decide
    have h2 := std_not_isPrefixOf name 10 rest hpre (Or.inr (Or.inr rfl))
    have h3 : bytes "MSG: " = [77, 83, 71, 58, 32] := by decide
    rw [h1, h3]
    simpa [List.isPrefixOf] using h2
  have e1 : lit_string (bytes "MSG: std_msgs/") msg_skip
      (render_fillers Gp ++ (render_fillers [filler_line.separator] ++
        (bytes "MSG: " ++ (name ++ 10 :: rest)))) =
      ⟨none, bytes "MSG: " ++ (name ++ 10 :: rest)⟩ := by
    simp only [lit_string, hs, hnp]; rfl
  have e2 : lit_string (bytes "MSG: ") msg_skip (bytes "MSG: " ++ (name ++ 10 :: rest)) =
      ⟨some (), name ++ 10 :: rest⟩ := by
    have hp : (bytes "MSG: ").isPrefixOf (bytes "MSG: " ++ (name ++ 10 :: rest)) = true := by
      simp [List.isPrefixOf_iff_prefix]
    simp only [lit_string, hq, hp, if_true, List.drop_left]
  obtain ⟨c, t, rfl, hc, hall⟩ := is_ident_cons name hname
  have e3 : lexeme (plus (diff char_ eol)) msg_skip (c :: t ++ 10 :: rest) =
      ⟨some (c :: t), 10 :: rest⟩ := by
    refine lexeme_span _ noneol diff_noneol_char (c :: t) (10 :: rest) _
      (quiet_ident c _ hc) (by simp) ?_ (Or.inr ⟨10, rest, rfl, by decide⟩)
    intro x hx
    obtain ⟨h1, _, _, _, _, _, h10, h13, _⟩ := is_ident_char_facts x (hall x hx)
    simp only [ischar, decide_eq_true_eq] at h1
    simp [noneol, h1, h10, h13]
  simp only [ros_msg_grammar.embedded_type_name, seq_r, pmap, seq, alt, e1, e2, e3]

/-- The rule `embedded_type` reads a section. -/
theorem embedded_type_step (Gp : List filler_line) (s : section_text) (ss : List section_text)
    (hGp : ∀ x ∈ Gp, x.wf = true) (hs : s.wf = true) :
    ros_msg_grammar.embedded_type msg_skip (render_fillers Gp ++ render_sections (s :: ss)) =
      ⟨some s.embedded,
        sections_pos (tail_fillers (filler_line.blank 0 :: s.fillers) s.members) ss⟩ := by
  obtain ⟨h1, h2, h3, h4, m, ms, hm⟩ := section_text_facts s hs
  have hG : ∀ x ∈ filler_line.blank 0 :: s.fillers, x.wf = true := by
    intro x hx
    rcases List.mem_cons.1 hx with rfl | hx
    · rfl
    · exact h3 x hx
  have e1 := embedded_type_name_step Gp s.name
    (render_fillers s.fillers ++ (render_members s.members ++ render_sections ss)) hGp h1 h2
  -- the first member of the section
  obtain ⟨hl, hF, f, fs, hf, hfe⟩ := member_text_facts m (h4 m (by simp [hm]))
  have hms' : ∀ x ∈ ms, member_text.wf x = true := fun x hx => h4 x (by simp [hm, hx])
  have hloop := members_before_sections ss ms m.2 hF hms'
  have hsolid : ∃ k', line_cont (render_fillers m.2 ++ (render_members ms ++ render_sections ss))
      k' := by
    have hhead := ends_line_head f fs (render_members ms ++ render_sections ss) hfe
    rw [← hf] at hhead
    cases ss with
    | nil =>
      obtain ⟨k', hk1, hk2, _, _⟩ := skip_to_members m.2 [] ms [] hF
        (fun x hx => by cases hx) hms' rfl
      exact ⟨k', Or.inr hhead, by simpa [render_sections, render_fillers] using hk1, hk2⟩
    | cons s2 ss2 =>
      have hsep : ∀ x ∈ [filler_line.separator], x.wf = true := by
        intro x hx; simp only [List.mem_singleton] at hx; subst hx; rfl
      obtain ⟨k', hk1, hk2, _, _⟩ := skip_to_members m.2 [filler_line.separator] ms
        (bytes "MSG: " ++ (s2.name ++ 10 ::
          (render_fillers s2.fillers ++ (render_members s2.members ++ render_sections ss2))))
        hF hsep hms' (msg_head_solid _)
      exact ⟨k', Or.inr hhead, by rw [render_sections_cons]; exact hk1, hk2⟩
  obtain ⟨k', hcont⟩ := hsolid
  have hstep := member_not_msg_step (filler_line.blank 0 :: s.fillers) m.2 m.1
    (render_members ms ++ render_sections ss) k' hG hl hcont
  have e2 : plus member_not_msg msg_skip
      (10 :: (render_fillers s.fillers ++ (render_members s.members ++ render_sections ss))) =
      ⟨some (s.members.map (fun m => m.1.member)),
        sections_pos (tail_fillers (filler_line.blank 0 :: s.fillers) s.members) ss⟩ := by
    have e : 10 :: (render_fillers s.fillers ++ (render_members s.members ++
        render_sections ss)) =
        render_fillers (filler_line.blank 0 :: s.fillers) ++ (m.1.render ++
          (render_fillers m.2 ++ (render_members ms ++ render_sections ss))) := by
      simp [hm, render_members, render_fillers, filler_line.render]
    rw [e]
    simp only [plus, hstep, hloop, hm, List.map_cons, tail_fillers]
  have e2' : plus (diff ros_msg_grammar.member (lit_string (bytes "MSG: "))) msg_skip
      (10 :: (render_fillers s.fillers ++ (render_members s.members ++ render_sections ss))) =
      ⟨some (s.members.map (fun m => m.1.member)),
        sections_pos (tail_fillers (filler_line.blank 0 :: s.fillers) s.members) ss⟩ := e2
  rw [render_sections_cons]
  simp only [ros_msg_grammar.embedded_type, pmap, seq, e1, e2', section_text.embedded]

theorem embedded_type_nil : ros_msg_grammar.embedded_type msg_skip [] = ⟨none, []⟩ := by decide

theorem tail_fillers_wf : ∀ (ms : List member_text) (G : List filler_line),
    (∀ x ∈ G, x.wf = true) → (∀ m ∈ ms, member_text.wf m = true) →
    ∀ x ∈ tail_fillers G ms, x.wf = true := by
  intro ms
  induction ms with
  | nil => intro G hG _; exact hG
  | cons m ms ih =>
    intro G _ hms
    exact ih m.2 (member_text_facts m (hms m (by simp))).2.1 (fun x hx => hms x (by simp [hx]))

theorem tail_fillers_length : ∀ (ms : List member_text) (G : List filler_line),
    (render_fillers (tail_fillers G ms)).length ≤
      (render_fillers G).length + (render_members ms).length := by
  intro ms
  induction ms with
  | nil => intro G; simp [tail_fillers]
  | cons m ms ih =>
    intro G
    have := ih m.2
    simp only [tail_fillers, render_members, List.length_append]
    omega

theorem sections_pos_length (Gp : List filler_line) (s : section_text)
    (ss : List section_text) :
    (sections_pos (tail_fillers (filler_line.blank 0 :: s.fillers) s.members) ss).length <
      (sections_pos Gp (s :: ss)).length := by
  have h := tail_fillers_length s.members (filler_line.blank 0 :: s.fillers)
  have hb : (render_fillers (filler_line.blank 0 :: s.fillers)).length =
      (render_fillers s.fillers).length + 1 := by
    simp [render_fillers, filler_line.render]
  cases ss with
  | nil => simp [sections_pos, render_sections, filler_line.render]
  | cons s2 ss2 =>
    simp only [sections_pos]
    rw [render_sections_cons s (s2 :: ss2)]
    have hg : 0 < (bytes "MSG: ").length := by decide
    simp only [List.length_append, List.length_cons]
    omega

/-- The loop over the sections reads every section and ends at the end of the input. -/
theorem sections_loop : ∀ (ss : List section_text) (Gp : List filler_line),
    (∀ x ∈ Gp, x.wf = true) → (∀ s ∈ ss, section_text.wf s = true) →
    kleene_run ros_msg_grammar.embedded_type msg_skip (sections_pos Gp ss) =
      (ss.map section_text.embedded, []) := by
  intro ss
  induction ss with
  | nil =>
    intro Gp _ _
    exact kleene_run_fail _ _ _ _ embedded_type_nil
  | cons s ss ih =>
    intro Gp hGp hss
    have hs := hss s (by simp)
    obtain ⟨_, _, h3, h4, _⟩ := section_text_facts s hs
    have hstep := embedded_type_step Gp s ss hGp hs
    have hG : ∀ x ∈ tail_fillers (filler_line.blank 0 :: s.fillers) s.members, x.wf = true := by
      refine tail_fillers_wf s.members _ ?_ h4
      intro x hx
      rcases List.mem_cons.1 hx with rfl | hx
      · rfl
      · exact h3 x hx
    have hlen := sections_pos_length Gp s ss
    have e : sections_pos Gp (s :: ss) = render_fillers Gp ++ render_sections (s :: ss) := rfl
    rw [e] at hlen ⊢
    rw [kleene_run_ok _ _ _ _ _ hstep hlen, ih _ hG (fun x hx => hss x (by simp [hx]))]
    rfl

/-- The grammar reads a definition made of member lines and sections, filler lines between
them, and consumes it whole. -/
theorem parse_definition_text (lead : List filler_line) (top : List member_text)
    (sections : List section_text) (hlead : ∀ x ∈ lead, x.wf = true)
    (htop : ∀ m ∈ top, member_text.wf m = true)
    (hsec : ∀ s ∈ sections, section_text.wf s = true) :
    phrase_parse ros_msg_grammar.msg ros_msg_skipper.skip
        (render_definition lead top sections) =
      ⟨some { members := top.map (fun m => m.1.member),
              embedded_types := sections.map section_text.embedded }, []⟩ := by
  have h1 := members_before_sections sections top lead hlead htop
  have h2 := sections_loop sections (tail_fillers lead top) (tail_fillers_wf top lead hlead htop)
    hsec
  have h1' : kleene_run (diff ros_msg_grammar.member (lit_string (bytes "MSG: "))) msg_skip
      (render_fillers lead ++ (render_members top ++ render_sections sections)) =
      (top.map (fun m => m.1.member), sections_pos (tail_fillers lead top) sections) := h1
  have h3 : skip_over ros_msg_skipper.skip [] = [] := rfl
  simp only [phrase_parse, ros_msg_grammar.msg, pmap, seq, kleene, render_definition]
  simp only [h1', h2, h3]

/-- A single member line that ends the input is read whole. -/
theorem parse_single_line (l : member_line) (hl : l.wf = true) :
    phrase_parse ros_msg_grammar.msg ros_msg_skipper.skip l.render =
      ⟨some { members := [l.member], embedded_types := [] }, []⟩ := by
  have hcont : line_cont (render_fillers [] ++ []) [] := ⟨Or.inl rfl, rfl, rfl⟩
  have hstep := member_not_msg_step [] [] l [] [] (fun x hx => by cases hx) hl hcont
  simp only [render_fillers, List.nil_append, List.append_nil] at hstep
  have hne := (member_line_head l hl []).2.2
  have hend := loop_end_nil [] [] (fun x hx => by cases hx) (fun x hx => by cases hx)
  simp only [render_fillers, List.nil_append] at hend
  have h1 : kleene_run (diff ros_msg_grammar.member (lit_string (bytes "MSG: "))) msg_skip
      l.render = ([l.member], []) := by
    have := kleene_run_ok member_not_msg msg_skip l.render [] l.member hstep
      (by simpa using List.length_pos.2 hne)
    rw [hend] at this
    exact this
  have h2 : kleene_run ros_msg_grammar.embedded_type msg_skip [] = ([], []) :=
    kleene_run_fail _ _ _ _ embedded_type_nil
  have h3 : skip_over ros_msg_skipper.skip [] = [] := rfl
  simp only [phrase_parse, ros_msg_grammar.msg, pmap, seq, kleene, h1, h2, h3]

theorem to_int32_of_lt (n : Nat) (h : n < 2 ^ 31) : to_int32 n = (n : Int) := by
  have h1 : n % 2 ^ 32 = n := Nat.mod_eq_of_lt (by omega)
  unfold to_int32
  rw [h1, if_pos h]

/-- The end of case `CONNECTION` when fewer than `2 ^ 31` characters are left unread. -/
theorem readRecords_parse_definition_eq (self : Embag) (topic md : List Nat)
    (hrem : (phrase_parse ros_msg_grammar.msg ros_msg_skipper.skip md).rest.length < 2 ^ 31) :
    readRecords_parse_definition self topic md =
      match (phrase_parse ros_msg_grammar.msg ros_msg_skipper.skip md).val,
          (phrase_parse ros_msg_grammar.msg ros_msg_skipper.skip md).rest with
      | some ast, [] =>
        (none, { self with message_schemata_ := self.message_schemata_.assign topic ast })
      | _, iter =>
        (some (.runtime_error "Message definition parsing failed at: "
          (iter.take (min 30 iter.length))), self) := by
  unfold readRecords_parse_definition
  generalize phrase_parse ros_msg_grammar.msg ros_msg_skipper.skip md = r at hrem
  obtain ⟨val, rest⟩ := r
  have h32 := to_int32_of_lt rest.length hrem
  have hneg : ¬ min (30 : Int) (rest.length : Int) < 0 := by omega
  have hmin : (min (30 : Int) (rest.length : Int)).toNat = min 30 rest.length := by omega
  cases val <;> cases rest <;> simp only [h32, hmin, if_neg hneg]

/-! ## What the grammar reads -/

theorem render_members_append (xs ys : List member_text) :
    render_members (xs ++ ys) = render_members xs ++ render_members ys := by
  induction xs with
  | nil => rfl
  | cons x xs ih => simp [render_members, ih]

/-- C7 (amended): for every type identifier `T` that neither starts with `std_msgs/` nor is
`MSG:`, every field identifier `N` and every decimal digit string `ds` whose value is below
`2 ^ 31`, the grammar reads the line `T N` as the field `{T, 0, N}`, the line `T[] N` as
`{T, -1, N}` and the line `T[ds] N` as `{T, value of ds, N}`, and a definition made of such
lines, each ended by a newline, yields their members in textual order; each time the whole text
is read. -/
theorem field_lines_parse (T N ds : List Nat) (lines : List member_line)
    (hT : is_type_ident T = true) (hN : is_ident N = true) (hds : is_decimal ds = true)
    (hn : decimal_value ds < 2 ^ 31) (hlines : ∀ l ∈ lines, l.wf = true) :
    phrase_parse ros_msg_grammar.msg ros_msg_skipper.skip (T ++ 32 :: N) =
        ⟨some { members := [.field { type_name := T, array_size := 0, field_name := N }],
                embedded_types := [] }, []⟩ ∧
      phrase_parse ros_msg_grammar.msg ros_msg_skipper.skip (T ++ 91 :: 93 :: 32 :: N) =
        ⟨some { members := [.field { type_name := T, array_size := -1, field_name := N }],
                embedded_types := [] }, []⟩ ∧
      phrase_parse ros_msg_grammar.msg ros_msg_skipper.skip (T ++ 91 :: (ds ++ 93 :: 32 :: N)) =
        ⟨some { members := [.field { type_name := T, array_size := (decimal_value ds : Nat),
                                     field_name := N }],
                embedded_types := [] }, []⟩ ∧
      phrase_parse ros_msg_grammar.msg ros_msg_skipper.skip
          (render_members (lines.map (fun l => (l, [filler_line.blank 0])))) =
        ⟨some { members := lines.map member_line.member, embedded_types := [] }, []⟩ := by
  refine ⟨?_, ?_, ?_, ?_⟩
  · exact parse_single_line (.scalar T N) (by simp [member_line.wf, hT, hN])
  · exact parse_single_line (.var_array T N) (by simp [member_line.wf, hT, hN])
  · exact parse_single_line (.fixed_array T ds N)
      (by simp only [member_line.wf, hT, hN, hds, decide_eq_true hn, Bool.and_self])
  · have h := parse_definition_text [] (lines.map (fun l => (l, [filler_line.blank 0]))) []
      (fun x hx => by cases hx)
      (fun m hm => by
        obtain ⟨l, hl, rfl⟩ := List.mem_map.1 hm
        simp [member_text.wf, hlines l hl, filler_line.wf, filler_line.ends_line])
      (fun s hs => by cases hs)
    simpa [render_definition, render_fillers, render_sections, List.map_map, Function.comp_def]
      using h

theorem field_lines_parse_witness :
    phrase_parse ros_msg_grammar.msg ros_msg_skipper.skip (bytes "int32" ++ 32 :: bytes "x") =
        ⟨some { members := [.field { type_name := bytes "int32", array_size := 0,
                                     field_name := bytes "x" }],
                embedded_types := [] }, []⟩ ∧
      phrase_parse ros_msg_grammar.msg ros_msg_skipper.skip
          (bytes "int32" ++ 91 :: 93 :: 32 :: bytes "x") =
        ⟨some { members := [.field { type_name := bytes "int32", array_size := -1,
                                     field_name := bytes "x" }],
                embedded_types := [] }, []⟩ ∧
      phrase_parse ros_msg_grammar.msg ros_msg_skipper.skip
          (bytes "int32" ++ 91 :: (bytes "36" ++ 93 :: 32 :: bytes "x")) =
        ⟨some { members := [.field { type_name := bytes "int32",
                                     array_size := (decimal_value (bytes "36") : Nat),
                                     field_name := bytes "x" }],
                embedded_types := [] }, []⟩ ∧
      phrase_parse ros_msg_grammar.msg ros_msg_skipper.skip
          (render_members (sample_field_lines.map (fun l => (l, [filler_line.blank 0])))) =
        ⟨some { members := sample_field_lines.map member_line.member, embedded_types := [] },
          []⟩ :=
  field_lines_parse (bytes "int32") (bytes "x") (bytes "36") sample_field_lines (by decide) (by decide) (by decide) (by decide) (by decide)

/-- C7 (counterexample): the line `std_msgs/Header header` yields the type name `Header`, the
line `T[2147483648] N` yields the array size `-2147483648`, and the line `MSG: x` yields no
field. -/
theorem field_line_not_kept :
    phrase_parse ros_msg_grammar.msg ros_msg_skipper.skip (bytes "std_msgs/Header header") =
        ⟨some { members := [.field { type_name := bytes "Header", array_size := 0,
                                     field_name := bytes "header" }],
                embedded_types := [] }, []⟩ ∧
      phrase_parse ros_msg_grammar.msg ros_msg_skipper.skip (bytes "T[2147483648] N") =
        ⟨some { members := [.field { type_name := bytes "T", array_size := -2147483648,
                                     field_name := bytes "N" }],
                embedded_types := [] }, []⟩ ∧
      phrase_parse ros_msg_grammar.msg ros_msg_skipper.skip (bytes "MSG: x") =
        ⟨some { members := [], embedded_types := [] }, bytes "MSG: x"⟩ := by
  decide

/-- C9 (amended): for a CONNECTION record with a non-empty topic whose data is read as fields
that include `type`, `md5sum` and `message_definition`, whose connection id lies inside the
connection table, and when fewer than `2 ^ 31` characters of the message definition are left
unread by the schema parser: the connection is registered, which leaves a bag `b` with the
schemata of before; if the parser succeeds and has read the whole definition, the schema is
stored for the topic; otherwise the case fails with the error
`Message definition parsing failed at: ` followed by the first `min 30 remaining` characters of
the unread input, and no schema is stored. -/
theorem connection_schema_stored_or_rejected (self : Embag) (record : record_t)
    (header : header_t) (connection_id : Nat) (topic : List Nat) (fields : Dict (List Nat))
    (connection_data : connection_data_t)
    (hconn : header.getUInt "conn" 4 = .ok connection_id)
    (htopic : header.getString "topic" = .ok topic) (hne : topic ≠ [])
    (hfields : readFields self.bag_stream_.data record.data record.data_len = .ok fields)
    (hdata : readRecords_connection_data topic fields = .ok connection_data)
    (hin : connection_id < self.connections_.length)
    (hrem : (phrase_parse ros_msg_grammar.msg ros_msg_skipper.skip
      connection_data.message_definition).rest.length < 2 ^ 31) :
    ∃ b, readRecords_register self connection_id topic connection_data = some b ∧
      b.message_schemata_ = self.message_schemata_ ∧
      (∀ ast, phrase_parse ros_msg_grammar.msg ros_msg_skipper.skip
            connection_data.message_definition = ⟨some ast, []⟩ →
          readRecords_CONNECTION self record header =
            (none, { b with message_schemata_ := b.message_schemata_.assign topic ast })) ∧
      ((¬ ∃ ast, phrase_parse ros_msg_grammar.msg ros_msg_skipper.skip
            connection_data.message_definition = ⟨some ast, []⟩) →
          readRecords_CONNECTION self record header =
            (some (.runtime_error "Message definition parsing failed at: "
              ((phrase_parse ros_msg_grammar.msg ros_msg_skipper.skip
                connection_data.message_definition).rest.take
                (min 30 (phrase_parse ros_msg_grammar.msg ros_msg_skipper.skip
                  connection_data.message_definition).rest.length))), b)) := by
  have hempty : topic.isEmpty = false := by
    cases topic with
    | nil => exact absurd rfl hne
    | cons c cs => rfl
  obtain ⟨c, hc⟩ : ∃ c, self.connections_.get? connection_id = some c :=
    ⟨_, List.get?_eq_get hin⟩
  have hreg : readRecords_register self connection_id topic connection_data =
      some { self with
        connections_ := self.connections_.set connection_id
          { c with id := connection_id, topic := topic, data := connection_data },
        topic_connection_map_ :=
          self.topic_connection_map_.assign topic ⟨connection_id, true⟩ } := by
    unfold readRecords_register
    rw [hc]
  refine ⟨_, hreg, rfl, ?_⟩
  have hcase : readRecords_CONNECTION self record header =
      readRecords_parse_definition { self with
        connections_ := self.connections_.set connection_id
          { c with id := connection_id, topic := topic, data := connection_data },
        topic_connection_map_ :=
          self.topic_connection_map_.assign topic ⟨connection_id, true⟩ } topic
        connection_data.message_definition := by
    unfold readRecords_CONNECTION
    simp only [hconn, htopic, hempty, hfields, hdata, hreg]
    rfl
  rw [hcase, readRecords_parse_definition_eq _ topic _ hrem]
  generalize phrase_parse ros_msg_grammar.msg ros_msg_skipper.skip
    connection_data.message_definition = r
  obtain ⟨val, rest⟩ := r
  refine ⟨?_, ?_⟩
  · intro ast h
    cases h
    rfl
  · intro h
    cases val with
    | none => rfl
    | some ast =>
      cases rest with
      | nil => exact absurd ⟨ast, rfl⟩ h
      | cons c cs => rfl

theorem connection_schema_stored_or_rejected_witness :
    readRecords_CONNECTION (sample_scan "int32 x") (sample_record "int32 x") sample_header =
        (none, { sample_registered "int32 x" with
          message_schemata_ := [(bytes "/a",
            { members := [.field { type_name := bytes "int32", array_size := 0,
                                   field_name := bytes "x" }],
              embedded_types := [] })] }) ∧
      readRecords_CONNECTION (sample_scan "int32 x y") (sample_record "int32 x y")
          sample_header =
        (some (.runtime_error "Message definition parsing failed at: " (bytes " y")),
          sample_registered "int32 x y") := by
  obtain ⟨b1, hb1, _, hs1, _⟩ := connection_schema_stored_or_rejected (sample_scan "int32 x")
    (sample_record "int32 x") sample_header 0 (bytes "/a") (sample_fields "int32 x")
    (sample_connection_data "int32 x") (by decide) (by decide) (by decide) (by decide)
    (by decide) (by decide) (by decide)
  obtain ⟨b2, hb2, _, _, hr2⟩ := connection_schema_stored_or_rejected
    (sample_scan "int32 x y") (sample_record "int32 x y") sample_header 0 (bytes "/a")
    (sample_fields "int32 x y") (sample_connection_data "int32 x y") (by decide) (by decide)
    (by decide) (by decide) (by decide) (by decide) (by decide)
  have r1 : readRecords_register (sample_scan "int32 x") 0 (bytes "/a")
      (sample_connection_data "int32 x") = some (sample_registered "int32 x") := by decide
  have r2 : readRecords_register (sample_scan "int32 x y") 0 (bytes "/a")
      (sample_connection_data "int32 x y") = some (sample_registered "int32 x y") := by decide
  have e1 : b1 = sample_registered "int32 x" := Option.some.inj (hb1.symm.trans r1)
  have e2 : b2 = sample_registered "int32 x y" := Option.some.inj (hb2.symm.trans r2)
  subst e1 e2
  have p1 : phrase_parse ros_msg_grammar.msg ros_msg_skipper.skip
      (sample_connection_data "int32 x").message_definition =
      ⟨some { members := [.field { type_name := bytes "int32", array_size := 0,
                                   field_name := bytes "x" }],
              embedded_types := [] }, []⟩ := by decide
  refine ⟨(hs1 _ p1).trans rfl, (hr2 ?_).trans (by decide)⟩
  rintro ⟨ast, h⟩
  have h2 : (phrase_parse ros_msg_grammar.msg ros_msg_skipper.skip
      (sample_connection_data "int32 x y").message_definition).rest = [] :=
    congrArg Res.rest h
  exact absurd h2 (by decide)

/-- C9 (counterexample): three bags whose CONNECTION record carries the topic `/a` and for which
the schema is neither stored nor rejected with the schema parse error. The data of the first
record holds a message definition that parses and an md5sum, and no type: the scan fails with
`out_of_range` for the key `type`. The data of the second record holds an entry without `=`: the
scan fails with the error of `readFields`. The third record names connection 0 of an empty
connection table: the assignment to `connections_[0]` is outside the vector. No schema is stored
in any of them. -/
theorem connection_without_schema_error :
    (open_ sample_untyped_connection Embag.init).1 = .error (.out_of_range (bytes "type")) ∧
      (open_ sample_untyped_connection Embag.init).2.message_schemata_ = [] ∧
      (open_ (sample_preamble ++ sample_bag_header 1 ++
          sample_connection_with 0 "/a" [bytes "type"]) Embag.init).1 =
        .error (.runtime_error
          "Unable to find '=' in header field - perhaps this bag is corrupt..." []) ∧
      (open_ (sample_preamble ++ sample_bag_header 1 ++
          sample_connection_with 0 "/a" [bytes "type"]) Embag.init).2.message_schemata_ = [] ∧
      (open_ (sample_preamble ++ sample_bag_header 0 ++
          sample_connection 0 "/a" "int32 x\n") Embag.init).1 =
        .error (.undefined_behaviour "connections_[connection_id] out of range") ∧
      (open_ (sample_preamble ++ sample_bag_header 0 ++
          sample_connection 0 "/a" "int32 x\n") Embag.init).2.message_schemata_ = [] := by
  decide

/-- C10 (amended): for every type identifier `T` that neither starts with `std_msgs/` nor is
`MSG:`, every identifier `NAME` and every literal that is not empty, is made of ascii
characters, holds no white space and no `#`, and starts with fewer than 80 `=`, the `=` sign of
the line counted in when `b = 0`: of the constant line `T NAME = LITERAL` with `a` spaces before
the `=` and `b` spaces after it, the schema parser yields the constant member with the value
text `LITERAL` and reads the whole text, when the line alone is the definition, and when the
line stands between other member lines and ends in a newline after optional spaces or in a
`#`-comment set off by a space. -/
theorem constant_line_parse (T N V : List Nat) (a b : Nat) (f : filler_line)
    (before after : List member_text)
    (hT : is_type_ident T = true) (hN : is_ident N = true) (hV : is_literal b V = true)
    (hf : f.wf = true) (hfe : f.ends_line = true)
    (hbefore : ∀ m ∈ before, member_text.wf m = true)
    (hafter : ∀ m ∈ after, member_text.wf m = true) :
    phrase_parse ros_msg_grammar.msg ros_msg_skipper.skip
        (T ++ 32 :: (N ++ (List.replicate a 32 ++ 61 :: (List.replicate b 32 ++ V)))) =
        ⟨some { members := [.constant { type_name := T, constant_name := N, value := V }],
                embedded_types := [] }, []⟩ ∧
      phrase_parse ros_msg_grammar.msg ros_msg_skipper.skip
        (render_members before ++
          (T ++ 32 :: (N ++ (List.replicate a 32 ++ 61 :: (List.replicate b 32 ++ V))) ++
            (f.render ++ render_members after))) =
        ⟨some { members := before.map (fun m => m.1.member) ++
                  .constant { type_name := T, constant_name := N, value := V } ::
                    after.map (fun m => m.1.member),
                embedded_types := [] }, []⟩ := by
  have hl : (member_line.constant T N a b V).wf = true := by simp [member_line.wf, hT, hN, hV]
  refine ⟨parse_single_line (.constant T N a b V) hl, ?_⟩
  have h := parse_definition_text []
    (before ++ (member_line.constant T N a b V, [f]) :: after) []
    (fun x hx => by cases hx)
    (fun m hm => by
      rcases List.mem_append.1 hm with hm | hm
      · exact hbefore m hm
      · rcases List.mem_cons.1 hm with hm | hm
        · subst hm
          simp [member_text.wf, hl, hf, hfe]
        · exact hafter m hm)
    (fun s hs => by cases hs)
  simpa [render_definition, render_fillers, render_sections, render_members,
    render_members_append, member_line.render, member_line.member] using h

theorem constant_line_parse_witness :
    phrase_parse ros_msg_grammar.msg ros_msg_skipper.skip
        (bytes "string" ++ 32 :: (bytes "FOO" ++
          (List.replicate 1 32 ++ 61 :: (List.replicate 1 32 ++ bytes "hello")))) =
        ⟨some { members := [.constant { type_name := bytes "string", constant_name := bytes "FOO",
                                        value := bytes "hello" }],
                embedded_types := [] }, []⟩ ∧
      phrase_parse ros_msg_grammar.msg ros_msg_skipper.skip
        (render_members sample_top ++
          (bytes "string" ++ 32 :: (bytes "FOO" ++
            (List.replicate 1 32 ++ 61 :: (List.replicate 1 32 ++ bytes "hello"))) ++
            ((filler_line.comment 1 (bytes " hello world")).render ++ render_members []))) =
        ⟨some { members := sample_top.map (fun m => m.1.member) ++
                  .constant { type_name := bytes "string", constant_name := bytes "FOO",
                              value := bytes "hello" } ::
                    ([] : List member_text).map (fun m => m.1.member),
                embedded_types := [] }, []⟩ :=
  constant_line_parse (bytes "string") (bytes "FOO") (bytes "hello") 1 1
    (filler_line.comment 1 (bytes " hello world")) sample_top [] (by decide) (by decide)
    (by decide) (by decide) (by decide) (by decide) (by decide)

/-- C10 (counterexample): in the line `string FOO = hello world` the value of the constant is
`hello`, the text ` world` is left unread, and the definition is rejected. In the line
`string U = µm`, whose literal starts with a character outside ascii, no constant is read: the
line yields the field `U` of type `string` and the text from ` = ` on is left unread. A literal
of 80 `=` is a separator line for the skipper: the line yields the field `S` and the text from
` = ` on is left unread; of a literal of 81 `=` the value is the last `=` alone. -/
theorem constant_with_spaces_cut :
    phrase_parse ros_msg_grammar.msg ros_msg_skipper.skip (bytes "string FOO = hello world\n") =
        ⟨some { members := [.constant { type_name := bytes "string", constant_name := bytes "FOO",
                                        value := bytes "hello" }],
                embedded_types := [] }, bytes " world\n"⟩ ∧
      readRecords_parse_definition Embag.init (bytes "/a") (bytes "string FOO = hello world\n") =
        (some (.runtime_error "Message definition parsing failed at: " (bytes " world\n")),
          Embag.init) ∧
      phrase_parse ros_msg_grammar.msg ros_msg_skipper.skip
          (bytes "string U = " ++ [194, 181, 109, 10]) =
        ⟨some { members := [.field { type_name := bytes "string", array_size := 0,
                                     field_name := bytes "U" }],
                embedded_types := [] }, bytes " = " ++ [194, 181, 109, 10]⟩ ∧
      phrase_parse ros_msg_grammar.msg ros_msg_skipper.skip
          (bytes "string S = " ++ (List.replicate 80 61 ++ [10])) =
        ⟨some { members := [.field { type_name := bytes "string", array_size := 0,
                                     field_name := bytes "S" }],
                embedded_types := [] }, bytes " = " ++ (List.replicate 80 61 ++ [10])⟩ ∧
      phrase_parse ros_msg_grammar.msg ros_msg_skipper.skip
          (bytes "string S = " ++ (List.replicate 81 61 ++ [10])) =
        ⟨some { members := [.constant { type_name := bytes "string", constant_name := bytes "S",
                                        value := [61] }],
                embedded_types := [] }, []⟩ := by
  decide

/-! ## Sections without members and the `std_msgs/` prefix -/

/-- When the loop of `*p` collects nothing, `+p` fails. -/
theorem plus_fail_of_kleene_nil {α : Type} (p : Parser α) (sk : Skip) (s : Input)
    (h : (kleene_run p sk s).1 = []) : plus p sk s = ⟨none, s⟩ := by
  unfold kleene_run at h
  rw [kleene_loop] at h
  unfold plus
  rcases hp : p sk s with ⟨_ | a, r⟩
  · rfl
  · rw [hp] at h
    simp only at h
    split_ifs at h

/-- A section without member lines is not an embedded type for the grammar. -/
theorem embedded_type_empty_section (Gp F : List filler_line) (name : List Nat)
    (more : List section_text) (hGp : ∀ x ∈ Gp, x.wf = true) (hF : ∀ x ∈ F, x.wf = true)
    (hname : is_ident name = true) (hpre : (bytes "std_msgs/").isPrefixOf name = false) :
    ros_msg_grammar.embedded_type msg_skip
        (render_fillers Gp ++ render_sections (⟨name, F, []⟩ :: more)) =
      ⟨none, render_fillers Gp ++ render_sections (⟨name, F, []⟩ :: more)⟩ := by
  have hG : ∀ x ∈ filler_line.blank 0 :: F, x.wf = true := by
    intro x hx
    rcases List.mem_cons.1 hx with rfl | hx
    · rfl
    · exact hF x hx
  have e1 := embedded_type_name_step Gp name
    (render_fillers F ++ (render_members [] ++ render_sections more)) hGp hname hpre
  have hloop := members_before_sections more [] (filler_line.blank 0 :: F) hG
    (fun m hm => by cases hm)
  have e : 10 :: (render_fillers F ++ (render_members [] ++ render_sections more)) =
      render_fillers (filler_line.blank 0 :: F) ++ (render_members [] ++ render_sections more) := by
    simp [render_fillers, filler_line.render]
  have e2 : plus (diff ros_msg_grammar.member (lit_string (bytes "MSG: "))) msg_skip
      (10 :: (render_fillers F ++ (render_members [] ++ render_sections more))) =
      ⟨none, 10 :: (render_fillers F ++ (render_members [] ++ render_sections more))⟩ := by
    apply plus_fail_of_kleene_nil
    rw [e]
    have h := congrArg Prod.fst hloop
    exact h
  rw [render_sections_cons]
  simp only [ros_msg_grammar.embedded_type, pmap, seq, e1, e2]

/-- The loop over sections stops in front of the first section without member lines. -/
theorem sections_loop_until_empty (F : List filler_line) (name : List Nat)
    (more : List section_text) (hF : ∀ x ∈ F, x.wf = true)
    (hname : is_ident name = true) (hpre : (bytes "std_msgs/").isPrefixOf name = false) :
    ∀ (ss : List section_text) (Gp : List filler_line),
    (∀ x ∈ Gp, x.wf = true) → (∀ s ∈ ss, section_text.wf s = true) →
    ∃ G' : List filler_line, (∀ x ∈ G', x.wf = true) ∧
      kleene_run ros_msg_grammar.embedded_type msg_skip
          (sections_pos Gp (ss ++ ⟨name, F, []⟩ :: more)) =
        (ss.map section_text.embedded,
          render_fillers G' ++ render_sections (⟨name, F, []⟩ :: more)) := by
  intro ss
  induction ss with
  | nil =>
    intro Gp hGp _
    exact ⟨Gp, hGp, kleene_run_fail _ _ _ _
      (embedded_type_empty_section Gp F name more hGp hF hname hpre)⟩
  | cons s ss ih =>
    intro Gp hGp hss
    have hs := hss s (by simp)
    obtain ⟨_, _, h3, h4, _⟩ := section_text_facts s hs
    have hstep := embedded_type_step Gp s (ss ++ ⟨name, F, []⟩ :: more) hGp hs
    have hG : ∀ x ∈ tail_fillers (filler_line.blank 0 :: s.fillers) s.members, x.wf = true := by
      refine tail_fillers_wf s.members _ ?_ h4
      intro x hx
      rcases List.mem_cons.1 hx with rfl | hx
      · rfl
      · exact h3 x hx
    have hlen := sections_pos_length Gp s (ss ++ ⟨name, F, []⟩ :: more)
    obtain ⟨G', hG', hrun⟩ := ih _ hG (fun x hx => hss x (by simp [hx]))
    refine ⟨G', hG', ?_⟩
    have e : sections_pos Gp (s :: (ss ++ ⟨name, F, []⟩ :: more)) =
        render_fillers Gp ++ render_sections (s :: (ss ++ ⟨name, F, []⟩ :: more)) := rfl
    rw [List.cons_append, e]
    rw [e] at hlen
    rw [kleene_run_ok _ _ _ _ _ hstep hlen, hrun]
    rfl

/-- The grammar stops in front of the `MSG: ` line of the first section without member lines:
it yields the members and the sections read so far and leaves the rest of the text unread. -/
theorem parse_empty_section (lead F : List filler_line) (top : List member_text)
    (sections more : List section_text) (name : List Nat)
    (hlead : ∀ x ∈ lead, x.wf = true) (htop : ∀ m ∈ top, member_text.wf m = true)
    (hsec : ∀ s ∈ sections, section_text.wf s = true) (hF : ∀ x ∈ F, x.wf = true)
    (hname : is_ident name = true) (hpre : (bytes "std_msgs/").isPrefixOf name = false) :
    phrase_parse ros_msg_grammar.msg ros_msg_skipper.skip
        (render_definition lead top (sections ++ ⟨name, F, []⟩ :: more)) =
      ⟨some { members := top.map (fun m => m.1.member),
              embedded_types := sections.map section_text.embedded },
        bytes "MSG: " ++ (name ++ 10 :: (render_fillers F ++ render_sections more))⟩ := by
  have h1 := members_before_sections (sections ++ ⟨name, F, []⟩ :: more) top lead hlead htop
  obtain ⟨G', hG', h2⟩ := sections_loop_until_empty F name more hF hname hpre sections
    (tail_fillers lead top) (tail_fillers_wf top lead hlead htop) hsec
  have h1' : kleene_run (diff ros_msg_grammar.member (lit_string (bytes "MSG: "))) msg_skip
      (render_fillers lead ++ (render_members top ++
        render_sections (sections ++ ⟨name, F, []⟩ :: more))) =
      (top.map (fun m => m.1.member),
        sections_pos (tail_fillers lead top) (sections ++ ⟨name, F, []⟩ :: more)) := h1
  have h3 : skip_over ros_msg_skipper.skip
      (render_fillers G' ++ render_sections (⟨name, F, []⟩ :: more)) =
      bytes "MSG: " ++ (name ++ 10 :: (render_fillers F ++ render_sections more)) := by
    have hw : ∀ x ∈ G' ++ [filler_line.separator], x.wf = true := by
      intro x hx
      rcases List.mem_append.1 hx with h | h
      · exact hG' x h
      · simp only [List.mem_singleton] at h; subst h; rfl
    have := msg_skip_fillers_eq
      (bytes "MSG: " ++ (name ++ 10 :: (render_fillers F ++ render_sections more)))
      (msg_head_solid _) (G' ++ [filler_line.separator]) hw
    rw [render_sections_cons, ← List.append_assoc, ← render_fillers_append]
    simpa [render_members] using this
  simp only [phrase_parse, ros_msg_grammar.msg, pmap, seq, kleene, render_definition]
  simp only [h1', h2, h3]

theorem take_min_length {α : Type} (n : Nat) (l : List α) :
    l.take (min n l.length) = l.take n := by
  rcases Nat.le_total n l.length with h | h
  · rw [Nat.min_eq_left h]
  · rw [Nat.min_eq_right h, List.take_length, List.take_of_length_le h]

/-- C11 (amended): a message definition in which some embedded section has no member line is
rejected. The grammar stops in front of the `MSG: ` line of the first such section: it yields
the top-level members and the sections before it, leaves the text from that line on unread, and
the schema of the connection is refused with the parse error whose context is the start of the
unread text. -/
theorem empty_section_rejected (lead F : List filler_line) (top : List member_text)
    (sections more : List section_text) (name topic : List Nat) (self : Embag)
    (hlead : ∀ x ∈ lead, x.wf = true) (htop : ∀ m ∈ top, member_text.wf m = true)
    (hsec : ∀ s ∈ sections, section_text.wf s = true) (hF : ∀ x ∈ F, x.wf = true)
    (hname : is_ident name = true) (hpre : (bytes "std_msgs/").isPrefixOf name = false)
    (hlen : (bytes "MSG: " ++ (name ++ 10 :: (render_fillers F ++ render_sections more))).length
      < 2 ^ 31) :
    phrase_parse ros_msg_grammar.msg ros_msg_skipper.skip
        (render_definition lead top (sections ++ ⟨name, F, []⟩ :: more)) =
      ⟨some { members := top.map (fun m => m.1.member),
              embedded_types := sections.map (fun s =>
                { type_name := s.name, members := s.members.map (fun m => m.1.member) }) },
        bytes "MSG: " ++ (name ++ 10 :: (render_fillers F ++ render_sections more))⟩ ∧
      readRecords_parse_definition self topic
          (render_definition lead top (sections ++ ⟨name, F, []⟩ :: more)) =
        (some (.runtime_error "Message definition parsing failed at: "
          ((bytes "MSG: " ++ (name ++ 10 :: (render_fillers F ++ render_sections more))).take
            30)), self) := by
  have hp := parse_empty_section lead F top sections more name hlead htop hsec hF hname hpre
  refine ⟨hp, ?_⟩
  have hrem : (phrase_parse ros_msg_grammar.msg ros_msg_skipper.skip
      (render_definition lead top (sections ++ ⟨name, F, []⟩ :: more))).rest.length < 2 ^ 31 := by
    rw [hp]; exact hlen
  rw [readRecords_parse_definition_eq self topic _ hrem, hp]
  have h5 : bytes "MSG: " = [77, 83, 71, 58, 32] := by decide
  simp only [h5, List.cons_append, List.nil_append, take_min_length]

theorem empty_section_rejected_witness :
    phrase_parse ros_msg_grammar.msg ros_msg_skipper.skip
        (render_definition [] sample_top (sample_sections ++ ⟨bytes "pkg/Empty", [], []⟩ :: [])) =
      ⟨some { members := sample_top.map (fun m => m.1.member),
              embedded_types := sample_sections.map (fun s =>
                { type_name := s.name, members := s.members.map (fun m => m.1.member) }) },
        bytes "MSG: " ++ (bytes "pkg/Empty" ++ 10 :: (render_fillers [] ++ render_sections []))⟩ ∧
      readRecords_parse_definition Embag.init (bytes "/a")
          (render_definition [] sample_top
            (sample_sections ++ ⟨bytes "pkg/Empty", [], []⟩ :: [])) =
        (some (.runtime_error "Message definition parsing failed at: "
          ((bytes "MSG: " ++
            (bytes "pkg/Empty" ++ 10 :: (render_fillers [] ++ render_sections []))).take 30)),
          Embag.init) :=
  empty_section_rejected [] [] sample_top sample_sections [] (bytes "pkg/Empty") (bytes "/a")
    Embag.init (by decide) (by decide) (by decide) (by decide) (by decide) (by decide)
    (by decide)

/-- C11 (counterexample): the definition `int32 x`, separator line, `MSG: pkg/Empty` is not read
whole: the grammar yields no embedded type and leaves the line `MSG: pkg/Empty` unread, and a
bag whose connection carries this definition is refused. -/
theorem empty_section_not_parsed :
    phrase_parse ros_msg_grammar.msg ros_msg_skipper.skip sample_empty_section =
      ⟨some { members := [.field { type_name := bytes "int32", array_size := 0,
                                   field_name := bytes "x" }],
              embedded_types := [] }, bytes "MSG: pkg/Empty\n"⟩ ∧
      (open_ sample_empty_section_bag Embag.init).1 =
        .error (.runtime_error "Message definition parsing failed at: "
          (bytes "MSG: pkg/Empty\n")) := by
  decide

theorem std_solid (k : Input) : starts_solid (bytes "std_msgs/" ++ k) = true := by
  have : bytes "std_msgs/" ++ k = 115 :: (bytes "td_msgs/" ++ k) := by
    have h1 : bytes "std_msgs/" = 115 :: bytes "td_msgs/" := by decide
    rw [h1]; rfl
  rw [this]; rfl

theorem written_std_solid (b : Bool) (k : Input) (hk : starts_solid k = true) :
    starts_solid (written_std b ++ k) = true := by
  cases b with
  | false => simpa [written_std] using hk
  | true => exact std_solid k

theorem lit_string_head (p : List Nat) (Y : Input) (hq : msg_skip (p ++ Y) = p ++ Y) :
    lit_string p msg_skip (p ++ Y) = ⟨some (), Y⟩ := by
  have hp : p.isPrefixOf (p ++ Y) = true := by simp [List.isPrefixOf_iff_prefix]
  simp only [lit_string, hq, hp, if_true, List.drop_left]

/-- The rule `type` drops the prefix `std_msgs/`. -/
theorem type_std (Y : Input) (v : List Nat) (r : Input)
    (ht : ros_msg_grammar.type msg_skip Y = ⟨some v, r⟩) (hq : msg_skip Y = Y)
    (hpre : (bytes "std_msgs/").isPrefixOf Y = false) :
    ros_msg_grammar.type msg_skip (bytes "std_msgs/" ++ Y) = ⟨some v, r⟩ := by
  have e0 : lit_string (bytes "std_msgs/") msg_skip Y = ⟨none, Y⟩ := by
    simp only [lit_string, hq, hpre]; rfl
  have hplus : plus (diff char_ (alt (lit 91) (omit_ space))) msg_skip Y = ⟨some v, r⟩ := by
    simpa only [ros_msg_grammar.type, alt, seq_r, pmap, seq, e0] using ht
  have e1 := lit_string_head (bytes "std_msgs/") Y (msg_skip_solid _ (std_solid Y))
  simp only [ros_msg_grammar.type, alt, seq_r, pmap, seq, e1, hplus]

theorem pmap_seq_eval {α β γ : Type} (f : α × β → γ) (p : Parser α) (q : Parser β) (sk : Skip)
    (s : Input) (a : α) (r : Input) (hp : p sk s = ⟨some a, r⟩) :
    pmap f (seq p q) sk s =
      match q sk r with
      | ⟨none, _⟩ => ⟨none, s⟩
      | ⟨some b, r'⟩ => ⟨some (f (a, b)), r'⟩ := by
  rcases h : q sk r with ⟨_ | b, r'⟩ <;> simp only [pmap, seq, hp, h]

/-- The rule `member` reads a line whose type carries the prefix `std_msgs/` as it reads the
line without the prefix. -/
theorem member_std (Y : Input) (m : ros_msg_member) (k : Input)
    (hm : ros_msg_grammar.member msg_skip Y = ⟨some m, k⟩) (hq : msg_skip Y = Y)
    (hpre : (bytes "std_msgs/").isPrefixOf Y = false) :
    ros_msg_grammar.member msg_skip (bytes "std_msgs/" ++ Y) = ⟨some m, k⟩ := by
  rcases ht : ros_msg_grammar.type msg_skip Y with ⟨_ | v, r⟩
  · simp [ros_msg_grammar.member, ros_msg_grammar.constant, ros_msg_grammar.field, alt, pmap,
      seq, ht] at hm
  · have ht2 := type_std Y v r ht hq hpre
    have c1 := pmap_seq_eval
      (fun x : List Nat × List Nat × List Nat =>
        ({ type_name := x.1, constant_name := x.2.1, value := x.2.2 } : ros_msg_constant))
      ros_msg_grammar.type (seq_r (plus (lit 32)) (seq ros_msg_grammar.constant_name
        (seq_r (kleene (lit 32)) (seq_r (lit 61) (seq_r (kleene (lit 32))
          ros_msg_grammar.constant_value))))) msg_skip
    have f1 := pmap_seq_eval
      (fun x : List Nat × Int × List Nat =>
        ({ type_name := x.1, array_size := x.2.1, field_name := x.2.2 } : ros_msg_field))
      ros_msg_grammar.type (seq ros_msg_grammar.array_size
        (seq_r (plus (lit 32)) ros_msg_grammar.field_name)) msg_skip
    have cY : ros_msg_grammar.constant msg_skip Y = _ := c1 Y v r ht
    have cP : ros_msg_grammar.constant msg_skip (bytes "std_msgs/" ++ Y) = _ := c1 _ v r ht2
    have fY : ros_msg_grammar.field msg_skip Y = _ := f1 Y v r ht
    have fP : ros_msg_grammar.field msg_skip (bytes "std_msgs/" ++ Y) = _ := f1 _ v r ht2
    simp only [ros_msg_grammar.member, alt, pmap] at hm ⊢
    rw [cY] at hm
    rw [cP]
    rcases hc : seq_r (plus (lit 32)) (seq ros_msg_grammar.constant_name
        (seq_r (kleene (lit 32)) (seq_r (lit 61) (seq_r (kleene (lit 32))
          ros_msg_grammar.constant_value)))) msg_skip r with ⟨_ | b, r'⟩
    · rw [hc] at hm
      simp only at hm ⊢
      rw [fY] at hm
      rw [fP]
      rcases hf : seq ros_msg_grammar.array_size
          (seq_r (plus (lit 32)) ros_msg_grammar.field_name) msg_skip r with ⟨_ | b, r'⟩
      · rw [hf] at hm
        simp at hm
      · rw [hf] at hm
        exact hm
    · rw [hc] at hm
      exact hm

theorem member_line_not_std (l : member_line) (hl : l.wf = true) (k : Input) :
    (bytes "std_msgs/").isPrefixOf (l.render ++ k) = false := by
  have key : ∀ (T : List Nat) (c : Nat) (x : Input), is_type_ident T = true → (c = 32 ∨ c = 91) →
      (bytes "std_msgs/").isPrefixOf (T ++ c :: x) = false := by
    intro T c x hT hc
    obtain ⟨_, h2, _⟩ := is_type_ident_facts T hT
    exact std_not_isPrefixOf T c x h2 (by rcases hc with h | h <;> simp [h])
  cases l with
  | scalar T N =>
    simp only [member_line.wf, Bool.and_eq_true] at hl
    have := key T 32 (N ++ k) hl.1 (Or.inl rfl)
    simpa [member_line.render] using this
  | var_array T N =>
    simp only [member_line.wf, Bool.and_eq_true] at hl
    have := key T 91 (93 :: 32 :: (N ++ k)) hl.1 (Or.inr rfl)
    simpa [member_line.render] using this
  | fixed_array T ds N =>
    simp only [member_line.wf, Bool.and_eq_true] at hl
    have := key T 91 (ds ++ 93 :: 32 :: (N ++ k)) hl.1.1.1 (Or.inr rfl)
    simpa [member_line.render] using this
  | constant T N a b V =>
    simp only [member_line.wf, Bool.and_eq_true] at hl
    have := key T 32 (N ++ (List.replicate a 32 ++ 61 :: (List.replicate b 32 ++ (V ++ k))))
      hl.1.1 (Or.inl rfl)
    simpa [member_line.render] using this

theorem written_line_head (b : Bool) (l : member_line) (hl : l.wf = true) (k : Input) :
    starts_solid (written_std b ++ (l.render ++ k)) = true ∧
      (bytes "MSG: ").isPrefixOf (written_std b ++ (l.render ++ k)) = false := by
  obtain ⟨h1, h2, _⟩ := member_line_head l hl k
  cases b with
  | false => simpa [written_std] using And.intro h1 h2
  | true =>
    refine ⟨std_solid _, ?_⟩
    have e1 : written_std true = 115 :: bytes "td_msgs/" := by decide
    have e2 : bytes "MSG: " = 77 :: bytes "SG: " := by decide
    rw [e1, e2]
    simp [List.isPrefixOf]

theorem written_member_step (G F : List filler_line) (b : Bool) (l : member_line) (Y : Input)
    (k' : Input) (hG : ∀ x ∈ G, x.wf = true) (hl : l.wf = true)
    (hcont : line_cont (render_fillers F ++ Y) k') :
    member_not_msg msg_skip
        (render_fillers G ++ (written_std b ++ (l.render ++ (render_fillers F ++ Y)))) =
      ⟨some l.member, render_fillers F ++ Y⟩ := by
  cases b with
  | false => simpa [written_std] using member_not_msg_step G F l Y k' hG hl hcont
  | true =>
    obtain ⟨h1, h2⟩ := written_line_head true l hl (render_fillers F ++ Y)
    have hs := msg_skip_fillers_eq _ h1 G hG
    have e1 : lit_string (bytes "MSG: ") msg_skip
        (render_fillers G ++ (written_std true ++ (l.render ++ (render_fillers F ++ Y)))) =
        ⟨none, written_std true ++ (l.render ++ (render_fillers F ++ Y))⟩ := by
      simp only [lit_string, hs, h2]; rfl
    have e2 : ros_msg_grammar.member msg_skip
        (written_std true ++ (l.render ++ (render_fillers F ++ Y))) =
        ⟨some l.member, render_fillers F ++ Y⟩ :=
      member_std _ _ _ (member_step l (render_fillers F ++ Y) k' hl hcont)
        (msg_skip_solid _ (member_line_head l hl _).1) (member_line_not_std l hl _)
    simp only [member_not_msg, diff, e1, e2]

theorem skip_to_written_members (F G' : List filler_line) (ms : List (Bool × member_text))
    (K : Input) (hF : ∀ x ∈ F, x.wf = true) (hG' : ∀ x ∈ G', x.wf = true)
    (hms : ∀ m ∈ ms, member_text.wf m.2 = true) (hK : starts_solid K = true) :
    ∃ k', msg_skip (render_fillers F ++ (render_written_members ms ++ (render_fillers G' ++ K)))
        = k' ∧ starts_solid k' = true := by
  cases ms with
  | nil =>
    refine ⟨K, ?_, hK⟩
    simp only [render_written_members, List.nil_append]
    rw [← List.append_assoc, ← render_fillers_append]
    exact msg_skip_fillers_eq K hK (F ++ G') (fun x hx => by
      rcases List.mem_append.1 hx with h | h
      · exact hF x h
      · exact hG' x h)
  | cons m ms' =>
    have hm := (member_text_facts m.2 (hms m (by simp))).1
    have hs : starts_solid (render_written_members (m :: ms') ++ (render_fillers G' ++ K)) =
        true := by
      simp only [render_written_members, List.append_assoc]
      exact (written_line_head m.1 m.2.1 hm _).1
    exact ⟨_, msg_skip_fillers_eq _ hs F hF, hs⟩

/-- The loop over member lines with prefixes reads the members of the lines without them. -/
theorem written_members_loop (G' : List filler_line) (K : Input) (E : List filler_line → Input)
    (hG' : ∀ x ∈ G', x.wf = true) (hK : starts_solid K = true)
    (hend : ∀ G0 : List filler_line, (∀ x ∈ G0, x.wf = true) →
      kleene_run member_not_msg msg_skip (render_fillers G0 ++ (render_fillers G' ++ K)) =
        ([], E G0)) :
    ∀ (ms : List (Bool × member_text)) (G : List filler_line), (∀ x ∈ G, x.wf = true) →
      (∀ m ∈ ms, member_text.wf m.2 = true) →
      kleene_run member_not_msg msg_skip
          (render_fillers G ++ (render_written_members ms ++ (render_fillers G' ++ K))) =
        (ms.map (fun m => m.2.1.member), E (tail_fillers G (ms.map Prod.snd))) := by
  intro ms
  induction ms with
  | nil =>
    intro G hG _
    simpa [render_written_members, tail_fillers] using hend G hG
  | cons m ms ih =>
    intro G hG hms
    obtain ⟨hl, hF, f, fs, hf, hfe⟩ := member_text_facts m.2 (hms m (by simp))
    have hms' : ∀ x ∈ ms, member_text.wf x.2 = true := fun x hx => hms x (by simp [hx])
    obtain ⟨k', hk1, hk2⟩ := skip_to_written_members m.2.2 G' ms K hF hG' hms' hK
    have hcont : line_cont (render_fillers m.2.2 ++
        (render_written_members ms ++ (render_fillers G' ++ K))) k' := by
      refine ⟨Or.inr ?_, hk1, hk2⟩
      rw [hf]
      exact ends_line_head f fs _ hfe
    have hstep := written_member_step G m.2.2 m.1 m.2.1 _ k' hG hl hcont
    have hne := (member_line_head m.2.1 hl []).2.2
    have e : render_fillers G ++ (render_written_members (m :: ms) ++ (render_fillers G' ++ K)) =
        render_fillers G ++ (written_std m.1 ++ (m.2.1.render ++ (render_fillers m.2.2 ++
          (render_written_members ms ++ (render_fillers G' ++ K))))) := by
      simp [render_written_members]
    rw [e, kleene_run_ok _ _ _ _ _ hstep (by
      simp only [List.length_append]
      have : 0 < m.2.1.render.length := List.length_pos.2 hne
      omega), ih m.2.2 hF hms']
    rfl

theorem render_written_sections_cons (s : written_section) (ss : List written_section) :
    render_written_sections (s :: ss) = render_fillers [filler_line.separator] ++
      (bytes "MSG: " ++ (written_std s.std ++ (s.name ++ 10 ::
        (render_fillers s.fillers ++
          (render_written_members s.members ++ render_written_sections ss))))) := by
  simp [render_written_sections, render_fillers]

theorem written_members_before_sections (ss : List written_section)
    (ms : List (Bool × member_text)) (G : List filler_line) (hG : ∀ x ∈ G, x.wf = true)
    (hms : ∀ m ∈ ms, member_text.wf m.2 = true) :
    kleene_run member_not_msg msg_skip
        (render_fillers G ++ (render_written_members ms ++ render_written_sections ss)) =
      (ms.map (fun m => m.2.1.member),
        written_sections_pos (tail_fillers G (ms.map Prod.snd)) ss) := by
  cases ss with
  | nil =>
    have := written_members_loop [] [] (fun _ => []) (fun x hx => by cases hx) rfl
      (fun G0 hG0 => loop_end_nil [] G0 (fun x hx => by cases hx) hG0) ms G hG hms
    simpa [render_fillers, render_written_sections, written_sections_pos] using this
  | cons s ss =>
    have hsep : ∀ x ∈ [filler_line.separator], x.wf = true := by
      intro x hx; simp only [List.mem_singleton] at hx; subst hx; rfl
    have := written_members_loop [filler_line.separator]
      (bytes "MSG: " ++ (written_std s.std ++ (s.name ++ 10 ::
        (render_fillers s.fillers ++
          (render_written_members s.members ++ render_written_sections ss)))))
      (fun G0 => render_fillers G0 ++ (render_fillers [filler_line.separator] ++
        (bytes "MSG: " ++ (written_std s.std ++ (s.name ++ 10 ::
          (render_fillers s.fillers ++
            (render_written_members s.members ++ render_written_sections ss)))))))
      hsep (msg_head_solid _)
      (fun G0 hG0 => loop_end_msg [filler_line.separator] G0 _ hsep hG0) ms G hG hms
    rw [render_written_sections_cons]
    simpa [written_sections_pos, render_written_sections_cons] using this

/-- The rule `embedded_type_name` drops the prefix `std_msgs/` of the name of a section. -/
theorem written_embedded_type_name_step (Gp : List filler_line) (std : Bool) (name : List Nat)
    (rest : Input) (hGp : ∀ x ∈ Gp, x.wf = true) (hname : is_ident name = true)
    (hpre : (bytes "std_msgs/").isPrefixOf name = false) :
    ros_msg_grammar.embedded_type_name msg_skip
        (render_fillers Gp ++ (render_fillers [filler_line.separator] ++
          (bytes "MSG: " ++ (written_std std ++ (name ++ 10 :: rest))))) =
      ⟨some name, 10 :: rest⟩ := by
  cases std with
  | false => simpa [written_std] using embedded_type_name_step Gp name rest hGp hname hpre
  | true =>
    have hsep : ∀ x ∈ [filler_line.separator], x.wf = true := by
      intro x hx; simp only [List.mem_singleton] at hx; subst hx; rfl
    have ejoin : bytes "MSG: " ++ (written_std true ++ (name ++ 10 :: rest)) =
        bytes "MSG: std_msgs/" ++ (name ++ 10 :: rest) := by
      have h1 : bytes "MSG: std_msgs/" = bytes "MSG: " ++ written_std true := by decide
      rw [h1, List.append_assoc]
    have hs : msg_skip (render_fillers Gp ++ (render_fillers [filler_line.separator] ++
        (bytes "MSG: " ++ (written_std true ++ (name ++ 10 :: rest))))) =
        bytes "MSG: std_msgs/" ++ (name ++ 10 :: rest) := by
      rw [← List.append_assoc, ← render_fillers_append, ← ejoin]
      exact msg_skip_fillers_eq _ (msg_head_solid _) (Gp ++ [filler_line.separator])
        (fun x hx => by
          rcases List.mem_append.1 hx with h | h
          · exact hGp x h
          · exact hsep x h)
    have hp : (bytes "MSG: std_msgs/").isPrefixOf
        (bytes "MSG: std_msgs/" ++ (name ++ 10 :: rest)) = true := by
      simp [List.isPrefixOf_iff_prefix]
    have e1 : lit_string (bytes "MSG: std_msgs/") msg_skip
        (render_fillers Gp ++ (render_fillers [filler_line.separator] ++
          (bytes "MSG: " ++ (written_std true ++ (name ++ 10 :: rest))))) =
        ⟨some (), name ++ 10 :: rest⟩ := by
      simp only [lit_string, hs, hp, if_true, List.drop_left]
    obtain ⟨c, t, rfl, hc, hall⟩ := is_ident_cons name hname
    have e3 : lexeme (plus (diff char_ eol)) msg_skip (c :: t ++ 10 :: rest) =
        ⟨some (c :: t), 10 :: rest⟩ := by
      refine lexeme_span _ noneol diff_noneol_char (c :: t) (10 :: rest) _
        (quiet_ident c _ hc) (by simp) ?_ (Or.inr ⟨10, rest, rfl, by decide⟩)
      intro x hx
      obtain ⟨h1, _, _, _, _, _, h10, h13, _⟩ := is_ident_char_facts x (hall x hx)
      simp only [ischar, decide_eq_true_eq] at h1
      simp [noneol, h1, h10, h13]
    simp only [ros_msg_grammar.embedded_type_name, seq_r, pmap, seq, alt, e1, e3]

theorem written_section_facts (s : written_section) (h : s.plain.wf = true) :
    is_ident s.name = true ∧ (bytes "std_msgs/").isPrefixOf s.name = false ∧
      (∀ x ∈ s.fillers, x.wf = true) ∧ (∀ m ∈ s.members, member_text.wf m.2 = true) ∧
      ∃ m ms, s.members = m :: ms := by
  obtain ⟨h1, h2, h3, h4, m, ms, hm⟩ := section_text_facts s.plain h
  refine ⟨h1, h2, h3, fun m hm => h4 m.2 (List.mem_map.2 ⟨m, hm, rfl⟩), ?_⟩
  rcases hs : s.members with _ | ⟨m', ms'⟩
  · simp [written_section.plain, hs] at hm
  · exact ⟨m', ms', rfl⟩

/-- The rule `embedded_type` reads a section with prefixes as the section without them. -/
theorem written_embedded_type_step (Gp : List filler_line) (s : written_section)
    (ss : List written_section) (hGp : ∀ x ∈ Gp, x.wf = true) (hs : s.plain.wf = true) :
    ros_msg_grammar.embedded_type msg_skip
        (render_fillers Gp ++ render_written_sections (s :: ss)) =
      ⟨some s.plain.embedded,
        written_sections_pos
          (tail_fillers (filler_line.blank 0 :: s.fillers) (s.members.map Prod.snd)) ss⟩ := by
  obtain ⟨h1, h2, h3, h4, m, ms, hm⟩ := written_section_facts s hs
  have hG : ∀ x ∈ filler_line.blank 0 :: s.fillers, x.wf = true := by
    intro x hx
    rcases List.mem_cons.1 hx with rfl | hx
    · rfl
    · exact h3 x hx
  have e1 := written_embedded_type_name_step Gp s.std s.name
    (render_fillers s.fillers ++
      (render_written_members s.members ++ render_written_sections ss)) hGp h1 h2
  -- the first member of the section
  obtain ⟨hl, hF, f, fs, hf, hfe⟩ := member_text_facts m.2 (h4 m (by simp [hm]))
  have hms' : ∀ x ∈ ms, member_text.wf x.2 = true := fun x hx => h4 x (by simp [hm, hx])
  have hloop := written_members_before_sections ss ms m.2.2 hF hms'
  have hsolid : ∃ k', line_cont (render_fillers m.2.2 ++
      (render_written_members ms ++ render_written_sections ss)) k' := by
    have hhead := ends_line_head f fs (render_written_members ms ++ render_written_sections ss)
      hfe
    rw [← hf] at hhead
    cases ss with
    | nil =>
      obtain ⟨k', hk1, hk2⟩ := skip_to_written_members m.2.2 [] ms [] hF
        (fun x hx => by cases hx) hms' rfl
      exact ⟨k', Or.inr hhead,
        by simpa [render_written_sections, render_fillers] using hk1, hk2⟩
    | cons s2 ss2 =>
      have hsep : ∀ x ∈ [filler_line.separator], x.wf = true := by
        intro x hx; simp only [List.mem_singleton] at hx; subst hx; rfl
      obtain ⟨k', hk1, hk2⟩ := skip_to_written_members m.2.2 [filler_line.separator] ms
        (bytes "MSG: " ++ (written_std s2.std ++ (s2.name ++ 10 ::
          (render_fillers s2.fillers ++
            (render_written_members s2.members ++ render_written_sections ss2)))))
        hF hsep hms' (msg_head_solid _)
      exact ⟨k', Or.inr hhead, by rw [render_written_sections_cons]; exact hk1, hk2⟩
  obtain ⟨k', hcont⟩ := hsolid
  have hstep := written_member_step (filler_line.blank 0 :: s.fillers) m.2.2 m.1 m.2.1
    (render_written_members ms ++ render_written_sections ss) k' hG hl hcont
  have e2 : plus member_not_msg msg_skip
      (10 :: (render_fillers s.fillers ++
        (render_written_members s.members ++ render_written_sections ss))) =
      ⟨some (s.members.map (fun m => m.2.1.member)),
        written_sections_pos
          (tail_fillers (filler_line.blank 0 :: s.fillers) (s.members.map Prod.snd)) ss⟩ := by
    have e : 10 :: (render_fillers s.fillers ++
        (render_written_members s.members ++ render_written_sections ss)) =
        render_fillers (filler_line.blank 0 :: s.fillers) ++ (written_std m.1 ++ (m.2.1.render ++
          (render_fillers m.2.2 ++
            (render_written_members ms ++ render_written_sections ss)))) := by
      simp [hm, render_written_members, render_fillers, filler_line.render]
    rw [e]
    simp only [plus, hstep, hloop, hm, List.map_cons, tail_fillers]
  have e2' : plus (diff ros_msg_grammar.member (lit_string (bytes "MSG: "))) msg_skip
      (10 :: (render_fillers s.fillers ++
        (render_written_members s.members ++ render_written_sections ss))) =
      ⟨some (s.members.map (fun m => m.2.1.member)),
        written_sections_pos
          (tail_fillers (filler_line.blank 0 :: s.fillers) (s.members.map Prod.snd)) ss⟩ := e2
  rw [render_written_sections_cons]
  simp only [ros_msg_grammar.embedded_type, pmap, seq, e1, e2', section_text.embedded,
    written_section.plain, List.map_map, Function.comp_def]

theorem written_tail_length : ∀ (ms : List (Bool × member_text)) (G : List filler_line),
    (render_fillers (tail_fillers G (ms.map Prod.snd))).length ≤
      (render_fillers G).length + (render_written_members ms).length := by
  intro ms
  induction ms with
  | nil => intro G; simp [tail_fillers]
  | cons m ms ih =>
    intro G
    have := ih m.2.2
    simp only [List.map_cons, tail_fillers, render_written_members, List.length_append]
    omega

theorem written_sections_pos_length (Gp : List filler_line) (s : written_section)
    (ss : List written_section) :
    (written_sections_pos
        (tail_fillers (filler_line.blank 0 :: s.fillers) (s.members.map Prod.snd)) ss).length <
      (written_sections_pos Gp (s :: ss)).length := by
  have h := written_tail_length s.members (filler_line.blank 0 :: s.fillers)
  have hb : (render_fillers (filler_line.blank 0 :: s.fillers)).length =
      (render_fillers s.fillers).length + 1 := by
    simp [render_fillers, filler_line.render]
  cases ss with
  | nil => simp [written_sections_pos, render_written_sections, filler_line.render]
  | cons s2 ss2 =>
    simp only [written_sections_pos]
    rw [render_written_sections_cons s (s2 :: ss2)]
    have hg : 0 < (bytes "MSG: ").length := by decide
    simp only [List.length_append, List.length_cons]
    omega

/-- The loop over sections with prefixes reads the sections without them. -/
theorem written_sections_loop : ∀ (ss : List written_section) (Gp : List filler_line),
    (∀ x ∈ Gp, x.wf = true) → (∀ s ∈ ss, s.plain.wf = true) →
    kleene_run ros_msg_grammar.embedded_type msg_skip (written_sections_pos Gp ss) =
      (ss.map (fun s => s.plain.embedded), []) := by
  intro ss
  induction ss with
  | nil =>
    intro Gp _ _
    exact kleene_run_fail _ _ _ _ embedded_type_nil
  | cons s ss ih =>
    intro Gp hGp hss
    have hs := hss s (by simp)
    obtain ⟨_, _, h3, h4, _⟩ := written_section_facts s hs
    have hstep := written_embedded_type_step Gp s ss hGp hs
    have hG : ∀ x ∈ tail_fillers (filler_line.blank 0 :: s.fillers) (s.members.map Prod.snd),
        x.wf = true := by
      refine tail_fillers_wf (s.members.map Prod.snd) _ ?_ ?_
      · intro x hx
        rcases List.mem_cons.1 hx with rfl | hx
        · rfl
        · exact h3 x hx
      · intro m hm
        obtain ⟨m', hm', rfl⟩ := List.mem_map.1 hm
        exact h4 m' hm'
    have hlen := written_sections_pos_length Gp s ss
    have e : written_sections_pos Gp (s :: ss) =
        render_fillers Gp ++ render_written_sections (s :: ss) := rfl
    rw [e] at hlen ⊢
    rw [kleene_run_ok _ _ _ _ _ hstep hlen, ih _ hG (fun x hx => hss x (by simp [hx]))]
    rfl

/-- The grammar reads a definition with prefixes `std_msgs/` as the definition without them. -/
theorem parse_written_definition (lead : List filler_line) (top : List (Bool × member_text))
    (sections : List written_section) (hlead : ∀ x ∈ lead, x.wf = true)
    (htop : ∀ m ∈ top, member_text.wf m.2 = true)
    (hsec : ∀ s ∈ sections, s.plain.wf = true) :
    phrase_parse ros_msg_grammar.msg ros_msg_skipper.skip
        (render_written_definition lead top sections) =
      ⟨some { members := top.map (fun m => m.2.1.member),
              embedded_types := sections.map (fun s => s.plain.embedded) }, []⟩ := by
  have h1 := written_members_before_sections sections top lead hlead htop
  have hw : ∀ x ∈ tail_fillers lead (top.map Prod.snd), x.wf = true := by
    refine tail_fillers_wf (top.map Prod.snd) lead hlead ?_
    intro m hm
    obtain ⟨m', hm', rfl⟩ := List.mem_map.1 hm
    exact htop m' hm'
  have h2 := written_sections_loop sections (tail_fillers lead (top.map Prod.snd)) hw hsec
  have h1' : kleene_run (diff ros_msg_grammar.member (lit_string (bytes "MSG: "))) msg_skip
      (render_fillers lead ++ (render_written_members top ++ render_written_sections sections)) =
      (top.map (fun m => m.2.1.member),
        written_sections_pos (tail_fillers lead (top.map Prod.snd)) sections) := h1
  have h3 : skip_over ros_msg_skipper.skip [] = [] := rfl
  simp only [phrase_parse, ros_msg_grammar.msg, pmap, seq, kleene, render_written_definition]
  simp only [h1', h2, h3]

/-- A single member line with the prefix `std_msgs/` that ends the input is read whole. -/
theorem parse_single_written_line (l : member_line) (hl : l.wf = true) :
    phrase_parse ros_msg_grammar.msg ros_msg_skipper.skip (bytes "std_msgs/" ++ l.render) =
      ⟨some { members := [l.member], embedded_types := [] }, []⟩ := by
  have hcont : line_cont (render_fillers [] ++ []) [] := ⟨Or.inl rfl, rfl, rfl⟩
  have hstep := written_member_step [] [] true l [] [] (fun x hx => by cases hx) hl hcont
  have hp : written_std true = bytes "std_msgs/" := rfl
  simp only [render_fillers, List.nil_append, List.append_nil, hp] at hstep
  have hne := (member_line_head l hl []).2.2
  have hend := loop_end_nil [] [] (fun x hx => by cases hx) (fun x hx => by cases hx)
  simp only [render_fillers, List.nil_append] at hend
  have h1 : kleene_run (diff ros_msg_grammar.member (lit_string (bytes "MSG: "))) msg_skip
      (bytes "std_msgs/" ++ l.render) = ([l.member], []) := by
    have := kleene_run_ok member_not_msg msg_skip (bytes "std_msgs/" ++ l.render) [] l.member
      hstep (by simp [List.length_pos.2 hne])
    rw [hend] at this
    exact this
  have h2 : kleene_run ros_msg_grammar.embedded_type msg_skip [] = ([], []) :=
    kleene_run_fail _ _ _ _ embedded_type_nil
  have h3 : skip_over ros_msg_skipper.skip [] = [] := rfl
  simp only [phrase_parse, ros_msg_grammar.msg, pmap, seq, kleene, h1, h2, h3]

/-- C12 (amended): for every identifier `T` that does not itself start with `std_msgs/` and,
as the type of a member, is not `MSG:`, the schema parser reads a member line whose type is
written `std_msgs/T` as the line with the type `T`, and a section introduced by
`MSG: std_msgs/T` as the section introduced by `MSG: T`: a definition in which any of the
member lines and any of the section names carry the prefix yields the same members and embedded
types, with the type name `T`, as the definition without the prefixes. -/
theorem std_msgs_prefix_dropped (l : member_line) (lead : List filler_line)
    (top : List (Bool × member_text)) (sections : List written_section)
    (hl : l.wf = true) (hlead : ∀ x ∈ lead, x.wf = true)
    (htop : ∀ m ∈ top, member_text.wf m.2 = true)
    (hsec : ∀ s ∈ sections, s.plain.wf = true) :
    phrase_parse ros_msg_grammar.msg ros_msg_skipper.skip (bytes "std_msgs/" ++ l.render) =
        phrase_parse ros_msg_grammar.msg ros_msg_skipper.skip l.render ∧
      phrase_parse ros_msg_grammar.msg ros_msg_skipper.skip l.render =
        ⟨some { members := [l.member], embedded_types := [] }, []⟩ ∧
      phrase_parse ros_msg_grammar.msg ros_msg_skipper.skip
          (render_written_definition lead top sections) =
        phrase_parse ros_msg_grammar.msg ros_msg_skipper.skip
          (render_definition lead (top.map Prod.snd) (sections.map written_section.plain)) ∧
      phrase_parse ros_msg_grammar.msg ros_msg_skipper.skip
          (render_definition lead (top.map Prod.snd) (sections.map written_section.plain)) =
        ⟨some { members := top.map (fun m => m.2.1.member),
                embedded_types := sections.map (fun s =>
                  { type_name := s.name, members := s.members.map (fun m => m.2.1.member) }) },
          []⟩ := by
  have h1 := parse_single_written_line l hl
  have h2 := parse_single_line l hl
  have h3 := parse_written_definition lead top sections hlead htop hsec
  have h4 := parse_definition_text lead (top.map Prod.snd) (sections.map written_section.plain)
    hlead
    (fun m hm => by
      obtain ⟨m', hm', rfl⟩ := List.mem_map.1 hm
      exact htop m' hm')
    (fun s hs => by
      obtain ⟨s', hs', rfl⟩ := List.mem_map.1 hs
      exact hsec s' hs')
  have e : (⟨some { members := (top.map Prod.snd).map (fun m => m.1.member),
                    embedded_types := (sections.map written_section.plain).map
                      section_text.embedded }, []⟩ : Res ros_msg_def) =
      ⟨some { members := top.map (fun m => m.2.1.member),
              embedded_types := sections.map (fun s =>
                { type_name := s.name, members := s.members.map (fun m => m.2.1.member) }) },
        []⟩ := by
    simp [List.map_map, Function.comp_def, section_text.embedded, written_section.plain]
  refine ⟨h1.trans h2.symm, h2, ?_, h4.trans e⟩
  rw [h3, h4]
  exact e.symm ▸ (by
    simp [List.map_map, Function.comp_def, section_text.embedded, written_section.plain])

theorem std_msgs_prefix_dropped_witness :
    render_written_definition [] sample_written_top sample_written_sections =
        bytes "std_msgs/Header header\nHeader[] history\n" ++ (List.replicate 80 61 ++
          bytes "\nMSG: std_msgs/Header\nuint32 seq\nstd_msgs/String frame_id\n") ∧
      (phrase_parse ros_msg_grammar.msg ros_msg_skipper.skip
          (bytes "std_msgs/" ++ (member_line.scalar (bytes "Header") (bytes "header")).render) =
        phrase_parse ros_msg_grammar.msg ros_msg_skipper.skip
          (member_line.scalar (bytes "Header") (bytes "header")).render ∧
      phrase_parse ros_msg_grammar.msg ros_msg_skipper.skip
          (member_line.scalar (bytes "Header") (bytes "header")).render =
        ⟨some { members := [(member_line.scalar (bytes "Header") (bytes "header")).member],
                embedded_types := [] }, []⟩ ∧
      phrase_parse ros_msg_grammar.msg ros_msg_skipper.skip
          (render_written_definition [] sample_written_top sample_written_sections) =
        phrase_parse ros_msg_grammar.msg ros_msg_skipper.skip
          (render_definition [] (sample_written_top.map Prod.snd)
            (sample_written_sections.map written_section.plain)) ∧
      phrase_parse ros_msg_grammar.msg ros_msg_skipper.skip
          (render_definition [] (sample_written_top.map Prod.snd)
            (sample_written_sections.map written_section.plain)) =
        ⟨some { members := sample_written_top.map (fun m => m.2.1.member),
                embedded_types := sample_written_sections.map (fun s =>
                  { type_name := s.name, members := s.members.map (fun m => m.2.1.member) }) },
          []⟩) :=
  ⟨by decide, std_msgs_prefix_dropped (member_line.scalar (bytes "Header") (bytes "header")) []
    sample_written_top sample_written_sections (by decide) (by decide) (by decide) (by decide)⟩

/-- C12 (counterexample): the prefix is dropped once. With the identifier `std_msgs/X` for `T`,
the member line of type `std_msgs/T` yields the type name `std_msgs/X` and the member line of
type `T` the type name `X`, and the section introduced by `MSG: std_msgs/T` yields the name
`std_msgs/X` and the section introduced by `MSG: T` the name `X`. -/
theorem nested_std_msgs_kept :
    is_ident (bytes "std_msgs/X") = true ∧
      phrase_parse ros_msg_grammar.msg ros_msg_skipper.skip (bytes "std_msgs/std_msgs/X y\n") =
        ⟨some { members := [.field { type_name := bytes "std_msgs/X", array_size := 0,
                                     field_name := bytes "y" }],
                embedded_types := [] }, []⟩ ∧
      phrase_parse ros_msg_grammar.msg ros_msg_skipper.skip (bytes "std_msgs/X y\n") =
        ⟨some { members := [.field { type_name := bytes "X", array_size := 0,
                                     field_name := bytes "y" }],
                embedded_types := [] }, []⟩ ∧
      phrase_parse ros_msg_grammar.msg ros_msg_skipper.skip
          (bytes "int32 a\nMSG: std_msgs/std_msgs/X\nint32 y\n") =
        ⟨some { members := [.field { type_name := bytes "int32", array_size := 0,
                                     field_name := bytes "a" }],
                embedded_types := [⟨bytes "std_msgs/X",
                  [.field { type_name := bytes "int32", array_size := 0,
                            field_name := bytes "y" }]⟩] }, []⟩ ∧
      phrase_parse ros_msg_grammar.msg ros_msg_skipper.skip
          (bytes "int32 a\nMSG: std_msgs/X\nint32 y\n") =
        ⟨some { members := [.field { type_name := bytes "int32", array_size := 0,
                                     field_name := bytes "a" }],
                embedded_types := [⟨bytes "X",
                  [.field { type_name := bytes "int32", array_size := 0,
                            field_name := bytes "y" }]⟩] }, []⟩ := by
  decide

/-! ## The CHUNK_INFO case -/

theorem find_chunk_none (p : Nat) (cs : List chunk_t) :
    find_chunk p cs = none ↔ ∀ c ∈ cs, c.offset ≠ p := by
  induction cs with
  | nil => simp [find_chunk]
  | cons c cs ih =>
    simp only [find_chunk, List.mem_cons, forall_eq_or_imp]
    split_ifs with h
    · simp [h]
    · simp [h, ih]

theorem find_chunk_some (p : Nat) (cs : List chunk_t) (i : Nat) (h : find_chunk p cs = some i) :
    ∃ c, cs[i]? = some c ∧ c.offset = p ∧
      ∀ j c', j < i → cs[j]? = some c' → c'.offset ≠ p := by
  induction cs generalizing i with
  | nil => simp [find_chunk] at h
  | cons c cs ih =>
    simp only [find_chunk] at h
    split_ifs at h with hc
    · cases h
      exact ⟨c, by simp, hc, fun j c' hj => by omega⟩
    · simp only [Option.map_eq_some'] at h
      obtain ⟨i', hi', rfl⟩ := h
      obtain ⟨c0, h1, h2, h3⟩ := ih i' hi'
      refine ⟨c0, by simpa using h1, h2, ?_⟩
      intro j c' hj hget
      cases j with
      | zero =>
        simp only [List.getElem?_cons_zero, Option.some.injEq] at hget
        subst hget
        exact hc
      | succ j =>
        simp only [List.getElem?_cons_succ] at hget
        exact h3 j c' (by omega) hget

theorem modify_eq_set_of_get {α : Type} (f : α → α) (l : List α) (i : Nat) (a : α)
    (h : l[i]? = some a) : List.modify f i l = l.set i (f a) := by
  rw [List.modify_eq_set_get?, List.get?_eq_getElem?, h]
  rfl

/-- C14: for a CHUNK_INFO record that carries its five fields, in every state of the scan:
the case fails with the error `Unable to find chunk for chunk info at pos: ` exactly when no
chunk of the chunk table has the offset `chunk_pos`, and then the bag is unchanged; otherwise
the info of the first chunk with that offset becomes the `start_time`, `end_time` and `count`
of the record, and every other chunk, the connection table and the topic map are unchanged. -/
theorem chunk_info_sets_or_fails (self : Embag) (header : header_t)
    (ver chunk_pos start_time end_time count : Nat)
    (hver : header.getUInt "ver" 4 = .ok ver)
    (hpos : header.getUInt "chunk_pos" 8 = .ok chunk_pos)
    (hstart : header.getUInt "start_time" 8 = .ok start_time)
    (hend : header.getUInt "end_time" 8 = .ok end_time)
    (hcount : header.getUInt "count" 4 = .ok count) :
    ((∃ e, (readRecords_CHUNK_INFO self header).1 = some e) ↔
        ∀ c ∈ self.chunks_, c.offset ≠ chunk_pos) ∧
      ((∀ c ∈ self.chunks_, c.offset ≠ chunk_pos) →
        readRecords_CHUNK_INFO self header =
          (some (.runtime_error "Unable to find chunk for chunk info at pos: "
            (to_string chunk_pos)), self)) ∧
      ((∃ c ∈ self.chunks_, c.offset = chunk_pos) →
        ∃ i c, self.chunks_[i]? = some c ∧ c.offset = chunk_pos ∧
          (∀ j c', j < i → self.chunks_[j]? = some c' → c'.offset ≠ chunk_pos) ∧
          readRecords_CHUNK_INFO self header =
            (none, { self with
              chunks_ := self.chunks_.set i { c with info := ⟨start_time, end_time, count⟩ } }))
    := by
  have hnone : (∀ c ∈ self.chunks_, c.offset ≠ chunk_pos) →
      readRecords_CHUNK_INFO self header =
        (some (.runtime_error "Unable to find chunk for chunk info at pos: "
          (to_string chunk_pos)), self) := by
    intro h
    have hf := (find_chunk_none chunk_pos self.chunks_).2 h
    simp only [readRecords_CHUNK_INFO, hver, hpos, hstart, hend, hcount, hf]
  have hsome : (∃ c ∈ self.chunks_, c.offset = chunk_pos) →
      ∃ i c, self.chunks_[i]? = some c ∧ c.offset = chunk_pos ∧
        (∀ j c', j < i → self.chunks_[j]? = some c' → c'.offset ≠ chunk_pos) ∧
        readRecords_CHUNK_INFO self header =
          (none, { self with
            chunks_ := self.chunks_.set i { c with info := ⟨start_time, end_time, count⟩ } })
      := by
    intro h
    rcases hf : find_chunk chunk_pos self.chunks_ with _ | i
    · obtain ⟨c, hc, hoff⟩ := h
      exact absurd hoff ((find_chunk_none chunk_pos self.chunks_).1 hf c hc)
    · obtain ⟨c, h1, h2, h3⟩ := find_chunk_some chunk_pos self.chunks_ i hf
      refine ⟨i, c, h1, h2, h3, ?_⟩
      simp only [readRecords_CHUNK_INFO, hver, hpos, hstart, hend, hcount, hf]
      rw [modify_eq_set_of_get _ _ i c h1]
  refine ⟨⟨?_, fun h => ⟨_, congrArg Prod.fst (hnone h)⟩⟩, hnone, hsome⟩
  rintro ⟨e, he⟩ c hc hoff
  obtain ⟨i, c', _, _, _, heq⟩ := hsome ⟨c, hc, hoff⟩
  rw [heq] at he
  cases he

theorem chunk_info_sets_or_fails_witness :
    ((∃ e, (readRecords_CHUNK_INFO sample_indexed_scan (sample_chunk_info_header 90)).1 =
          some e) ↔ ∀ c ∈ sample_indexed_scan.chunks_, c.offset ≠ 90) ∧
      ((∀ c ∈ sample_indexed_scan.chunks_, c.offset ≠ 90) →
        readRecords_CHUNK_INFO sample_indexed_scan (sample_chunk_info_header 90) =
          (some (.runtime_error "Unable to find chunk for chunk info at pos: " (to_string 90)),
            sample_indexed_scan)) ∧
      ((∃ c ∈ sample_indexed_scan.chunks_, c.offset = 90) →
        ∃ i c, sample_indexed_scan.chunks_[i]? = some c ∧ c.offset = 90 ∧
          (∀ j c', j < i → sample_indexed_scan.chunks_[j]? = some c' → c'.offset ≠ 90) ∧
          readRecords_CHUNK_INFO sample_indexed_scan (sample_chunk_info_header 90) =
            (none, { sample_indexed_scan with
              chunks_ := sample_indexed_scan.chunks_.set i { c with info := ⟨5, 9, 2⟩ } })) :=
  chunk_info_sets_or_fails sample_indexed_scan (sample_chunk_info_header 90) 1 90 5 9 2
    (by decide) (by decide) (by decide) (by decide) (by decide)

/-! ## Decompression -/

theorem decompressLz4Chunk_after_succ {σ : Type} (lz : lz4_library σ) (src : List Nat)
    (st : lz4_state σ) (k : Nat) :
    decompressLz4Chunk_after lz src st (k + 1) =
      decompressLz4Chunk_after lz src (decompressLz4Chunk_next lz src st) k := by
  simp only [decompressLz4Chunk_after, Function.iterate_succ_apply]

theorem decompressLz4Chunk_loop_running {σ : Type} (lz : lz4_library σ) (src : List Nat)
    (st : lz4_state σ) (fuel : Nat) (h : decompressLz4Chunk_running lz src st) :
    decompressLz4Chunk_loop lz src (fuel + 1) st =
      decompressLz4Chunk_loop lz src fuel (decompressLz4Chunk_next lz src st) := by
  obtain ⟨h1, h2, h3⟩ := h
  rw [decompressLz4Chunk_loop]
  simp only [h1, h2, h3, ne_eq, not_false_eq_true, and_self, if_true, Bool.false_eq_true,
    if_false]

/-- The loop run for `n` iterations that go on. -/
theorem decompressLz4Chunk_loop_after {σ : Type} (lz : lz4_library σ) (src : List Nat) :
    ∀ (n fuel : Nat) (st : lz4_state σ),
      (∀ k < n, decompressLz4Chunk_running lz src (decompressLz4Chunk_after lz src st k)) →
      decompressLz4Chunk_loop lz src (fuel + n) st =
        decompressLz4Chunk_loop lz src fuel (decompressLz4Chunk_after lz src st n) := by
  intro n
  induction n with
  | zero => intro fuel st _; rfl
  | succ n ih =>
    intro fuel st h
    have h0 : decompressLz4Chunk_running lz src st := h 0 (by omega)
    rw [← Nat.add_assoc, decompressLz4Chunk_loop_running lz src st (fuel + n) h0,
      ih fuel _ (fun k hk => by
        rw [← decompressLz4Chunk_after_succ]
        exact h (k + 1) (by omega)),
      decompressLz4Chunk_after_succ]

/-- A run that returns `true` went on until both counters were zero. -/
theorem decompressLz4Chunk_loop_ok {σ : Type} (lz : lz4_library σ) (src : List Nat) :
    ∀ (fuel : Nat) (st st' : lz4_state σ),
      decompressLz4Chunk_loop lz src fuel st = some (.ok true, st') →
      ∃ n, n < fuel ∧
        (∀ k < n, decompressLz4Chunk_running lz src (decompressLz4Chunk_after lz src st k)) ∧
        decompressLz4Chunk_after lz src st n = st' ∧
        st'.src_bytes_left = 0 ∧ st'.dst_bytes_left = 0 := by
  intro fuel
  induction fuel with
  | zero => intro st st' h; simp [decompressLz4Chunk_loop] at h
  | succ fuel ih =>
    intro st st' h
    rw [decompressLz4Chunk_loop] at h
    by_cases h1 : st.dst_bytes_left ≠ 0 ∧ st.src_bytes_left ≠ 0
    · rw [if_pos h1] at h
      simp only at h
      by_cases h2 : lz.LZ4F_isError (decompressLz4Chunk_call lz src st).ret = true
      · rw [if_pos h2] at h
        simp at h
      · rw [if_neg h2] at h
        obtain ⟨n, hn, hrun, hst, hz⟩ := ih _ st' h
        refine ⟨n + 1, by omega, ?_, by rw [decompressLz4Chunk_after_succ]; exact hst, hz⟩
        intro k hk
        cases k with
        | zero => exact ⟨h1.1, h1.2, by simpa using h2⟩
        | succ k =>
          rw [decompressLz4Chunk_after_succ]
          exact hrun k (by omega)
    · rw [if_neg h1] at h
      by_cases h3 : st.src_bytes_left ≠ 0 ∨ st.dst_bytes_left ≠ 0
      · rw [if_pos h3] at h
        simp at h
      · rw [if_neg h3] at h
        simp only [Option.some.injEq, Prod.mk.injEq, true_and] at h
        subst h
        refine ⟨0, by omega, fun k hk => by omega, rfl, ?_⟩
        simp only [ne_eq, not_or, not_not] at h3
        exact h3

theorem size_sub_le (a b : Nat) (ha : a < 2 ^ 64) (hb : b ≤ a) : size_sub a b = a - b := by
  unfold size_sub
  rw [Nat.mod_eq_of_lt (by omega : b < 2 ^ 64)]
  have : a + 2 ^ 64 - b = (a - b) + 2 ^ 64 := by omega
  rw [this, Nat.add_mod_right, Nat.mod_eq_of_lt (by omega)]

/-- With a library that stays within the bounds offered, an iteration takes from the counters
what the call consumed and produced. -/
theorem decompressLz4Chunk_next_counters {σ : Type} (lz : lz4_library σ) (src : List Nat)
    (st : lz4_state σ) (H : lz4_within_bounds lz) (hs : st.src_bytes_left < 2 ^ 64)
    (hd : st.dst_bytes_left < 2 ^ 64) :
    (decompressLz4Chunk_next lz src st).src_bytes_left + 
        (decompressLz4Chunk_call lz src st).src_bytes_read = st.src_bytes_left ∧
      (decompressLz4Chunk_next lz src st).dst_bytes_left +
        (decompressLz4Chunk_call lz src st).written.length = st.dst_bytes_left := by
  obtain ⟨h1, h2⟩ := H st.ctx st.dst_bytes_left (src.take st.src_bytes_left)
  have h1' : (decompressLz4Chunk_call lz src st).src_bytes_read ≤ st.src_bytes_left := by
    refine le_trans h1 ?_
    rw [List.length_take]
    exact Nat.min_le_left _ _
  have h2' : (decompressLz4Chunk_call lz src st).written.length ≤ st.dst_bytes_left := h2
  simp only [decompressLz4Chunk_next]
  rw [size_sub_le _ _ hs h1', size_sub_le _ _ hd h2']
  omega

/-- With a library that makes progress within the bounds offered, the loop ends within
`src_bytes_left + dst_bytes_left` iterations. -/
theorem decompressLz4Chunk_loop_ends {σ : Type} (lz : lz4_library σ) (src : List Nat)
    (H : lz4_within_bounds lz) (P : lz4_progress lz) :
    ∀ (m : Nat) (st : lz4_state σ), st.src_bytes_left + st.dst_bytes_left ≤ m →
      st.src_bytes_left ≤ src.length → st.src_bytes_left < 2 ^ 64 → st.dst_bytes_left < 2 ^ 64 →
      (decompressLz4Chunk_loop lz src (m + 1) st).isSome = true := by
  intro m
  induction m with
  | zero =>
    intro st hm _ _ _
    have h1 : st.src_bytes_left = 0 := by omega
    have h2 : st.dst_bytes_left = 0 := by omega
    rw [decompressLz4Chunk_loop]
    simp [h1, h2]
  | succ m ih =>
    intro st hm hsrc hs hd
    rw [decompressLz4Chunk_loop]
    by_cases h1 : st.dst_bytes_left ≠ 0 ∧ st.src_bytes_left ≠ 0
    · rw [if_pos h1]
      simp only
      by_cases h2 : lz.LZ4F_isError (decompressLz4Chunk_call lz src st).ret = true
      · rw [if_pos h2]; rfl
      · rw [if_neg h2]
        obtain ⟨c1, c2⟩ := decompressLz4Chunk_next_counters lz src st H hs hd
        have hlen : 0 < (src.take st.src_bytes_left).length := by
          rw [List.length_take]
          omega
        have hp := P st.ctx st.dst_bytes_left (src.take st.src_bytes_left)
          (Nat.pos_of_ne_zero h1.1) hlen
        have hp' : 0 < (decompressLz4Chunk_call lz src st).src_bytes_read +
            (decompressLz4Chunk_call lz src st).written.length := hp
        exact ih _ (by omega) (by omega) (by omega) (by omega)
    · rw [if_neg h1]
      by_cases h3 : st.src_bytes_left ≠ 0 ∨ st.dst_bytes_left ≠ 0
      · rw [if_pos h3]; rfl
      · rw [if_neg h3]; rfl

theorem decompressLz4Chunk_after_bounds {σ : Type} (lz : lz4_library σ) (src : List Nat)
    (H : lz4_within_bounds lz) (st : lz4_state σ) (hs : st.src_bytes_left < 2 ^ 64)
    (hd : st.dst_bytes_left < 2 ^ 64) :
    ∀ n, (decompressLz4Chunk_after lz src st n).src_bytes_left ≤ st.src_bytes_left ∧
      (decompressLz4Chunk_after lz src st n).dst_bytes_left ≤ st.dst_bytes_left := by
  intro n
  induction n generalizing st with
  | zero => exact ⟨le_refl _, le_refl _⟩
  | succ n ih =>
    rw [decompressLz4Chunk_after_succ]
    obtain ⟨c1, c2⟩ := decompressLz4Chunk_next_counters lz src st H hs hd
    obtain ⟨i1, i2⟩ := ih (decompressLz4Chunk_next lz src st) (by omega) (by omega)
    exact ⟨by omega, by omega⟩

theorem sample_lz4_within_bounds (step : Nat) : lz4_within_bounds (sample_lz4 step) := by
  intro ctx capacity s
  simp only [sample_lz4, List.length_take]
  omega

/-- C18: with a library whose calls consume at most the source bytes offered and produce at most
the destination bytes offered, `decompressLz4Chunk` returns `true` exactly when its loop goes
on, no call reporting an error, until both counters are zero; when the loop ends with exactly
one counter at zero it throws the error `lz4 decompression left`, and a call that reports an
error code makes it throw the error `lz4 decompression returned` at that call. The counters
never exceed the sizes given, and when every call makes progress the function returns or throws
within `src_size + dst_size + 1` iterations. -/
theorem decompressLz4Chunk_outcome {σ : Type} (lz : lz4_library σ) (ctx : σ)
    (src dst : List Nat) (src_size dst_size : Nat) (H : lz4_within_bounds lz)
    (hs : src_size < 2 ^ 64) (hd : dst_size < 2 ^ 64) :
    (∀ fuel st, decompressLz4Chunk lz fuel ctx src src_size dst dst_size = some (.ok true, st) →
        ∃ n, n < fuel ∧
          (∀ k < n, decompressLz4Chunk_running lz src (decompressLz4Chunk_after lz src
            (decompressLz4Chunk_start ctx dst src_size dst_size) k)) ∧
          decompressLz4Chunk_after lz src (decompressLz4Chunk_start ctx dst src_size dst_size) n
            = st ∧ st.src_bytes_left = 0 ∧ st.dst_bytes_left = 0) ∧
      (∀ n st, (∀ k < n, decompressLz4Chunk_running lz src (decompressLz4Chunk_after lz src
            (decompressLz4Chunk_start ctx dst src_size dst_size) k)) →
          decompressLz4Chunk_after lz src (decompressLz4Chunk_start ctx dst src_size dst_size) n
            = st →
        (st.src_bytes_left = 0 ∧ st.dst_bytes_left = 0 →
          ∀ fuel, n < fuel →
            decompressLz4Chunk lz fuel ctx src src_size dst dst_size = some (.ok true, st)) ∧
        ((st.src_bytes_left = 0 ∧ st.dst_bytes_left ≠ 0) ∨
            (st.src_bytes_left ≠ 0 ∧ st.dst_bytes_left = 0) →
          ∀ fuel, n < fuel →
            decompressLz4Chunk lz fuel ctx src src_size dst dst_size =
              some (.error (.runtime_error "chunk::decompress: lz4 decompression left "
                (to_string st.src_bytes_left ++ bytes "/" ++ to_string st.dst_bytes_left ++
                  bytes " bytes in buffer")), st)) ∧
        (st.src_bytes_left ≠ 0 ∧ st.dst_bytes_left ≠ 0 ∧
            lz.LZ4F_isError (decompressLz4Chunk_call lz src st).ret = true →
          ∀ fuel, n < fuel →
            ∃ st', decompressLz4Chunk lz fuel ctx src src_size dst dst_size =
              some (.error (.runtime_error "chunk::decompress: lz4 decompression returned "
                (to_string (decompressLz4Chunk_call lz src st).ret ++ bytes ", expected " ++
                  to_string (decompressLz4Chunk_call lz src st).src_bytes_read)), st')) ∧
        st.src_bytes_left ≤ src_size ∧ st.dst_bytes_left ≤ dst_size) ∧
      (lz4_progress lz → src_size ≤ src.length →
        (decompressLz4Chunk lz (src_size + dst_size + 1) ctx src src_size dst dst_size).isSome
          = true) := by
  have e1 : (decompressLz4Chunk_start ctx dst src_size dst_size).src_bytes_left = src_size :=
    Nat.mod_eq_of_lt hs
  have e2 : (decompressLz4Chunk_start ctx dst src_size dst_size).dst_bytes_left = dst_size :=
    Nat.mod_eq_of_lt hd
  refine ⟨?_, ?_, ?_⟩
  · intro fuel st h
    exact decompressLz4Chunk_loop_ok lz src fuel _ st h
  · intro n st hrun hst
    have hloop : ∀ fuel, n < fuel →
        decompressLz4Chunk lz fuel ctx src src_size dst dst_size =
          decompressLz4Chunk_loop lz src (fuel - n - 1 + 1) st := by
      intro fuel hf
      have := decompressLz4Chunk_loop_after lz src n (fuel - n - 1 + 1) _ hrun
      rw [hst] at this
      rw [← this]
      unfold decompressLz4Chunk
      congr 1
      omega
    have hb := decompressLz4Chunk_after_bounds lz src H
      (decompressLz4Chunk_start ctx dst src_size dst_size) (by rw [e1]; exact hs)
      (by rw [e2]; exact hd) n
    rw [hst, e1, e2] at hb
    refine ⟨?_, ?_, ?_, hb⟩
    · rintro ⟨h1, h2⟩ fuel hf
      rw [hloop fuel hf, decompressLz4Chunk_loop]
      simp [h1, h2]
    · intro h fuel hf
      rw [hloop fuel hf, decompressLz4Chunk_loop]
      rcases h with ⟨h1, h2⟩ | ⟨h1, h2⟩ <;> simp [h1, h2]
    · rintro ⟨h1, h2, h3⟩ fuel hf
      rw [hloop fuel hf, decompressLz4Chunk_loop]
      simp only [h1, h2, ne_eq, not_false_eq_true, and_self, if_true, h3]
      exact ⟨_, rfl⟩
  · intro P hsrc
    unfold decompressLz4Chunk
    exact decompressLz4Chunk_loop_ends lz src H P (src_size + dst_size) _
      (by rw [e1, e2]) (by rw [e1]; exact hsrc) (by rw [e1]; exact hs) (by rw [e2]; exact hd)

theorem decompressLz4Chunk_outcome_witness :
    decompressLz4Chunk (sample_lz4 8) 5 () [7, 8, 9] 3 [0, 0, 0] 3 =
        some (.ok true, { ctx := (), dst := [7, 8, 9], src_bytes_left := 0,
                          dst_bytes_left := 0 }) ∧
      decompressLz4Chunk (sample_lz4 8) 5 () [7, 8, 9] 3 [0, 0, 0, 0] 4 =
        some (.error (.runtime_error "chunk::decompress: lz4 decompression left "
          (bytes "0/1 bytes in buffer")),
          { ctx := (), dst := [7, 8, 9, 0], src_bytes_left := 0, dst_bytes_left := 1 }) :=
  ⟨((decompressLz4Chunk_outcome (sample_lz4 8) () [7, 8, 9] [0, 0, 0] 3 3
      (sample_lz4_within_bounds 8) (by decide) (by decide)).2.1 1
      { ctx := (), dst := [7, 8, 9], src_bytes_left := 0, dst_bytes_left := 0 }
      (by
        intro k hk
        have hk0 : k = 0 := by omega
        subst hk0
        unfold decompressLz4Chunk_running
        decide)
      (by decide)).1 ⟨rfl, rfl⟩ 5 (by decide),
    by decide⟩

/-- C19 (a defect of the code): with a library that copies one byte in a call, the source
`[1, 2]` and a destination of two bytes, `decompressLz4Chunk` returns `true`; its second call
is offered the source from offset 0 again, not from the byte consumed so far, and stores at
offset 0 of the destination again, which is left holding `[1, 0]` and neither the source bytes
nor the outputs of the two calls in order. -/
theorem decompressLz4Chunk_calls_restart :
    decompressLz4Chunk (sample_lz4 1) 3 () [1, 2] 2 [0, 0] 2 =
        some (.ok true, { ctx := (), dst := [1, 0], src_bytes_left := 0,
                          dst_bytes_left := 0 }) ∧
      (decompressLz4Chunk_call (sample_lz4 1) [1, 2]
        (decompressLz4Chunk_start () [0, 0] 2 2)).written = [1] ∧
      (decompressLz4Chunk_call (sample_lz4 1) [1, 2]
        (decompressLz4Chunk_after (sample_lz4 1) [1, 2]
          (decompressLz4Chunk_start () [0, 0] 2 2) 1)).written = [1] := by
  decide

/-! ## The iterations of the scan -/

theorem Stream.read_data (s : Stream) (n : Nat) : (s.read n).2.data = s.data := by
  unfold Stream.read; split_ifs <;> rfl

theorem Stream.seekg_data (s : Stream) (n : Nat) : (s.seekg n).data = s.data := by
  unfold Stream.seekg; split_ifs <;> rfl

theorem readRecord_data (s : Stream) : (readRecord s).2.data = s.data := by
  simp only [readRecord, Stream.seekg_data, Stream.read_data]

theorem overwrite_full (b : List Nat) (h : b.length = 4) : overwrite [0, 0, 0, 0] b = b := by
  simp [overwrite, h]

theorem Stream.read_ok (s : Stream) (n : Nat) (hf : s.failed = false)
    (h : s.pos + n ≤ s.data.length) :
    s.read n = ((s.data.drop s.pos).take n, { s with pos := s.pos + n }) := by
  unfold Stream.read
  simp [hf, h]

theorem Stream.read_short (s : Stream) (n : Nat) (hf : s.failed = false)
    (h : ¬ s.pos + n ≤ s.data.length) : (s.read n).2.failed = true := by
  unfold Stream.read
  simp [hf, h]

theorem Stream.read_failed (s : Stream) (n : Nat) (hf : s.failed = true) :
    (s.read n).2.failed = true := by
  unfold Stream.read
  simp [hf]

theorem Stream.seekg_failed (s : Stream) (n : Nat) (hf : s.failed = true) :
    (s.seekg n).failed = true := by
  unfold Stream.seekg
  simp [hf]

theorem Stream.seekg_ok (s : Stream) (n : Nat) (hf : s.failed = false)
    (h : s.pos + n ≤ s.data.length) : s.seekg n = { s with pos := s.pos + n } := by
  unfold Stream.seekg
  simp [hf, h]

theorem Stream.seekg_far (s : Stream) (n : Nat) (h : ¬ s.pos + n ≤ s.data.length) :
    (s.seekg n).failed = true := by
  unfold Stream.seekg
  split_ifs with h1
  · exact h1
  · rfl

theorem readRecord_snd (s : Stream) :
    (readRecord s).2 =
      ((((s.read 4).2.seekg (le_decode (overwrite [0, 0, 0, 0] (s.read 4).1))).read 4).2).seekg
        (le_decode (overwrite [0, 0, 0, 0]
          (((s.read 4).2.seekg (le_decode (overwrite [0, 0, 0, 0] (s.read 4).1))).read 4).1)) :=
  rfl

theorem peek_u32_read (d : List Nat) (p : Nat) (h : p + 4 ≤ d.length) :
    le_decode (overwrite [0, 0, 0, 0] ((d.drop p).take 4)) = peek_u32 d p := by
  rw [overwrite_full _ (by simp; omega)]
  rfl

/-- A stream that has not failed is left by `readRecord` without failure exactly when a whole
record fits, and then the cursor stands behind the record. -/
theorem readRecord_failed_iff (s : Stream) (hf : s.failed = false) :
    ((readRecord s).2.failed = false ↔ record_fits s = true) ∧
      ((readRecord s).2.failed = false →
        (readRecord s).2.pos = s.pos + 4 + peek_u32 s.data s.pos + 4 +
          peek_u32 s.data (s.pos + 4 + peek_u32 s.data s.pos)) := by
  obtain ⟨o, d, p, f⟩ := s
  simp only at hf
  subst hf
  rw [readRecord_snd]
  simp only [record_fits]
  by_cases h1 : p + 4 ≤ d.length
  · have e1 : Stream.read ⟨o, d, p, false⟩ 4 = ((d.drop p).take 4, ⟨o, d, p + 4, false⟩) :=
      Stream.read_ok _ 4 rfl h1
    rw [e1]
    simp only [peek_u32_read d p h1]
    by_cases h2 : p + 4 + peek_u32 d p ≤ d.length
    · have e2 : Stream.seekg ⟨o, d, p + 4, false⟩ (peek_u32 d p) =
          ⟨o, d, p + 4 + peek_u32 d p, false⟩ := Stream.seekg_ok _ _ rfl h2
      rw [e2]
      by_cases h3 : p + 4 + peek_u32 d p + 4 ≤ d.length
      · have e3 : Stream.read ⟨o, d, p + 4 + peek_u32 d p, false⟩ 4 =
            ((d.drop (p + 4 + peek_u32 d p)).take 4, ⟨o, d, p + 4 + peek_u32 d p + 4, false⟩) :=
          Stream.read_ok _ 4 rfl h3
        rw [e3]
        simp only [peek_u32_read d _ h3]
        by_cases h4 : p + 4 + peek_u32 d p + 4 + peek_u32 d (p + 4 + peek_u32 d p) ≤ d.length
        · have e4 : Stream.seekg ⟨o, d, p + 4 + peek_u32 d p + 4, false⟩
              (peek_u32 d (p + 4 + peek_u32 d p)) =
              ⟨o, d, p + 4 + peek_u32 d p + 4 + peek_u32 d (p + 4 + peek_u32 d p), false⟩ :=
            Stream.seekg_ok _ _ rfl h4
          rw [e4]
          simp [h1, h3, h4]
        · have hfail := Stream.seekg_far ⟨o, d, p + 4 + peek_u32 d p + 4, false⟩
            (peek_u32 d (p + 4 + peek_u32 d p)) h4
          simp [hfail, h4]
      · have hfail := Stream.seekg_failed _
          (le_decode (overwrite [0, 0, 0, 0]
            ((Stream.read ⟨o, d, p + 4 + peek_u32 d p, false⟩ 4).1)))
          (Stream.read_short ⟨o, d, p + 4 + peek_u32 d p, false⟩ 4 rfl h3)
        simp [hfail, h3]
    · have hfail1 := Stream.seekg_far ⟨o, d, p + 4, false⟩ (peek_u32 d p) h2
      have hfail := Stream.seekg_failed _
        (le_decode (overwrite [0, 0, 0, 0]
          ((Stream.read (Stream.seekg ⟨o, d, p + 4, false⟩ (peek_u32 d p)) 4).1)))
        (Stream.read_failed _ 4 hfail1)
      have h3 : ¬ p + 4 + peek_u32 d p + 4 ≤ d.length := by omega
      simp [hfail, h3]
  · have hfail0 := Stream.read_short ⟨o, d, p, false⟩ 4 rfl h1
    have hfail := Stream.seekg_failed
      (Stream.read (Stream.seekg (Stream.read ⟨o, d, p, false⟩ 4).2
        (le_decode (overwrite [0, 0, 0, 0] (Stream.read ⟨o, d, p, false⟩ 4).1))) 4).2
      (le_decode (overwrite [0, 0, 0, 0]
        ((Stream.read (Stream.seekg (Stream.read ⟨o, d, p, false⟩ 4).2
          (le_decode (overwrite [0, 0, 0, 0] (Stream.read ⟨o, d, p, false⟩ 4).1))) 4).1)))
      (Stream.read_failed _ 4 (Stream.seekg_failed _ _ hfail0))
    simp [hfail, h1]

/-- The step that an iteration from the bag `self` makes when it reaches the switch with the
header `header` and the opcode `op`. -/
theorem readRecords_iteration (fuel : Nat) (self : Embag) :
    ((self.bag_stream_.tellg = -1 ∨
        self.bag_stream_.tellg = (self.bag_stream_.data.length : Int)) ∧
      readRecords_steps (fuel + 1) self = [] ∧ readRecords_loop (fuel + 1) self = (none, self)) ∨
    (¬ (self.bag_stream_.tellg = -1 ∨
        self.bag_stream_.tellg = (self.bag_stream_.data.length : Int)) ∧
      ((∃ e, readRecords_steps (fuel + 1) self = [] ∧
          readRecords_loop (fuel + 1) self =
            (some e, { self with bag_stream_ := (readRecord self.bag_stream_).2 })) ∨
        ∃ header op, ∃ st : scan_step,
          st = { self := { self with bag_stream_ := (readRecord self.bag_stream_).2 },
                 pos := self.bag_stream_.tellg, record := (readRecord self.bag_stream_).1,
                 header := header, op := op } ∧
          readHeader self.bag_stream_.data (readRecord self.bag_stream_).1 = .ok header ∧
          header.getOp = .ok op ∧
          ((∃ e b, st.result = (some e, b) ∧ readRecords_steps (fuel + 1) self = [st] ∧
              readRecords_loop (fuel + 1) self = (some e, b)) ∨
            ∃ b, st.result = (none, b) ∧
              readRecords_steps (fuel + 1) self = st :: readRecords_steps fuel b ∧
              readRecords_loop (fuel + 1) self = readRecords_loop fuel b))) := by
  by_cases hstop : self.bag_stream_.tellg = -1 ∨
      self.bag_stream_.tellg = (self.bag_stream_.data.length : Int)
  · left
    refine ⟨hstop, ?_, ?_⟩
    · rw [readRecords_steps]; simp only [hstop, if_true]
    · rw [readRecords_loop]; simp only [hstop, if_true]
  · right
    refine ⟨hstop, ?_⟩
    have hdata : (readRecord self.bag_stream_).2.data = self.bag_stream_.data :=
      readRecord_data _
    rcases hh : readHeader self.bag_stream_.data (readRecord self.bag_stream_).1 with e | header
    · left
      refine ⟨e, ?_, ?_⟩
      · rw [readRecords_steps]; simp only [hstop, if_false, hdata, hh]
      · rw [readRecords_loop]; simp only [hstop, if_false, hdata, hh]
    · rcases hop : header.getOp with e | op
      · left
        refine ⟨e, ?_, ?_⟩
        · rw [readRecords_steps]; simp only [hstop, if_false, hdata, hh, hop]
        · rw [readRecords_loop]; simp only [hstop, if_false, hdata, hh, hop]
      · right
        refine ⟨header, op, _, rfl, rfl, hop, ?_⟩
        rcases hsw : readRecords_switch { self with bag_stream_ := (readRecord self.bag_stream_).2 }
            self.bag_stream_.tellg (readRecord self.bag_stream_).1 header op with ⟨_ | e, b⟩
        · right
          refine ⟨b, hsw, ?_, ?_⟩
          · rw [readRecords_steps]; simp only [hstop, if_false, hdata, hh, hop, hsw]
          · rw [readRecords_loop]; simp only [hstop, if_false, hdata, hh, hop, hsw]
        · left
          refine ⟨e, b, hsw, ?_, ?_⟩
          · rw [readRecords_steps]; simp only [hstop, if_false, hdata, hh, hop, hsw]
          · rw [readRecords_loop]; simp only [hstop, if_false, hdata, hh, hop, hsw]

/-- What the switch has done when it raises nothing. -/
theorem readRecords_switch_ok (self : Embag) (pos : Int) (record : record_t) (header : header_t)
    (op : Nat) (b : Embag) (h : readRecords_switch self pos record header op = (none, b)) :
    (op = header_t.op.BAG_HEADER ∧ ∃ n index_pos, header.getUInt "conn_count" 4 = .ok n ∧
        b = { self with
          connections_ := resize self.connections_ n connection_record_t.init,
          index_pos_ := index_pos,
          topic_connection_map_ := self.topic_connection_map_.map (fun kv =>
            (kv.1, kv.2.resized self.connections_.length n)) }) ∨
    (op = header_t.op.CHUNK ∧ ∃ c : chunk_t, c.record = record ∧ c.offset = pos.toNat ∧
        b = { self with chunks_ := self.chunks_ ++ [c] }) ∨
    (op = header_t.op.INDEX_DATA ∧ ∃ conn c, header.getUInt "conn" 4 = .ok conn ∧
        self.chunks_ ≠ [] ∧ self.connections_[conn]? = some c ∧
        b = { self with
          connections_ := self.connections_.set conn
            { c with blocks := c.blocks ++ [⟨some (self.chunks_.length - 1)⟩] } }) ∨
    (op = header_t.op.CONNECTION ∧ (b = self ∨
        ∃ conn topic c data schemata, topic ≠ [] ∧ self.connections_[conn]? = some c ∧
          b = { self with
            connections_ :=
              self.connections_.set conn { c with id := conn, topic := topic, data := data },
            topic_connection_map_ := self.topic_connection_map_.assign topic ⟨conn, true⟩,
            message_schemata_ := schemata })) ∨
    (op = header_t.op.MESSAGE_DATA ∧ b = self) ∨
    (op = header_t.op.CHUNK_INFO ∧ ∃ i c info, self.chunks_[i]? = some c ∧
        b = { self with chunks_ := self.chunks_.set i { c with info := info } }) := by
  unfold readRecords_switch at h
  split_ifs at h with h1 h2 h3 h4 h5 h6
  · left
    refine ⟨h1, ?_⟩
    unfold readRecords_BAG_HEADER at h
    split at h
    · cases h
    · split at h
      · cases h
      · split at h
        · cases h
        · rename_i n hn _ _ _ _ ip _
          simp only [Prod.mk.injEq, true_and] at h
          exact ⟨n, ip, hn, h.symm⟩
  · right; left
    refine ⟨h2, ?_⟩
    unfold readRecords_CHUNK at h
    split at h
    · cases h
    · split at h
      · cases h
      · simp only [Prod.mk.injEq, true_and] at h
        exact ⟨_, rfl, rfl, h.symm⟩
  · right; right; left
    refine ⟨h3, ?_⟩
    unfold readRecords_INDEX_DATA at h
    split at h
    · cases h
    · split at h
      · cases h
      · split at h
        · cases h
        · split_ifs at h with he
          · cases h
          · simp only at h
            split at h
            · cases h
            · rename_i conn hconn _ _ _ _ c hc
              simp only [Prod.mk.injEq, true_and] at h
              refine ⟨conn, c, hconn, ?_, ?_, h.symm⟩
              · intro hnil
                rw [hnil] at he
                exact he rfl
              · simpa using hc
  · right; right; right; left
    refine ⟨h4, ?_⟩
    unfold readRecords_CONNECTION at h
    split at h
    · cases h
    · split at h
      · cases h
      · split_ifs at h with hempty
        · simp only [Prod.mk.injEq, true_and] at h
          exact Or.inl h.symm
        · split at h
          · cases h
          · split at h
            · cases h
            · split at h
              · cases h
              · rename_i _ conn _ _ topic _ _ fields _ _ cd _ _ self1 hreg
                right
                unfold readRecords_register at hreg
                split at hreg
                · cases hreg
                · rename_i c hc
                  simp only [Option.some.injEq] at hreg
                  unfold readRecords_parse_definition at h
                  generalize Qi.phrase_parse ros_msg_grammar.msg ros_msg_skipper.skip
                    cd.message_definition = r at h
                  obtain ⟨val, rest⟩ := r
                  have hne : topic ≠ [] := by
                    intro ht
                    rw [ht] at hempty
                    exact hempty rfl
                  cases val with
                  | none =>
                    simp only at h
                    split_ifs at h <;> cases h
                  | some ast =>
                    cases rest with
                    | nil =>
                      simp only [Prod.mk.injEq, true_and] at h
                      refine ⟨conn, topic, c, cd, self.message_schemata_.assign topic ast, hne,
                        by simpa using hc, ?_⟩
                      rw [← h, ← hreg]
                    | cons x xs =>
                      simp only at h
                      split_ifs at h <;> cases h
  · right; right; right; right; left
    simp only [Prod.mk.injEq, true_and] at h
    exact ⟨h5, h.symm⟩
  · right; right; right; right; right
    refine ⟨h6, ?_⟩
    unfold readRecords_CHUNK_INFO at h
    split at h
    · cases h
    · split at h
      · cases h
      · split at h
        · cases h
        · split at h
          · cases h
          · split at h
            · cases h
            · split at h
              · cases h
              · rename_i _ _ _ _ _ _ _ start_time _ _ end_time _ _ count _ _ i hi
                obtain ⟨c, hc, _, _⟩ := find_chunk_some _ _ i hi
                simp only [Prod.mk.injEq, true_and] at h
                refine ⟨i, c, ⟨start_time, end_time, count⟩, hc, ?_⟩
                rw [← h, modify_eq_set_of_get _ _ i c hc]
  · cases h

/-- A property of the course of a scan that raises nothing: it holds of a scan without
iterations, and goes over from the rest of a scan to the scan with one iteration before it. -/
theorem readRecords_run_induct (M : Embag → List scan_step → Embag → Prop)
    (hstop : ∀ self, M self [] self)
    (hstep : ∀ (self : Embag) (st : scan_step) (b : Embag) (steps : List scan_step)
      (b' : Embag),
      st.self = { self with bag_stream_ := (readRecord self.bag_stream_).2 } →
      st.pos = self.bag_stream_.tellg →
      ¬ (self.bag_stream_.tellg = -1 ∨
        self.bag_stream_.tellg = (self.bag_stream_.data.length : Int)) →
      st.record = (readRecord self.bag_stream_).1 →
      st.result = (none, b) → M b steps b' → M self (st :: steps) b') :
    ∀ (fuel : Nat) (self b' : Embag), readRecords_loop fuel self = (none, b') →
      M self (readRecords_steps fuel self) b' := by
  intro fuel
  induction fuel with
  | zero =>
    intro self b' h
    simp only [readRecords_loop, Prod.mk.injEq, true_and] at h
    subst h
    exact hstop self
  | succ fuel ih =>
    intro self b' h
    rcases readRecords_iteration fuel self with ⟨_, hs, hl⟩ | ⟨hgo, hcase⟩
    · rw [hl] at h
      simp only [Prod.mk.injEq, true_and] at h
      subst h
      rw [hs]
      exact hstop self
    · rcases hcase with ⟨e, _, hl⟩ | ⟨header, op, st, hst, _, _, hres⟩
      · rw [hl] at h
        cases h
      · rcases hres with ⟨e, b, _, _, hl⟩ | ⟨b, hr, hs, hl⟩
        · rw [hl] at h
          cases h
        · rw [hl] at h
          rw [hs]
          exact hstep self st b _ b' (by rw [hst]) (by rw [hst]) hgo (by rw [hst]) hr
            (ih b b' h)

/-- A successful `open` has scanned the file from offset 13 on. -/
theorem open_ok_scan (file : List Nat) (self b : Embag) (r : Bool)
    (h : open_ file self = (.ok r, b)) :
    readRecords { self with bag_stream_ := ⟨true, file, 13, false⟩ } = (none, b) := by
  have hm : bytes "#ROSBAG V2.0\n" = [35, 82, 79, 83, 66, 65, 71, 32, 86, 50, 46, 48, 10] := by
    decide
  have hM : MAGIC_STRING = [35, 82, 79, 83, 66, 65, 71, 32, 86] := by decide
  have h2 : bytes "2.0" = [50, 46, 48] := by decide
  have hn : bytes "\n" = [10] := by decide
  rcases file with _ | ⟨b0, _ | ⟨b1, _ | ⟨b2, _ | ⟨b3, _ | ⟨b4, _ | ⟨b5, _ | ⟨b6, _ | ⟨b7, _ |
    ⟨b8, _ | ⟨b9, _ | ⟨b10, _ | ⟨b11, _ | ⟨b12, rest⟩⟩⟩⟩⟩⟩⟩⟩⟩⟩⟩⟩⟩
  iterate 13
    · simp only [open_, Stream.opened, Stream.read, hM, h2, hn] at h
      simp only [overwrite, Stream.close, resize] at h
      simp at h
      try (split_ifs at h <;> simp_all <;> omega)
  · simp only [open_, Stream.opened, Stream.read, hM, h2, hn] at h
    simp only [overwrite, Stream.close, resize] at h
    simp at h
    split_ifs at h
    all_goals first
      | cases h
      | (split at h
         · cases h
         · rename_i b' heq
           simp only [Prod.mk.injEq, true_and] at h
           rw [← h.2, ← heq])

/-! ## Index blocks and connection ids -/

theorem blocks_of_resize (v : List connection_record_t) (n i : Nat) (h : v.length ≤ n) :
    blocks_of (resize v n connection_record_t.init) i = blocks_of v i := by
  unfold blocks_of resize
  rw [List.take_of_length_le h]
  simp only [List.get?_eq_getElem?]
  by_cases hi : i < v.length
  · rw [List.getElem?_append_left hi]
  · rw [List.getElem?_append_right (by omega), List.getElem?_eq_none (by omega : v.length ≤ i)]
    rw [List.getElem?_replicate]
    split_ifs <;> rfl

theorem blocks_of_set (v : List connection_record_t) (conn i : Nat) (c c' : connection_record_t)
    (hc : v[conn]? = some c) :
    blocks_of (v.set conn c') i = if i = conn then c'.blocks else blocks_of v i := by
  unfold blocks_of
  simp only [List.get?_eq_getElem?]
  have hlt : conn < v.length := by
    rcases Nat.lt_or_ge conn v.length with h | h
    · exact h
    · rw [List.getElem?_eq_none h] at hc
      cases hc
  by_cases hi : i = conn
  · subst hi
    rw [List.getElem?_set_eq_of_lt _ hlt]
    simp
  · rw [List.getElem?_set_ne (Ne.symm hi)]
    simp [hi]

/-- An iteration that raises nothing and does not shrink the connection table leaves the blocks
of every connection as they were, but for the block that an INDEX_DATA record appends. -/
theorem scan_step_blocks (st : scan_step) (b : Embag) (h : st.result = (none, b))
    (hk : st.keeps_connections = true) (i : Nat) :
    blocks_of b.connections_ i = blocks_of st.self.connections_ i ++ st.index_block i := by
  unfold scan_step.result at h
  rcases readRecords_switch_ok _ _ _ _ _ _ h with ⟨hop, n, ip, hn, rfl⟩ | ⟨hop, c, _, _, rfl⟩ |
    ⟨hop, conn, c, hconn, _, hc, rfl⟩ | ⟨hop, hb⟩ | ⟨hop, rfl⟩ | ⟨hop, j, c, info, _, rfl⟩
  · have hlen : st.self.connections_.length ≤ n := by
      simpa [scan_step.keeps_connections, hop, hn] using hk
    have hi : st.index_block i = [] := by
      simp [scan_step.index_block, hop, header_t.op.BAG_HEADER, header_t.op.INDEX_DATA]
    rw [hi, List.append_nil]
    exact blocks_of_resize _ n i hlen
  · have hi : st.index_block i = [] := by
      simp [scan_step.index_block, hop, header_t.op.CHUNK, header_t.op.INDEX_DATA]
    rw [hi, List.append_nil]
  · simp only
    rw [blocks_of_set _ conn i c _ hc]
    by_cases hi : i = conn
    · subst hi
      have hb : st.index_block i = [⟨some (st.self.chunks_.length - 1)⟩] := by
        simp [scan_step.index_block, hop, hconn]
      rw [hb, if_pos rfl]
      have : blocks_of st.self.connections_ i = c.blocks := by
        unfold blocks_of
        rw [List.get?_eq_getElem?, hc]
      rw [this]
    · have hb : st.index_block i = [] := by
        have : ¬ (Except.ok conn : Except Exn Nat) = .ok i := by
          intro he
          cases he
          exact hi rfl
        simp [scan_step.index_block, hconn, this]
      rw [hb, if_neg hi, List.append_nil]
  · have hi : st.index_block i = [] := by
      simp [scan_step.index_block, hop, header_t.op.CONNECTION, header_t.op.INDEX_DATA]
    rw [hi, List.append_nil]
    rcases hb with rfl | ⟨conn, topic, c, data, schemata, _, hc, rfl⟩
    · rfl
    · simp only
      rw [blocks_of_set _ conn i c _ hc]
      split_ifs with hic
      · subst hic
        unfold blocks_of
        rw [List.get?_eq_getElem?, hc]
      · rfl
  · have hi : st.index_block i = [] := by
      simp [scan_step.index_block, hop, header_t.op.MESSAGE_DATA, header_t.op.INDEX_DATA]
    rw [hi, List.append_nil]
  · have hi : st.index_block i = [] := by
      simp [scan_step.index_block, hop, header_t.op.CHUNK_INFO, header_t.op.INDEX_DATA]
    rw [hi, List.append_nil]

/-- The blocks after a scan that raises nothing and never shrinks the connection table. -/
theorem readRecords_blocks (fuel : Nat) (self b : Embag)
    (h : readRecords_loop fuel self = (none, b))
    (hk : ∀ st ∈ readRecords_steps fuel self, st.keeps_connections = true) (i : Nat) :
    blocks_of b.connections_ i = blocks_of self.connections_ i ++
      (readRecords_steps fuel self).flatMap (fun st => st.index_block i) := by
  have key := readRecords_run_induct
    (fun self steps b => (∀ st ∈ steps, st.keeps_connections = true) →
      blocks_of b.connections_ i = blocks_of self.connections_ i ++
        steps.flatMap (fun st => st.index_block i))
    (fun self _ => by simp)
    (fun self st b steps b' hself _ _ _ hres ih hall => by
      have h1 := scan_step_blocks st b hres (hall st (by simp)) i
      have h2 := ih (fun x hx => hall x (by simp [hx]))
      rw [h2, h1, hself]
      simp [List.flatMap_cons])
    fuel self b h
  exact key hk

/-- C13 (amended): an INDEX_DATA record that carries its fields, is scanned when the chunk table
is not empty and names a connection id inside the connection table appends exactly one index
block to the block list of that connection, and the block refers to the last chunk of the chunk
table; the bag is otherwise unchanged. Hence after a successful scan in which no BAG_HEADER
record shrinks the connection table, the blocks of every connection are, in scan order, the
blocks of the INDEX_DATA records that named it, each referring to the chunk that was the last
one when its record was scanned, and none of them has a null chunk reference. -/
theorem index_data_appends_block (self : Embag) (header : header_t) (ver conn count : Nat)
    (c : connection_record_t) (file : List Nat) (b : Embag) (i : Nat)
    (hver : header.getUInt "ver" 4 = .ok ver) (hconn : header.getUInt "conn" 4 = .ok conn)
    (hcount : header.getUInt "count" 4 = .ok count) (hchunks : self.chunks_ ≠ [])
    (hc : self.connections_[conn]? = some c)
    (hopen : open_ file Embag.init = (.ok true, b))
    (hkeep : ∀ st ∈ readRecords_steps (file.length + 2) (scan_start file),
      st.keeps_connections = true) :
    readRecords_INDEX_DATA self header =
        (none, { self with
          connections_ := self.connections_.set conn
            { c with blocks := c.blocks ++ [⟨some (self.chunks_.length - 1)⟩] } }) ∧
      blocks_of b.connections_ i =
        (readRecords_steps (file.length + 2) (scan_start file)).flatMap
          (fun st => st.index_block i) ∧
      (blocks_of b.connections_ i).length =
        ((readRecords_steps (file.length + 2) (scan_start file)).filter
          (fun st => decide (st.op = header_t.op.INDEX_DATA ∧
            st.header.getUInt "conn" 4 = .ok i))).length ∧
      ∀ block ∈ blocks_of b.connections_ i, block.into_chunk ≠ none := by
  have hscan := open_ok_scan file Embag.init b true hopen
  have hloop : readRecords_loop (file.length + 2) (scan_start file) = (none, b) := hscan
  have hb := readRecords_blocks (file.length + 2) (scan_start file) b hloop hkeep i
  have h0 : blocks_of (scan_start file).connections_ i = [] := rfl
  rw [h0, List.nil_append] at hb
  refine ⟨?_, hb, ?_, ?_⟩
  · have hne : self.chunks_.isEmpty = false := by
      cases hl : self.chunks_ with
      | nil => exact absurd hl hchunks
      | cons x xs => rfl
    have hc' : self.connections_.get? conn = some c := by simpa using hc
    simp only [readRecords_INDEX_DATA, hver, hconn, hcount, hne, hc']
    rfl
  · rw [hb]
    generalize readRecords_steps (file.length + 2) (scan_start file) = steps
    induction steps with
    | nil => rfl
    | cons st steps ih =>
      rw [List.flatMap_cons, List.length_append, ih, List.filter_cons]
      by_cases hst : st.op = header_t.op.INDEX_DATA ∧ st.header.getUInt "conn" 4 = .ok i
      · simp [scan_step.index_block, hst]
        omega
      · simp [scan_step.index_block, hst]
  · intro block hblock
    rw [hb, List.mem_flatMap] at hblock
    obtain ⟨st, _, hmem⟩ := hblock
    unfold scan_step.index_block at hmem
    split_ifs at hmem
    · simp only [List.mem_singleton] at hmem
      rw [hmem]
      simp
    · cases hmem

theorem index_data_appends_block_witness :
    readRecords_INDEX_DATA (open_ sample_indexed_bag Embag.init).2 (sample_index_header 1) =
        (none, { (open_ sample_indexed_bag Embag.init).2 with
          connections_ := (open_ sample_indexed_bag Embag.init).2.connections_.set 1
            { ({ blocks := [⟨some 1⟩], id := 0, topic := [], data := connection_data_t.init } :
                connection_record_t) with
              blocks := ({ blocks := [⟨some 1⟩], id := 0, topic := [],
                           data := connection_data_t.init } : connection_record_t).blocks ++
                [⟨some ((open_ sample_indexed_bag Embag.init).2.chunks_.length - 1)⟩] } }) ∧
      blocks_of (open_ sample_indexed_bag Embag.init).2.connections_ 0 =
        (readRecords_steps (sample_indexed_bag.length + 2) (scan_start sample_indexed_bag)).flatMap
          (fun st => st.index_block 0) ∧
      (blocks_of (open_ sample_indexed_bag Embag.init).2.connections_ 0).length =
        ((readRecords_steps (sample_indexed_bag.length + 2)
          (scan_start sample_indexed_bag)).filter
          (fun st => decide (st.op = header_t.op.INDEX_DATA ∧
            st.header.getUInt "conn" 4 = .ok 0))).length ∧
      ∀ block ∈ blocks_of (open_ sample_indexed_bag Embag.init).2.connections_ 0,
        block.into_chunk ≠ none :=
  index_data_appends_block (open_ sample_indexed_bag Embag.init).2 (sample_index_header 1) 1 1 0
    { blocks := [⟨some 1⟩], id := 0, topic := [], data := connection_data_t.init }
    sample_indexed_bag (open_ sample_indexed_bag Embag.init).2 0
    (by decide) (by decide) (by decide) (by decide) (by decide) (by decide) (by decide)

/-- C13 (counterexample): in a bag whose connection 0 is named by one INDEX_DATA record, a
later BAG_HEADER record with `conn_count` 0 and another one with `conn_count` 1 leave connection
0 without any block, and the scan succeeds. -/
theorem blocks_lost_by_resize :
    (open_ sample_resized_bag Embag.init).1 = .ok true ∧
      ((readRecords_steps (sample_resized_bag.length + 2) (scan_start sample_resized_bag)).filter
        (fun st => decide (st.op = header_t.op.INDEX_DATA ∧
          st.header.getUInt "conn" 4 = .ok 0))).length = 1 ∧
      (open_ sample_resized_bag Embag.init).2.connections_.map (fun c => c.blocks) = [[]] := by
  decide

theorem length_resize {α : Type} (v : List α) (n : Nat) (init : α) :
    (resize v n init).length = n := by
  simp only [resize, List.length_append, List.length_take, List.length_replicate]
  omega

theorem connection_ids_resize (v : List connection_record_t) (n : Nat)
    (h : connection_ids v) : connection_ids (resize v n connection_record_t.init) := by
  intro i c hc
  unfold resize at hc
  by_cases hi : i < (v.take n).length
  · rw [List.getElem?_append_left hi, List.getElem?_take] at hc
    split_ifs at hc with h1
    exact h i c hc
  · rw [List.getElem?_append_right (by omega), List.getElem?_replicate] at hc
    split_ifs at hc
    simp only [Option.some.injEq] at hc
    subst hc
    exact Or.inr ⟨rfl, rfl⟩

theorem connection_ids_set (v : List connection_record_t) (conn : Nat)
    (c' : connection_record_t) (h : connection_ids v)
    (hc' : (c'.topic ≠ [] ∧ c'.id = conn) ∨ (c'.topic = [] ∧ c'.id = 0)) :
    connection_ids (v.set conn c') := by
  intro i c hc
  by_cases hi : conn = i
  · subst hi
    rw [List.getElem?_set_self'] at hc
    rcases hv : v[conn]? with _ | x
    · rw [hv] at hc; cases hc
    · rw [hv] at hc
      simp at hc
      subst hc
      exact hc'
  · rw [List.getElem?_set_ne hi] at hc
    exact h i c hc

/-- An iteration that raises nothing keeps the ids of the connection table, and the size of the
table but for a BAG_HEADER record, which sets it to its `conn_count`. -/
theorem scan_step_connections (st : scan_step) (b : Embag) (h : st.result = (none, b))
    (hq : connection_ids st.self.connections_) :
    connection_ids b.connections_ ∧
      last_conn_count b.connections_.length [] =
        last_conn_count st.self.connections_.length [st] := by
  unfold scan_step.result at h
  rcases readRecords_switch_ok _ _ _ _ _ _ h with ⟨hop, n, ip, hn, rfl⟩ | ⟨hop, c, _, _, rfl⟩ |
    ⟨hop, conn, c, hconn, _, hc, rfl⟩ | ⟨hop, hb⟩ | ⟨hop, rfl⟩ | ⟨hop, j, c, info, _, rfl⟩
  · exact ⟨connection_ids_resize _ n hq, by simp [last_conn_count, hop, hn, length_resize]⟩
  · exact ⟨hq, by simp [last_conn_count, hop, header_t.op.CHUNK, header_t.op.BAG_HEADER]⟩
  · refine ⟨connection_ids_set _ conn _ hq ?_, by
      simp [last_conn_count, hop, header_t.op.INDEX_DATA, header_t.op.BAG_HEADER]⟩
    exact hq conn c hc
  · rcases hb with rfl | ⟨conn, topic, c, data, schemata, hne, hc, rfl⟩
    · exact ⟨hq, by
        simp [last_conn_count, hop, header_t.op.CONNECTION, header_t.op.BAG_HEADER]⟩
    · exact ⟨connection_ids_set _ conn _ hq (Or.inl ⟨hne, rfl⟩), by
        simp [last_conn_count, hop, header_t.op.CONNECTION, header_t.op.BAG_HEADER]⟩
  · exact ⟨hq, by
      simp [last_conn_count, hop, header_t.op.MESSAGE_DATA, header_t.op.BAG_HEADER]⟩
  · exact ⟨hq, by
      simp [last_conn_count, hop, header_t.op.CHUNK_INFO, header_t.op.BAG_HEADER]⟩

/-- The connection table after a scan that raises nothing. -/
theorem readRecords_connections (fuel : Nat) (self b : Embag)
    (h : readRecords_loop fuel self = (none, b)) (hq : connection_ids self.connections_) :
    connection_ids b.connections_ ∧
      b.connections_.length =
        last_conn_count self.connections_.length (readRecords_steps fuel self) := by
  have key := readRecords_run_induct
    (fun self steps b => connection_ids self.connections_ →
      connection_ids b.connections_ ∧
        b.connections_.length = last_conn_count self.connections_.length steps)
    (fun self hq => ⟨hq, rfl⟩)
    (fun self st b steps b' hself _ _ _ hres ih hq => by
      have hq' : connection_ids st.self.connections_ := by rw [hself]; exact hq
      obtain ⟨h1, h2⟩ := scan_step_connections st b hres hq'
      obtain ⟨h3, h4⟩ := ih h1
      refine ⟨h3, ?_⟩
      rw [h4]
      simp only [last_conn_count] at h2 ⊢
      rw [h2, hself])
    fuel self b h
  exact key hq

/-- C15 (amended): after every successful scan, every entry `i` of the connection table that
holds a topic, as a CONNECTION record with a non-empty topic leaves it, has the id `i`, every
other entry has the id 0, and the table has the size given by the `conn_count` of the last
BAG_HEADER record scanned, 0 when there is none. -/
theorem connection_ids_after_scan (file : List Nat) (b : Embag)
    (hopen : open_ file Embag.init = (.ok true, b)) :
    (∀ (i : Nat) (c : connection_record_t), b.connections_[i]? = some c →
        (c.topic ≠ [] ∧ c.id = i) ∨ (c.topic = [] ∧ c.id = 0)) ∧
      b.connections_.length =
        last_conn_count 0 (readRecords_steps (file.length + 2) (scan_start file)) := by
  have hscan := open_ok_scan file Embag.init b true hopen
  have hloop : readRecords_loop (file.length + 2) (scan_start file) = (none, b) := hscan
  exact readRecords_connections (file.length + 2) (scan_start file) b hloop
    (fun i c hc => by cases hc)

theorem connection_ids_after_scan_witness :
    (∀ (i : Nat) (c : connection_record_t),
        (open_ sample_rebound_connection Embag.init).2.connections_[i]? = some c →
        (c.topic ≠ [] ∧ c.id = i) ∨ (c.topic = [] ∧ c.id = 0)) ∧
      (open_ sample_rebound_connection Embag.init).2.connections_.length =
        last_conn_count 0 (readRecords_steps (sample_rebound_connection.length + 2)
          (scan_start sample_rebound_connection)) :=
  connection_ids_after_scan sample_rebound_connection
    (open_ sample_rebound_connection Embag.init).2 (by decide)

/-- C15 (counterexample): a bag that announces three connections and holds no CONNECTION record
is scanned successfully, and the entries 1 and 2 of its connection table have the id 0. -/
theorem unannounced_connection_id :
    (open_ sample_unannounced_bag Embag.init).1 = .ok true ∧
      (open_ sample_unannounced_bag Embag.init).2.connections_.map (fun c => c.id) =
        [0, 0, 0] := by
  decide

/-! ## The chunk table -/

theorem readRecords_parse_definition_chunks (self : Embag) (topic definition : List Nat) :
    (readRecords_parse_definition self topic definition).2.chunks_ = self.chunks_ ∧
      (readRecords_parse_definition self topic definition).2.bag_stream_ = self.bag_stream_ := by
  unfold readRecords_parse_definition
  generalize Qi.phrase_parse ros_msg_grammar.msg ros_msg_skipper.skip definition = r
  obtain ⟨val, rest⟩ := r
  cases val with
  | none => simp only; split_ifs <;> exact ⟨rfl, rfl⟩
  | some ast =>
    cases rest with
    | nil => exact ⟨rfl, rfl⟩
    | cons x xs => simp only; split_ifs <;> exact ⟨rfl, rfl⟩

/-- A switch that raises an error leaves the chunk table and the stream as they were. -/
theorem readRecords_switch_error (self : Embag) (pos : Int) (record : record_t)
    (header : header_t) (op : Nat) (e : Exn) (b : Embag)
    (h : readRecords_switch self pos record header op = (some e, b)) :
    b.chunks_ = self.chunks_ ∧ b.bag_stream_ = self.bag_stream_ := by
  unfold readRecords_switch at h
  split_ifs at h
  · unfold readRecords_BAG_HEADER at h
    repeat' split at h
    all_goals first
      | (cases h; done)
      | (simp only [Prod.mk.injEq] at h; obtain ⟨_, rfl⟩ := h; exact ⟨rfl, rfl⟩)
  · unfold readRecords_CHUNK at h
    repeat' split at h
    all_goals first
      | (cases h; done)
      | (simp only [Prod.mk.injEq] at h; obtain ⟨_, rfl⟩ := h; exact ⟨rfl, rfl⟩)
  · unfold readRecords_INDEX_DATA at h
    repeat' split at h
    all_goals first
      | (cases h; done)
      | (simp only [Prod.mk.injEq] at h; obtain ⟨_, rfl⟩ := h; exact ⟨rfl, rfl⟩)
  · unfold readRecords_CONNECTION at h
    split at h
    · simp only [Prod.mk.injEq] at h; obtain ⟨_, rfl⟩ := h; exact ⟨rfl, rfl⟩
    · split at h
      · simp only [Prod.mk.injEq] at h; obtain ⟨_, rfl⟩ := h; exact ⟨rfl, rfl⟩
      · split_ifs at h
        · cases h
        · split at h
          · simp only [Prod.mk.injEq] at h; obtain ⟨_, rfl⟩ := h; exact ⟨rfl, rfl⟩
          · split at h
            · simp only [Prod.mk.injEq] at h; obtain ⟨_, rfl⟩ := h; exact ⟨rfl, rfl⟩
            · split at h
              · simp only [Prod.mk.injEq] at h; obtain ⟨_, rfl⟩ := h; exact ⟨rfl, rfl⟩
              · rename_i self1 hreg
                unfold readRecords_register at hreg
                split at hreg
                · cases hreg
                · simp only [Option.some.injEq] at hreg
                  have key : ∀ s t d, readRecords_parse_definition s t d = (some e, b) →
                      b.chunks_ = s.chunks_ ∧ b.bag_stream_ = s.bag_stream_ := fun s t d hh => by
                    have hp := readRecords_parse_definition_chunks s t d
                    rw [hh] at hp
                    exact hp
                  have hp := key _ _ _ h
                  subst hreg
                  exact hp
  · cases h
  · unfold readRecords_CHUNK_INFO at h
    repeat' split at h
    all_goals first
      | (cases h; done)
      | (simp only [Prod.mk.injEq] at h; obtain ⟨_, rfl⟩ := h; exact ⟨rfl, rfl⟩)
  · simp only [Prod.mk.injEq] at h; obtain ⟨_, rfl⟩ := h; exact ⟨rfl, rfl⟩

/-- A CHUNK_INFO case that raises nothing has found a chunk at `chunk_pos`. -/
theorem readRecords_CHUNK_INFO_found (self : Embag) (header : header_t) (b : Embag)
    (h : readRecords_CHUNK_INFO self header = (none, b)) :
    ∃ chunk_pos i, header.getUInt "chunk_pos" 8 = .ok chunk_pos ∧
      find_chunk chunk_pos self.chunks_ = some i := by
  unfold readRecords_CHUNK_INFO at h
  split at h
  · cases h
  · split at h
    · cases h
    · split at h
      · cases h
      · split at h
        · cases h
        · split at h
          · cases h
          · split at h
            · cases h
            · rename_i _ _ _ _ chunk_pos hpos _ _ _ _ _ _ _ _ _ _ i hi
              exact ⟨chunk_pos, i, hpos, hi⟩

theorem scan_chunks_of_eq (file : List Nat) (self b : Embag) (hc : b.chunks_ = self.chunks_)
    (hs : b.bag_stream_ = self.bag_stream_) (h : scan_chunks file self) : scan_chunks file b := by
  unfold scan_chunks at h ⊢
  rw [hc, hs]
  exact h

theorem set_eq_of_getElem? {α : Type} (l : List α) (i : Nat) (a : α) (h : l[i]? = some a) :
    l.set i a = l := by
  induction l generalizing i with
  | nil => rfl
  | cons x xs ih =>
    cases i with
    | zero =>
      simp only [List.getElem?_cons_zero, Option.some.injEq] at h
      rw [List.set_cons_zero, h]
    | succ i =>
      simp only [List.getElem?_cons_succ] at h
      rw [List.set_cons_succ, ih i h]

theorem mem_of_getElem?_some {α : Type} (l : List α) (i : Nat) (a : α) (h : l[i]? = some a) :
    a ∈ l := by
  obtain ⟨h1, h2⟩ := List.getElem?_eq_some_iff.1 h
  rw [← h2]
  exact List.getElem_mem h1

theorem chunk_table_ordered_info (file : List Nat) (chunks : List chunk_t) (i : Nat)
    (c : chunk_t) (info : chunk_info_t) (hc : chunks[i]? = some c)
    (h : chunk_table_ordered file chunks) :
    chunk_table_ordered file (chunks.set i { c with info := info }) := by
  obtain ⟨h1, h2⟩ := h
  have hmem : c ∈ chunks := mem_of_getElem?_some _ _ _ hc
  refine ⟨?_, ?_⟩
  · have e : (chunks.set i { c with info := info }).map (fun c => c.offset) =
        chunks.map (fun c => c.offset) := by
      rw [List.map_set]
      exact set_eq_of_getElem? _ i _ (by rw [List.getElem?_map, hc]; rfl)
    have h1' : List.Pairwise (· < ·) (chunks.map (fun c => c.offset)) :=
      List.pairwise_map.2 h1
    rw [← e] at h1'
    exact List.pairwise_map.1 h1'
  · intro c' hc'
    rcases List.mem_or_eq_of_mem_set hc' with hin | rfl
    · exact h2 c' hin
    · exact h2 c hmem

theorem offsets_below_info (chunks : List chunk_t) (i : Nat) (c : chunk_t) (info : chunk_info_t)
    (p : Nat) (hc : chunks[i]? = some c) (h : ∀ c ∈ chunks, c.offset < p) :
    ∀ c' ∈ chunks.set i { c with info := info }, c'.offset < p := by
  intro c' hc'
  rcases List.mem_or_eq_of_mem_set hc' with hin | rfl
  · exact h c' hin
  · exact h c (mem_of_getElem?_some _ _ _ hc)

/-- The record that `readRecord` reads without failure takes eight bytes or more. -/
theorem readRecord_advance (s : Stream) (hf : s.failed = false)
    (h : (readRecord s).2.failed = false) : s.pos + 8 ≤ (readRecord s).2.pos := by
  have := (readRecord_failed_iff s hf).2 h
  omega

/-- The bag after `readRecord` in an iteration of the scan. -/
theorem scan_chunks_read (file : List Nat) (self : Embag) (h : scan_chunks file self)
    (hgo : ¬ (self.bag_stream_.tellg = -1 ∨
      self.bag_stream_.tellg = (self.bag_stream_.data.length : Int))) :
    scan_chunks file { self with bag_stream_ := (readRecord self.bag_stream_).2 } := by
  obtain ⟨h1, h2, h3, h4⟩ := h
  have hf : self.bag_stream_.failed = false := by
    by_contra hf
    simp only [Bool.not_eq_false] at hf
    exact hgo (Or.inl (by simp [Stream.tellg, hf]))
  obtain ⟨h5, h6⟩ := h4 hf
  refine ⟨?_, ?_, h3, ?_⟩
  · simp only [readRecord_is_open, h1]
  · simp only [readRecord_data, h2]
  · intro hf'
    simp only at hf' ⊢
    have := readRecord_advance _ hf hf'
    exact ⟨by omega, fun c hc => by have := h6 c hc; omega⟩

/-- The bag after the switch in an iteration of the scan. -/
theorem scan_chunks_switch (file : List Nat) (self : Embag) (h : scan_chunks file self)
    (hgo : ¬ (self.bag_stream_.tellg = -1 ∨
      self.bag_stream_.tellg = (self.bag_stream_.data.length : Int)))
    (header : header_t) (op : Nat)
    (hh : readHeader self.bag_stream_.data (readRecord self.bag_stream_).1 = .ok header)
    (hop : header.getOp = .ok op) (r : Option Exn) (b : Embag)
    (hres : readRecords_switch { self with bag_stream_ := (readRecord self.bag_stream_).2 }
      self.bag_stream_.tellg (readRecord self.bag_stream_).1 header op = (r, b)) :
    scan_chunks file b := by
  have hread := scan_chunks_read file self h hgo
  cases r with
  | some e =>
    obtain ⟨e1, e2⟩ := readRecords_switch_error _ _ _ _ _ _ _ hres
    exact scan_chunks_of_eq file _ b e1 e2 hread
  | none =>
    rcases readRecords_switch_ok _ _ _ _ _ _ hres with ⟨_, n, ip, _, rfl⟩ | ⟨hc, c, hrec, hoff, rfl⟩ |
      ⟨_, conn, c, _, _, _, rfl⟩ | ⟨_, hb⟩ | ⟨_, rfl⟩ | ⟨_, j, c, info, hj, rfl⟩
    · exact hread
    · obtain ⟨h1, h2, h3, h4⟩ := h
      have hf : self.bag_stream_.failed = false := by
        by_contra hf
        simp only [Bool.not_eq_false] at hf
        exact hgo (Or.inl (by simp [Stream.tellg, hf]))
      obtain ⟨h5, h6⟩ := h4 hf
      have hpos : self.bag_stream_.tellg = (self.bag_stream_.pos : Int) := by
        simp [Stream.tellg, hf]
      have hoff' : c.offset = self.bag_stream_.pos := by rw [hoff, hpos]; rfl
      have hstream : self.bag_stream_ = ⟨true, file, c.offset, false⟩ := by
        rcases hs : self.bag_stream_ with ⟨o, d, p, f⟩
        rw [hs] at h1 h2 hf hoff'
        simp only at h1 h2 hf hoff'
        rw [h1, h2, hf, hoff']
      obtain ⟨g1, g2, g3, g4⟩ := hread
      refine ⟨g1, g2, ⟨?_, ?_⟩, ?_⟩
      · simp only
        rw [List.pairwise_append]
        refine ⟨h3.1, List.pairwise_singleton _ _, ?_⟩
        intro a ha a' ha'
        simp only [List.mem_singleton] at ha'
        subst ha'
        rw [hoff']
        exact h6 a ha
      · intro a ha
        simp only [List.mem_append, List.mem_singleton] at ha
        rcases ha with ha | rfl
        · exact h3.2 a ha
        · refine ⟨by omega, ?_, header, ?_, ?_⟩
          · rw [hrec, ← hstream]
          · rw [hrec, ← h2]; exact hh
          · rw [hop, hc]
      · intro hf'
        obtain ⟨g5, g6⟩ := g4 hf'
        refine ⟨g5, ?_⟩
        intro a ha
        simp only [List.mem_append, List.mem_singleton] at ha
        rcases ha with ha | rfl
        · exact g6 a ha
        · have := readRecord_advance _ hf hf'
          simp only at this ⊢
          omega
    · exact hread
    · rcases hb with rfl | ⟨conn, topic, c, data, schemata, _, _, rfl⟩
      · exact hread
      · exact hread
    · exact hread
    · obtain ⟨g1, g2, g3, g4⟩ := hread
      exact ⟨g1, g2, chunk_table_ordered_info file _ j c info hj g3,
        fun hf' => ⟨(g4 hf').1, offsets_below_info _ j c info _ hj (g4 hf').2⟩⟩

/-- Every bag that a scan goes through keeps what `scan_chunks` says. -/
theorem readRecords_states_chunks (file : List Nat) :
    ∀ (fuel : Nat) (self : Embag), scan_chunks file self →
      ∀ b ∈ readRecords_states fuel self, scan_chunks file b := by
  intro fuel
  induction fuel with
  | zero =>
    intro self h b hb
    simp only [readRecords_states, readRecords_steps, readRecords_loop, List.flatMap_nil,
      List.nil_append, List.mem_cons, List.mem_singleton, List.not_mem_nil, or_false,
      or_self] at hb
    rw [hb]; exact h
  | succ fuel ih =>
    intro self h b hb
    unfold readRecords_states at hb
    rcases readRecords_iteration fuel self with ⟨_, hs, hl⟩ | ⟨hgo, hcase⟩
    · rw [hs, hl] at hb
      simp only [List.flatMap_nil, List.nil_append, List.mem_cons, List.mem_singleton,
        List.not_mem_nil, or_false, or_self] at hb
      rw [hb]; exact h
    · rcases hcase with ⟨e, hs, hl⟩ | ⟨header, op, st, hst, hh, hop, hsw⟩
      · rw [hs, hl] at hb
        simp only [List.flatMap_nil, List.nil_append, List.mem_cons, List.mem_singleton,
          List.not_mem_nil, or_false] at hb
        rcases hb with rfl | rfl
        · exact h
        · exact scan_chunks_read file self h hgo
      · have hself : st.self = { self with bag_stream_ := (readRecord self.bag_stream_).2 } := by
          rw [hst]
        have hres : ∀ r b', st.result = (r, b') → scan_chunks file b' := by
          intro r b' hr
          unfold scan_step.result at hr
          rw [hst] at hr
          exact scan_chunks_switch file self h hgo header op hh hop r b' hr
        rcases hsw with ⟨e, b', hr, hs, hl⟩ | ⟨b', hr, hs, hl⟩
        · rw [hs, hl] at hb
          simp only [List.flatMap_cons, List.flatMap_nil, List.append_nil, List.cons_append,
            List.nil_append, List.mem_cons, List.mem_singleton, List.not_mem_nil, or_false,
            hr] at hb
          rcases hb with rfl | rfl | rfl | rfl
          · exact h
          · rw [hself]; exact scan_chunks_read file self h hgo
          · exact hres _ _ hr
          · exact hres _ _ hr
        · rw [hs, hl] at hb
          simp only [List.flatMap_cons, List.cons_append, List.nil_append, List.mem_cons,
            hr] at hb
          rcases hb with rfl | rfl | rfl | hb
          · exact h
          · rw [hself]; exact scan_chunks_read file self h hgo
          · exact hres _ _ hr
          · exact ih b' (hres _ _ hr) b (by
              unfold readRecords_states
              exact List.mem_cons_of_mem _ hb)

theorem scan_chunks_start (file : List Nat) : scan_chunks file (scan_start file) :=
  ⟨rfl, rfl, ⟨List.Pairwise.nil, fun c hc => by cases hc⟩,
    fun _ => ⟨Nat.le_refl 13, fun c hc => by cases hc⟩⟩

/-- In a table with strictly increasing offsets no two entries have the same offset. -/
theorem chunk_offset_unique (chunks : List chunk_t)
    (h : List.Pairwise (fun c c' => c.offset < c'.offset) chunks) (i j : Nat) (c c' : chunk_t)
    (hi : chunks[i]? = some c) (hj : chunks[j]? = some c') (he : c.offset = c'.offset) :
    i = j := by
  rw [List.pairwise_iff_getElem] at h
  obtain ⟨hi1, hi2⟩ := List.getElem?_eq_some_iff.1 hi
  obtain ⟨hj1, hj2⟩ := List.getElem?_eq_some_iff.1 hj
  rcases Nat.lt_trichotomy i j with hlt | heq | hgt
  · have := h i j hi1 hj1 hlt
    rw [hi2, hj2] at this
    omega
  · exact heq
  · have := h j i hj1 hi1 hgt
    rw [hi2, hj2] at this
    omega

theorem scan_step_mem_states (fuel : Nat) (self : Embag) (st : scan_step)
    (h : st ∈ readRecords_steps fuel self) : st.self ∈ readRecords_states fuel self := by
  unfold readRecords_states
  refine List.mem_cons_of_mem _ (List.mem_append_left _ ?_)
  rw [List.mem_flatMap]
  exact ⟨st, h, List.mem_cons_self _ _⟩

theorem readRecords_last_state (fuel : Nat) (self : Embag) :
    (readRecords_loop fuel self).2 ∈ readRecords_states fuel self := by
  unfold readRecords_states
  exact List.mem_cons_of_mem _ (List.mem_append_right _ (List.mem_singleton.2 rfl))

/-- C20: in every bag that a scan of `file` from a fresh bag goes through, whatever the number
of iterations, the chunk table lists the chunks in file order: the offsets increase strictly,
each offset is at least 13 and is the place where `readRecord` reads the record of the chunk,
whose header has the opcode CHUNK. Hence no two entries of the table have the same offset, and
every CHUNK_INFO record that the scan accepts has exactly one entry with the offset
`chunk_pos`. -/
theorem chunk_offsets_increase (file : List Nat) (fuel : Nat) :
    (∀ b ∈ readRecords_states fuel (scan_start file),
        chunk_table_ordered file b.chunks_ ∧
          ∀ (i j : Nat) (c c' : chunk_t), b.chunks_[i]? = some c → b.chunks_[j]? = some c' →
            c.offset = c'.offset → i = j) ∧
      ∀ st ∈ readRecords_steps fuel (scan_start file),
        st.op = header_t.op.CHUNK_INFO → st.result.1 = none →
          ∃ chunk_pos, st.header.getUInt "chunk_pos" 8 = .ok chunk_pos ∧
            ∃! i : Nat, ∃ c : chunk_t, st.self.chunks_[i]? = some c ∧ c.offset = chunk_pos := by
  have hall := readRecords_states_chunks file fuel (scan_start file) (scan_chunks_start file)
  refine ⟨fun b hb => ?_, fun st hst hop hres => ?_⟩
  · obtain ⟨_, _, h3, _⟩ := hall b hb
    exact ⟨h3, chunk_offset_unique b.chunks_ h3.1⟩
  · obtain ⟨_, _, h3, _⟩ := hall st.self (scan_step_mem_states fuel _ st hst)
    have hinfo : readRecords_CHUNK_INFO st.self st.header = (none, st.result.2) := by
      have e : st.result = readRecords_CHUNK_INFO st.self st.header := by
        unfold scan_step.result readRecords_switch
        rw [hop]
        simp [header_t.op.CHUNK_INFO, header_t.op.BAG_HEADER, header_t.op.CHUNK,
          header_t.op.INDEX_DATA, header_t.op.CONNECTION, header_t.op.MESSAGE_DATA]
      rw [← e]
      exact Prod.ext hres rfl
    obtain ⟨chunk_pos, i, hpos, hfind⟩ := readRecords_CHUNK_INFO_found _ _ _ hinfo
    obtain ⟨c, hc, hoff, _⟩ := find_chunk_some _ _ i hfind
    refine ⟨chunk_pos, hpos, i, ⟨c, hc, hoff⟩, ?_⟩
    rintro j ⟨c', hc', hoff'⟩
    exact chunk_offset_unique _ h3.1 j i c' c hc' hc (by rw [hoff, hoff'])

theorem chunk_offsets_increase_witness :
    chunk_table_ordered sample_chunk_bag
        (readRecords_loop (sample_chunk_bag.length + 2) (scan_start sample_chunk_bag)).2.chunks_ ∧
      (readRecords_loop (sample_chunk_bag.length + 2)
        (scan_start sample_chunk_bag)).2.chunks_.map (fun c => c.offset) = [90, 197] :=
  ⟨((chunk_offsets_increase sample_chunk_bag (sample_chunk_bag.length + 2)).1 _
      (readRecords_last_state _ _)).1, by decide⟩

/-! ## Truncated records and unchecked indices -/

/-- C17 (a defect of the code): an INDEX_DATA record and a CONNECTION record whose `conn` is
not below the size of the connection table index `connections_` outside its bounds, and an
INDEX_DATA record before any CHUNK record takes `back()` of the empty chunk table; no check
raises an error before the access. -/
theorem index_outside_tables :
    (open_ sample_index_outside Embag.init).1 =
        .error (.undefined_behaviour "connections_[connection_id] out of range") ∧
      (open_ sample_index_before_chunk Embag.init).1 =
        .error (.undefined_behaviour "chunks_.back() of an empty vector") ∧
      (open_ sample_connection_outside Embag.init).1 =
        .error (.undefined_behaviour "connections_[connection_id] out of range") ∧
      (open_ sample_connection_before_header Embag.init).1 =
        .error (.undefined_behaviour "connections_[connection_id] out of range") := by
  decide

/-! ## The connections announced in a scan -/

/-- What case `CONNECTION` has done when it raises nothing. -/
theorem readRecords_CONNECTION_ok (self : Embag) (record : record_t) (header : header_t)
    (b : Embag) (h : readRecords_CONNECTION self record header = (none, b)) :
    (connection_of self.bag_stream_.data record header = none ∧ b = self) ∨
      ∃ (conn : Nat) (topic : List Nat) (data : connection_data_t) (c : connection_record_t)
        (ast : ros_msg_def),
        connection_of self.bag_stream_.data record header = some (conn, topic, data) ∧
        topic ≠ [] ∧ self.connections_[conn]? = some c ∧
        Qi.phrase_parse ros_msg_grammar.msg ros_msg_skipper.skip data.message_definition =
          ⟨some ast, []⟩ ∧
        b = { self with
          connections_ :=
            self.connections_.set conn { c with id := conn, topic := topic, data := data },
          topic_connection_map_ := self.topic_connection_map_.assign topic ⟨conn, true⟩,
          message_schemata_ := self.message_schemata_.assign topic ast } := by
  unfold readRecords_CONNECTION at h
  split at h
  · cases h
  · split at h
    · cases h
    · split_ifs at h with hempty
      · rename_i _ conn h1 _ topic h2
        simp only [Prod.mk.injEq, true_and] at h
        left
        refine ⟨?_, h.symm⟩
        unfold connection_of
        rw [h1, h2]
        simp only
        rw [if_pos hempty]
      · split at h
        · cases h
        · split at h
          · cases h
          · split at h
            · cases h
            · rename_i _ conn h1 _ topic h2 _ fields h4 _ cd h5 _ self1 hreg
              right
              have hco : connection_of self.bag_stream_.data record header =
                  some (conn, topic, cd) := by
                unfold connection_of
                rw [h1, h2]
                simp only
                rw [if_neg hempty, h4]
                simp only
                rw [h5]
              unfold readRecords_register at hreg
              split at hreg
              · cases hreg
              · rename_i c hc
                simp only [Option.some.injEq] at hreg
                unfold readRecords_parse_definition at h
                have hne : topic ≠ [] := by
                  intro ht
                  rw [ht] at hempty
                  exact hempty rfl
                rcases hr : Qi.phrase_parse ros_msg_grammar.msg ros_msg_skipper.skip
                  cd.message_definition with ⟨val, rest⟩
                rw [hr] at h
                cases val with
                | none =>
                  simp only at h
                  split_ifs at h <;> cases h
                | some ast =>
                  cases rest with
                  | nil =>
                    simp only [Prod.mk.injEq, true_and] at h
                    refine ⟨conn, topic, cd, c, ast, hco, hne, by simpa using hc, hr, ?_⟩
                    rw [← h, ← hreg]
                  | cons x xs =>
                    simp only at h
                    split_ifs at h <;> cases h

theorem getElem?_resize_of_lt (v : List connection_record_t) (n a : Nat)
    (c : connection_record_t) (h : a < n) (hc : v[a]? = some c) :
    (resize v n connection_record_t.init)[a]? = some c := by
  unfold resize
  have hlt : a < v.length := (List.getElem?_eq_some_iff.1 hc).1
  rw [List.getElem?_append_left (by rw [List.length_take]; omega), List.getElem?_take,
    if_pos h]
  exact hc

theorem connection_ptr.resized_eq (p : connection_ptr) (size n : Nat)
    (h : n ≤ size ∧ p.index < n) : p.resized size n = p := by
  obtain ⟨i, v⟩ := p
  simp only at h
  simp [connection_ptr.resized, h.1, h.2]

theorem scan_step_switch_CONNECTION (st : scan_step) (hop : st.op = header_t.op.CONNECTION) :
    readRecords_switch st.self st.pos st.record st.header st.op =
      readRecords_CONNECTION st.self st.record st.header := by
  unfold readRecords_switch
  rw [hop]
  simp [header_t.op.CONNECTION, header_t.op.BAG_HEADER, header_t.op.CHUNK,
    header_t.op.INDEX_DATA]

/-- An iteration that raises nothing and announces no connection leaves the registered topics
and the schemata as they are, every pointer of the topic map that it keeps valid, and every
entry of the connection table that it keeps in its place, but for the blocks of the entry. -/
theorem scan_step_quiet (st : scan_step) (b : Embag) (hres : st.result = (none, b))
    (hq : st.connection = none) :
    Dict.keys b.topic_connection_map_ = Dict.keys st.self.topic_connection_map_ ∧
      (∀ (t : List Nat) (p : connection_ptr), st.self.topic_connection_map_.find t = some p →
        st.keeps_pointer p.index = true → b.topic_connection_map_.find t = some p) ∧
      b.message_schemata_ = st.self.message_schemata_ ∧
      ∀ (a : Nat) (c : connection_record_t), st.self.connections_[a]? = some c →
        st.keeps_slot a = true →
        ∃ c' : connection_record_t, b.connections_[a]? = some c' ∧
          c'.id = c.id ∧ c'.topic = c.topic ∧ c'.data = c.data := by
  unfold scan_step.result at hres
  rcases readRecords_switch_ok _ _ _ _ _ _ hres with ⟨hop, n, ip, hn, rfl⟩ | ⟨_, c, _, _, rfl⟩ |
    ⟨_, conn, c, _, _, hc, rfl⟩ | ⟨hop, _⟩ | ⟨_, rfl⟩ | ⟨_, j, c, info, _, rfl⟩
  · refine ⟨Dict.keys_map _ (fun p : connection_ptr => p.resized st.self.connections_.length n),
      fun t p hp hk => ?_, rfl, fun a c hc hk => ?_⟩
    · have hkeep : n ≤ st.self.connections_.length ∧ p.index < n := by
        unfold scan_step.keeps_pointer at hk
        rw [if_pos hop, hn] at hk
        simpa using hk
      have hf := Dict.find_map st.self.topic_connection_map_
        (fun p : connection_ptr => p.resized st.self.connections_.length n) t
      simp only at hf ⊢
      rw [hf, hp, Option.map_some', connection_ptr.resized_eq p _ n hkeep]
    · have hlt : a < n := by
        unfold scan_step.keeps_slot at hk
        rw [if_pos hop, hn] at hk
        simpa using hk
      exact ⟨c, getElem?_resize_of_lt _ n a c hlt hc, rfl, rfl, rfl⟩
  · exact ⟨rfl, fun t p hp _ => hp, rfl, fun a c hc _ => ⟨c, hc, rfl, rfl, rfl⟩⟩
  · refine ⟨rfl, fun t p hp _ => hp, rfl, fun a c' hc' _ => ?_⟩
    by_cases ha : conn = a
    · subst ha
      rw [hc] at hc'
      simp only [Option.some.injEq] at hc'
      subst hc'
      refine ⟨{ c with blocks := c.blocks ++ [⟨some (st.self.chunks_.length - 1)⟩] }, ?_,
        rfl, rfl, rfl⟩
      simp only
      rw [List.getElem?_set_self (List.getElem?_eq_some_iff.1 hc).1]
    · refine ⟨c', ?_, rfl, rfl, rfl⟩
      simp only
      rw [List.getElem?_set_ne ha]
      exact hc'
  · rw [scan_step_switch_CONNECTION st hop] at hres
    unfold scan_step.connection at hq
    rw [if_pos hop] at hq
    rcases readRecords_CONNECTION_ok _ _ _ _ hres with ⟨_, rfl⟩ | ⟨_, _, _, _, _, hsome, _⟩
    · exact ⟨rfl, fun t p hp _ => hp, rfl, fun a c hc _ => ⟨c, hc, rfl, rfl, rfl⟩⟩
    · rw [hq] at hsome
      cases hsome
  · exact ⟨rfl, fun t p hp _ => hp, rfl, fun a c hc _ => ⟨c, hc, rfl, rfl, rfl⟩⟩
  · exact ⟨rfl, fun t p hp _ => hp, rfl, fun a c hc _ => ⟨c, hc, rfl, rfl, rfl⟩⟩

/-- An iteration that raises nothing and announces a connection has entered it in the table and
bound its topic to a pointer to the entry and to the schema parsed from its definition. -/
theorem scan_step_announces (st : scan_step) (b : Embag) (hres : st.result = (none, b))
    (conn : Nat) (topic : List Nat) (data : connection_data_t)
    (hq : st.connection = some (conn, topic, data)) :
    st.op = header_t.op.CONNECTION ∧ topic ≠ [] ∧
      ∃ (c : connection_record_t) (ast : ros_msg_def),
        st.self.connections_[conn]? = some c ∧
        Qi.phrase_parse ros_msg_grammar.msg ros_msg_skipper.skip data.message_definition =
          ⟨some ast, []⟩ ∧
        b = { st.self with
          connections_ :=
            st.self.connections_.set conn { c with id := conn, topic := topic, data := data },
          topic_connection_map_ := st.self.topic_connection_map_.assign topic ⟨conn, true⟩,
          message_schemata_ := st.self.message_schemata_.assign topic ast } := by
  unfold scan_step.connection at hq
  by_cases hop : st.op = header_t.op.CONNECTION
  · rw [if_pos hop] at hq
    unfold scan_step.result at hres
    rw [scan_step_switch_CONNECTION st hop] at hres
    rcases readRecords_CONNECTION_ok _ _ _ _ hres with ⟨hnone, _⟩ |
      ⟨conn', topic', data', c, ast, hsome, hne, hc, hp, hb⟩
    · rw [hq] at hnone
      cases hnone
    · rw [hq] at hsome
      simp only [Option.some.injEq, Prod.mk.injEq] at hsome
      obtain ⟨rfl, rfl, rfl⟩ := hsome
      exact ⟨hop, hne, c, ast, hc, hp, hb⟩
  · rw [if_neg hop] at hq
    cases hq

theorem keeps_slot_of_keeps_connections (st : scan_step) (i : Nat)
    (hi : i < st.self.connections_.length) (hk : st.keeps_connections = true) :
    st.keeps_slot i = true := by
  unfold scan_step.keeps_connections at hk
  unfold scan_step.keeps_slot
  split_ifs at hk ⊢ with hop
  · split at hk
    · simp only [decide_eq_true_eq] at hk ⊢
      omega
    · rfl
  · rfl

/-- An iteration that raises nothing and keeps the topics held leaves every registered topic
held by an entry of the connection table. -/
theorem scan_step_topics_held (st : scan_step) (b : Embag) (hres : st.result = (none, b))
    (hk : st.keeps_held_topics = true) (h : topics_held st.self) : topics_held b := by
  obtain ⟨hne, hheld⟩ := h
  unfold scan_step.keeps_held_topics at hk
  simp only [Bool.and_eq_true] at hk
  obtain ⟨hk1, hk2⟩ := hk
  rcases hq : st.connection with _ | ⟨conn, topic, data⟩
  · obtain ⟨q1, _, _, q4⟩ := scan_step_quiet st b hres hq
    refine ⟨fun t ht => hne t (by rw [← q1]; exact ht), fun t ht => ?_⟩
    obtain ⟨i, c, hc, hct⟩ := hheld t (by rw [← q1]; exact ht)
    obtain ⟨c', hc', _, htopic, _⟩ := q4 i c hc
      (keeps_slot_of_keeps_connections st i (List.getElem?_eq_some_iff.1 hc).1 hk1)
    exact ⟨i, c', hc', htopic.trans hct⟩
  · rw [hq] at hk2
    obtain ⟨_, htne, c0, ast, hc0, _, rfl⟩ := scan_step_announces st b hres conn topic data hq
    have hlt : conn < st.self.connections_.length := (List.getElem?_eq_some_iff.1 hc0).1
    have hold : c0.topic = [] ∨ c0.topic = topic := by
      simp only [List.get?_eq_getElem?, hc0, decide_eq_true_eq] at hk2
      exact hk2
    refine ⟨fun t ht => ?_, fun t ht => ?_⟩
    · simp only [Dict.mem_keys_assign] at ht
      rcases ht with rfl | ht
      · exact htne
      · exact hne t ht
    · simp only [Dict.mem_keys_assign] at ht
      by_cases htt : t = topic
      · subst htt
        refine ⟨conn, { c0 with id := conn, topic := t, data := data }, ?_, rfl⟩
        simp only
        rw [List.getElem?_set_self hlt]
      · have ht' : t ∈ Dict.keys st.self.topic_connection_map_ := by
          rcases ht with h | h
          · exact absurd h htt
          · exact h
        obtain ⟨i, c, hc, hct⟩ := hheld t ht'
        have hi : conn ≠ i := by
          intro hci
          subst hci
          rw [hc0] at hc
          simp only [Option.some.injEq] at hc
          subst hc
          rcases hold with h | h
          · exact hne t ht' (hct.symm.trans h)
          · exact htt (hct.symm.trans h)
        refine ⟨i, c, ?_, hct⟩
        simp only
        rw [List.getElem?_set_ne hi]
        exact hc

/-- A scan that raises nothing and whose iterations keep the topics held leaves every registered
topic held by an entry of the connection table. -/
theorem readRecords_topics_held (fuel : Nat) (self b : Embag)
    (h : readRecords_loop fuel self = (none, b))
    (hk : ∀ st ∈ readRecords_steps fuel self, st.keeps_held_topics = true)
    (hs : topics_held self) : topics_held b := by
  have key := readRecords_run_induct
    (fun self steps b' =>
      (∀ st ∈ steps, st.keeps_held_topics = true) → topics_held self → topics_held b')
    (fun self _ hs => hs)
    (fun self st b steps b' hself _ _ _ hres ih hk hs => by
      have hs' : topics_held st.self := by
        unfold topics_held at hs ⊢
        rw [hself]
        exact hs
      exact ih (fun s hs => hk s (List.mem_cons_of_mem _ hs))
        (scan_step_topics_held st b hres (hk st (List.mem_cons_self _ _)) hs'))
    fuel self b h
  exact key hk hs

/-- C6 (amended): for every successfully scanned bag, every non-empty topic held by an entry of
the connection table is a registered topic, and no registered topic is empty; and when no
BAG_HEADER record of the scan shrinks the connection table and no CONNECTION record announces a
connection id whose entry holds another topic already, every registered topic is held by an
entry of the connection table, so that the registered topics are the non-empty topics held by
the entries. -/
theorem topics_cover_connection_topics (file : List Nat) (b : Embag)
    (h : open_ file Embag.init = (.ok true, b)) :
    (∀ c ∈ b.connections_, c.topic ≠ [] → c.topic ∈ b.topic_connection_map_.keys) ∧
      (∀ t ∈ b.topic_connection_map_.keys, t ≠ []) ∧
      ((∀ st ∈ readRecords_steps (file.length + 2) (scan_start file),
          st.keeps_held_topics = true) →
        ∀ t ∈ b.topic_connection_map_.keys, ∃ c ∈ b.connections_, c.topic = t) := by
  obtain ⟨r1, r2⟩ := topics_registered_open file b h
  refine ⟨r1, r2, fun hk t ht => ?_⟩
  have hscan := open_ok_scan file Embag.init b true h
  have hloop : readRecords_loop (file.length + 2) (scan_start file) = (none, b) := hscan
  have hheld := readRecords_topics_held _ _ _ hloop hk
    ⟨fun t ht => (by cases ht), fun t ht => (by cases ht)⟩
  obtain ⟨i, c, hc, hct⟩ := hheld.2 t ht
  exact ⟨c, mem_of_getElem?_some _ i c hc, hct⟩

theorem topics_cover_connection_topics_witness :
    (∀ c ∈ (open_ sample_shared_topic Embag.init).2.connections_, c.topic ≠ [] →
        c.topic ∈ (open_ sample_shared_topic Embag.init).2.topic_connection_map_.keys) ∧
      (∀ t ∈ (open_ sample_shared_topic Embag.init).2.topic_connection_map_.keys, t ≠ []) ∧
      ∀ t ∈ (open_ sample_shared_topic Embag.init).2.topic_connection_map_.keys,
        ∃ c ∈ (open_ sample_shared_topic Embag.init).2.connections_, c.topic = t :=
  ⟨(topics_cover_connection_topics sample_shared_topic
      (open_ sample_shared_topic Embag.init).2 (by decide)).1,
    (topics_cover_connection_topics sample_shared_topic
      (open_ sample_shared_topic Embag.init).2 (by decide)).2.1,
    (topics_cover_connection_topics sample_shared_topic
      (open_ sample_shared_topic Embag.init).2 (by decide)).2.2 (by decide)⟩

end Embag
